import Mathlib

/-!
GEL `Geometry/Graph.cpp`: adjacency-map graph, node reassignment, graph cleaning.

A shallow embedding of `src/include/GEL/Geometry/Graph.cpp`.

* Node and edge handles are natural numbers (`size_t`); the invalid handle is
  `2^64 - 1`.
* The neighbour map of a node is an association list; the table `edge_map`
  is a list of neighbour maps indexed by `NodeID`.
* `Graph.h` is not part of the sources at hand, so the container operations
  and the small members declared there (`isolate_node`, `find_edge`,
  `connect_nodes`, `add_node`, `neighbors`, ...) follow the written
  specification; each such definition says so in its doc comment.
-/

namespace Geometry

/-! ## Data model -/

abbrev NodeID := Nat
abbrev EdgeID := Nat

/-- Special ID value for invalid node: `std::numeric_limits<size_t>::max()`. -/
def InvalidNodeID : NodeID := 2 ^ 64 - 1

/-- Special ID value for invalid edge: `std::numeric_limits<size_t>::max()`. -/
def InvalidEdgeID : EdgeID := 2 ^ 64 - 1

/-- Modelled from the spec: the neighbour-map type of `Graph.h`
("mapping NodeID → EdgeID", iterated in insertion order), as an association
list. Keys are unique in a map. -/
abbrev AdjMap := List (NodeID × EdgeID)

namespace AdjMap

/-- Map lookup `m.find(k)`: `none` stands for the `end()` iterator. -/
def find : AdjMap → NodeID → Option EdgeID
  | [], _ => none
  | (k', e) :: m, k => if k' = k then some e else find m k

/-- Map removal `m.erase(k)`: afterwards no entry has key `k`. -/
def erase : AdjMap → NodeID → AdjMap
  | [], _ => []
  | (k', e) :: m, k => if k' = k then erase m k else (k', e) :: erase m k

/-- Map assignment `m[k] = e`: overwrite the entry of `k` in place, or add a
new entry after the existing ones. -/
def assign : AdjMap → NodeID → EdgeID → AdjMap
  | [], k, e => [(k, e)]
  | (k', e') :: m, k, e => if k' = k then (k, e) :: m else (k', e') :: assign m k e

/-- The keys of the map, in iteration order. -/
def keys (m : AdjMap) : List NodeID := m.map Prod.fst

end AdjMap

/-- Modelled from the spec: the data of class `AMGraph` (declared in
`Graph.h`): the per-node neighbour maps and the counter from which
`connect_nodes` draws fresh edge handles. -/
structure AMGraph where
  edge_map : List AdjMap
  no_edges_created : Nat
deriving DecidableEq, Repr

/-- Apply `f` to the `n`-th neighbour map (`edge_map[n]` used as an lvalue). -/
def updateAt : List AdjMap → Nat → (AdjMap → AdjMap) → List AdjMap
  | [], _, _ => []
  | r :: rs, 0, f => f r :: rs
  | r :: rs, n + 1, f => r :: updateAt rs n f

/-- Read the `n`-th neighbour map (`edge_map[n]` used as an rvalue); an index
past the end, which the program never reads, gives the empty map. -/
def rowAt : List AdjMap → Nat → AdjMap
  | [], _ => []
  | r :: _, 0 => r
  | _ :: rs, n + 1 => rowAt rs n

namespace AMGraph

/-- Number of nodes, `no_nodes()`. -/
def no_nodes (g : AMGraph) : Nat := g.edge_map.length

/-- The neighbour map `edge_map[n]` read as an rvalue. -/
def row (g : AMGraph) (n : NodeID) : AdjMap := rowAt g.edge_map n

/-- The entry `edge_map[a].find(b)`. -/
def entry (g : AMGraph) (a b : NodeID) : Option EdgeID := (g.row a).find b

/-- The statement `edge_map[a].erase(b)`. -/
def erase_entry (g : AMGraph) (a b : NodeID) : AMGraph :=
  { g with edge_map := updateAt g.edge_map a (fun m => m.erase b) }

/-- The statement `edge_map[a][b] = e`. -/
def set_entry (g : AMGraph) (a b : NodeID) (e : EdgeID) : AMGraph :=
  { g with edge_map := updateAt g.edge_map a (fun m => m.assign b e) }

/-- The statement `edge_map[a].clear()`. -/
def clear_row (g : AMGraph) (a : NodeID) : AMGraph :=
  { g with edge_map := updateAt g.edge_map a (fun _ => []) }

/-- Modelled from the spec: `isolate_node(n)` of `Graph.h`, "removes every
edge incident to `n` (for each neighbor, erase the back-reference, then clear
`n`'s own map)". -/
def isolate_node (g : AMGraph) (n : NodeID) : AMGraph :=
  ((g.row n).keys.foldl (fun h m => h.erase_entry m n) g).clear_row n

/-- Modelled from the spec: `find_edge(a, b)` of `Graph.h`, "returns the
connecting EdgeID or `InvalidEdgeID`". -/
def find_edge (g : AMGraph) (a b : NodeID) : EdgeID :=
  match g.entry a b with
  | some e => e
  | none => InvalidEdgeID

/-- One pass of the body of the loop `for(auto& edge: edge_map[n_src])` of
`reassign_node_id` (Graph.cpp lines 31-47). -/
def reassign_step (n_src n_dst : NodeID) (g : AMGraph) (edge : NodeID × EdgeID) : AMGraph :=
  -- Retrieve edge id of neighbor to src
  let n := edge.1
  -- Remove edge going from n back to src
  let g1 := g.erase_entry n n_src
  -- If we DO NOT find an edge from n to dst, we create that edge giving it
  -- the old ID from the edge connecting src to n.
  match g1.entry n_dst n with
  | none =>
    let e := edge.2
    (g1.set_entry n_dst n e).set_entry n n_dst e
  | some _ => g1

/-- The method `AMGraph::reassign_node_id(n_src, n_dst, merge)` (Graph.cpp lines 18-50).
The loop runs over the neighbour map of `n_src` as it stands when the loop
starts; its body never writes to that map when `n_src` has no entry for
itself. -/
def reassign_node_id (g : AMGraph) (n_src n_dst : NodeID) (merge : Bool) : AMGraph :=
  -- If we are not merging, clear the destination node. Otherwise remove
  -- just the edge connecting dst to src.
  let g1 := if !merge then g.isolate_node n_dst else g.erase_entry n_dst n_src
  -- Remove edge connecting src to dst.
  let g2 := g1.erase_entry n_src n_dst
  -- For all edges in src
  let g3 := (g2.row n_src).foldl (reassign_step n_src n_dst) g2
  -- Clear all edges going out from src which is now isolated.
  g3.clear_row n_src

/-! ### Well-formedness predicates -/

/-- Node `n` is live: it indexes a neighbour map. -/
def Live (g : AMGraph) (n : NodeID) : Prop := n < g.no_nodes

instance (g : AMGraph) (n : NodeID) : Decidable (g.Live n) := Nat.decLt _ _

/-- Symmetric invariant: `edge_map[a][b]` exists iff `edge_map[b][a]` exists,
and then both hold the same EdgeID. -/
def Symmetric (g : AMGraph) : Prop := ∀ a b, g.entry a b = g.entry b a

/-- No self-loops: `edge_map[a][a]` is never set. -/
def NoSelfLoop (g : AMGraph) : Prop := ∀ a, g.entry a a = none

/-- Edge-identity uniqueness: an EdgeID occurring in `edge_map` connects
exactly one unordered pair of nodes. -/
def EdgeUnique (g : AMGraph) : Prop :=
  ∀ a b c d e, g.entry a b = some e → g.entry c d = some e →
    (a = c ∧ b = d) ∨ (a = d ∧ b = c)

/-- EdgeID `e` occurs somewhere in `edge_map`. -/
def Occurs (g : AMGraph) (e : EdgeID) : Prop := ∃ a b, g.entry a b = some e

end AMGraph

/-! ### Executable well-formedness checks and a sample graph -/

namespace AMGraph

/-- Executable check of `Symmetric`: every stored entry has its mirror. -/
def symmetricCheck (g : AMGraph) : Bool :=
  (List.range g.no_nodes).all fun a => (g.row a).all fun p => g.entry p.1 a == some p.2

/-- Executable check of `NoSelfLoop`. -/
def noSelfLoopCheck (g : AMGraph) : Bool :=
  (List.range g.no_nodes).all fun a => (g.entry a a).isNone

/-- Executable check of `EdgeUnique`: two stored entries with the same EdgeID
join the same unordered pair. -/
def edgeUniqueCheck (g : AMGraph) : Bool :=
  (List.range g.no_nodes).all fun a => (g.row a).all fun p =>
    (List.range g.no_nodes).all fun c => (g.row c).all fun q =>
      p.2 != q.2 || (a == c && p.1 == q.1) || (a == q.1 && p.1 == c)

end AMGraph

/-- A sample graph on the nodes 0..3 with the edges 0-1 (EdgeID 0), 0-2 (EdgeID 1),
1-2 (EdgeID 2) and 1-3 (EdgeID 3). -/
def sampleGraph : AMGraph :=
  { edge_map := [[(1, 0), (2, 1)], [(0, 0), (2, 2), (3, 3)], [(0, 1), (1, 2)], [(1, 3)]]
    no_edges_created := 4 }

/-! ## Spatial graph and `clean_graph` -/

/-- Modelled from the spec: the data that class `AMGraph3D` (declared in
`Graph.h`) adds to `AMGraph`: a position and a colour per node and a colour per
edge. `P` is the position type (`Vec3d`), `C` the colour type (`Vec3f`); the
attribute vectors are total maps, an unset handle reading as the default value. -/
structure AMGraph3D (P C : Type) extends AMGraph where
  pos : NodeID → P
  node_color : NodeID → C
  edge_color : EdgeID → C

/-- The floating-point operations on positions used by `clean_graph`; they come
from `Graph.h` and CGLA and are taken as parameters. `D` is the type `double`. -/
structure Metric (P D : Type) where
  /-- The test on the first coordinate (`std::isnan(p[0])`). -/
  isnan0 : P → Bool
  /-- Squared distance of two positions. -/
  sqr_dist : P → P → D
  /-- Comparison `<` on `double`. -/
  lt : D → D → Bool

/-- The table `std::map<NodeID, NodeID> node_map` of `clean_graph`. -/
abbrev NodeMap := List (NodeID × NodeID)

/-- Reading `node_map[k]`; `operator[]` yields 0 for a key not yet present. -/
def NodeMap.get (nm : NodeMap) (k : NodeID) : NodeID := (AdjMap.find nm k).getD 0

/-- The assignment `node_map[k] = v`. -/
def NodeMap.set (nm : NodeMap) (k v : NodeID) : NodeMap := AdjMap.assign nm k v

/-- Modelled from the spec: `valid_edge(e)` of `Graph.h`, "`e != InvalidEdgeID`". -/
def valid_edge (e : EdgeID) : Bool := e != InvalidEdgeID

namespace AMGraph

/-- Modelled from the spec: `neighbors(n)` of `Graph.h`, the keys of the
neighbour map of `n` in iteration order. -/
def neighbors (g : AMGraph) (n : NodeID) : List NodeID := (g.row n).keys

/-- Modelled from the spec: `node_ids()` of `Graph.h`, the live NodeIDs in
ascending order. -/
def node_ids (g : AMGraph) : List NodeID := List.range g.no_nodes

/-- Modelled from the spec: `connect_nodes(a, b)` of `Graph.h`: "if `a == b`,
fails — returns `InvalidEdgeID`. If already connected, returns existing EdgeID
unchanged. Otherwise allocates a new EdgeID and inserts symmetric entries."
The spec leaves a call with a NodeID that is not live undefined; here such a
call is rejected like the self-loop, with `InvalidEdgeID` and no effect
(`connect_nodes_with` below takes the graph left by such a call as a parameter
instead). -/
def connect_nodes (g : AMGraph) (a b : NodeID) : EdgeID × AMGraph :=
  if a = b ∨ ¬ a < g.no_nodes ∨ ¬ b < g.no_nodes then (InvalidEdgeID, g)
  else
    match g.entry a b with
    | some e => (e, g)
    | none =>
      let id := g.no_edges_created
      (id, { ((g.set_entry a b id).set_entry b a id) with no_edges_created := id + 1 })

end AMGraph

namespace AMGraph3D

variable {P C : Type}

/-- The empty graph `AMGraph3D gn;`. -/
def empty [Inhabited P] [Inhabited C] : AMGraph3D P C :=
  { edge_map := [], no_edges_created := 0, pos := fun _ => default,
    node_color := fun _ => default, edge_color := fun _ => default }

/-- Modelled from the spec: `add_node(p)` of `Graph.h`: "allocates a fresh
node, empty neighbor set", with position `p`; returns the new NodeID. -/
def add_node (g : AMGraph3D P C) (p : P) : NodeID × AMGraph3D P C :=
  let id := g.toAMGraph.no_nodes
  (id, { g with edge_map := g.edge_map ++ [[]], pos := Function.update g.pos id p })

/-- The assignment `node_color[n] = c`. -/
def set_node_color (g : AMGraph3D P C) (n : NodeID) (c : C) : AMGraph3D P C :=
  { g with node_color := Function.update g.node_color n c }

/-- The assignment `edge_color[e] = c`. -/
def set_edge_color (g : AMGraph3D P C) (e : EdgeID) (c : C) : AMGraph3D P C :=
  { g with edge_color := Function.update g.edge_color e c }

/-- The method `connect_nodes` on a spatial graph. -/
def connect_nodes (g : AMGraph3D P C) (a b : NodeID) : EdgeID × AMGraph3D P C :=
  ((g.toAMGraph.connect_nodes a b).1, { g with toAMGraph := (g.toAMGraph.connect_nodes a b).2 })

end AMGraph3D

/-- The table after a sequence of `connect_nodes` calls. -/
def connect_all (g : AMGraph) (calls : List (NodeID × NodeID)) : AMGraph :=
  calls.foldl (fun h c => (h.connect_nodes c.1 c.2).2) g

section CleanGraph

variable {P C D : Type}

/-- One pass of the inner loop `for(auto m: Util::Range(0,n))` of `clean_graph`
(Graph.cpp lines 75-82); the state is the flag `erased` and `node_map`. -/
def clean_inner (M : Metric P D) (g : AMGraph3D P C) (thresh : D) (n : NodeID)
    (st : Bool × NodeMap) (m : NodeID) : Bool × NodeMap :=
  let d := M.sqr_dist (g.pos n) (g.pos m)
  if M.lt d thresh then (true, st.2.set n (st.2.get m)) else st

/-- One pass of the first loop `for(auto n: g.node_ids())` of `clean_graph`
(Graph.cpp lines 66-87); the state is the new graph `gn` and `node_map`. -/
def clean_node (M : Metric P D) (g : AMGraph3D P C) (thresh : D)
    (st : AMGraph3D P C × NodeMap) (n : NodeID) : AMGraph3D P C × NodeMap :=
  let st1 : Bool × NodeMap :=
    if M.isnan0 (g.pos n) then (true, st.2.set n InvalidNodeID)
    else (List.range n).foldl (clean_inner M g thresh n) (false, st.2)
  if !st1.1 then
    let r := st.1.add_node (g.pos n)
    let node_map := st1.2.set n r.1
    (r.2.set_node_color (node_map.get n) (g.node_color n), node_map)
  else (st.1, st1.2)

/-- The first loop of `clean_graph`: the new graph with its nodes, and `node_map`. -/
def clean_nodes [Inhabited P] [Inhabited C] (M : Metric P D) (g : AMGraph3D P C)
    (thresh : D) : AMGraph3D P C × NodeMap :=
  g.toAMGraph.node_ids.foldl (clean_node M g thresh) (AMGraph3D.empty, [])

/-- One pass of the loop `for(AMGraph::NodeID& nn: g.neighbors(n))` of
`clean_graph` (Graph.cpp lines 92-101); `zero` is the colour `Vec3f(0)`. -/
def clean_edge (zero : C) (g : AMGraph3D P C) (node_map : NodeMap) (n : NodeID)
    (gn : AMGraph3D P C) (nn : NodeID) : AMGraph3D P C :=
  let r := gn.connect_nodes (node_map.get n) (node_map.get nn)
  if valid_edge r.1 then
    let e_old := g.toAMGraph.find_edge n nn
    if valid_edge e_old then r.2.set_edge_color r.1 (g.edge_color e_old)
    else r.2.set_edge_color r.1 zero
  else r.2

/-- The second loop of `clean_graph` (Graph.cpp lines 90-101). -/
def clean_edges (zero : C) (g : AMGraph3D P C) (node_map : NodeMap)
    (gn : AMGraph3D P C) : AMGraph3D P C :=
  g.toAMGraph.node_ids.foldl
    (fun gn n =>
      if node_map.get n ≠ InvalidNodeID then
        (g.toAMGraph.neighbors n).foldl (clean_edge zero g node_map n) gn
      else gn) gn

/-- The function `clean_graph(g, thresh)` (Graph.cpp lines 59-104). -/
def clean_graph [Inhabited P] [Inhabited C] (M : Metric P D) (zero : C)
    (g : AMGraph3D P C) (thresh : D) : AMGraph3D P C :=
  clean_edges zero g (clean_nodes M g thresh).2 (clean_nodes M g thresh).1

/-- The table `node_map` as it stands when `clean_graph` returns. -/
def clean_node_map [Inhabited P] [Inhabited C] (M : Metric P D) (g : AMGraph3D P C)
    (thresh : D) : NodeMap :=
  (clean_nodes M g thresh).2

/-- The argument pairs of the calls `gn.connect_nodes(node_map[n], node_map[nn])`
made by the second loop of `clean_graph`, in order. -/
def connect_calls (g : AMGraph3D P C) (node_map : NodeMap) : List (NodeID × NodeID) :=
  g.toAMGraph.node_ids.flatMap fun n =>
    if node_map.get n ≠ InvalidNodeID then
      (g.toAMGraph.neighbors n).map fun nn => (node_map.get n, node_map.get nn)
    else []

/-- The test `g.sqr_dist(n, m) < thresh`. -/
def within (M : Metric P D) (g : AMGraph3D P C) (thresh : D) (n m : NodeID) : Bool :=
  M.lt (M.sqr_dist (g.pos n) (g.pos m)) thresh

/-- Original node `n` gets an output node of its own: its first coordinate is
not NaN and no earlier node lies within the threshold. -/
def survives (M : Metric P D) (g : AMGraph3D P C) (thresh : D) (n : NodeID) : Bool :=
  !M.isnan0 (g.pos n) && (List.range n).all fun m => !within M g thresh n m

/-- The original nodes that get an output node, in ascending order. -/
def survivors (M : Metric P D) (g : AMGraph3D P C) (thresh : D) : List NodeID :=
  (List.range g.toAMGraph.no_nodes).filter (survives M g thresh)

/-- The number of pairs of nodes `b < a` joined by an edge. -/
def edge_count (g : AMGraph) : Nat :=
  ((List.range g.no_nodes).map fun a =>
    ((List.range a).filter fun b => (g.entry a b).isSome).length).sum

/-- Loop invariant of the first loop of `clean_graph` after the nodes `0..n-1`:
`st` is the pair of the new graph and `node_map`. -/
structure CleanInv (M : Metric P D) (g : AMGraph3D P C) (thresh : D) (n : Nat)
    (st : AMGraph3D P C × NodeMap) : Prop where
  /-- The new graph has one node per survivor below `n` and no edge. -/
  rows : st.1.edge_map = List.replicate ((List.range n).filter (survives M g thresh)).length []
  /-- No edge handle has been drawn. -/
  fresh : st.1.no_edges_created = 0
  /-- The `i`-th new node is the `i`-th survivor. -/
  node : ∀ i s, ((List.range n).filter (survives M g thresh))[i]? = some s →
    st.1.pos i = g.pos s ∧ st.1.node_color i = g.node_color s ∧ st.2.get s = i
  /-- A node whose first coordinate is NaN maps to the invalid handle. -/
  nan : ∀ k, k < n → M.isnan0 (g.pos k) = true → st.2.get k = InvalidNodeID
  /-- A node with earlier nodes within the threshold maps like the last of them. -/
  merged : ∀ k, k < n → M.isnan0 (g.pos k) = false → ∀ m1, m1 < k →
    within M g thresh k m1 = true →
    (∀ m, m1 < m → m < k → within M g thresh k m = false) → st.2.get k = st.2.get m1

end CleanGraph

/-! ### An exact model of the position arithmetic, for concrete scenarios -/

/-- A `double` without rounding: not-a-number, or the exact fraction
`num / den` with `den > 0`. -/
inductive Dbl where
  | nan
  | frac (num : Int) (den : Nat)
deriving DecidableEq, Repr

namespace Dbl

/-- Subtraction; NaN propagates. -/
def sub : Dbl → Dbl → Dbl
  | frac a b, frac c d => frac (a * d - c * b) (b * d)
  | _, _ => nan

/-- Addition; NaN propagates. -/
def add : Dbl → Dbl → Dbl
  | frac a b, frac c d => frac (a * d + c * b) (b * d)
  | _, _ => nan

/-- Multiplication; NaN propagates. -/
def mul : Dbl → Dbl → Dbl
  | frac a b, frac c d => frac (a * c) (b * d)
  | _, _ => nan

/-- Comparison `<`; false when an operand is NaN. -/
def lt : Dbl → Dbl → Bool
  | frac a b, frac c d => decide (a * d < c * b)
  | _, _ => false

/-- The test `std::isnan`. -/
def isnan : Dbl → Bool
  | nan => true
  | frac _ _ => false

end Dbl

/-- A position `Vec3d`. -/
structure Vec3d where
  x : Dbl
  y : Dbl
  z : Dbl
deriving DecidableEq, Repr

instance : Inhabited Vec3d := ⟨⟨Dbl.nan, Dbl.nan, Dbl.nan⟩⟩

/-- Modelled from the spec: `sqr_dist`, "squared Euclidean distance between
`pos[a]` and `pos[b]`", not-a-number when a coordinate is. -/
def Vec3d.sqr_dist (p q : Vec3d) : Dbl :=
  let dx := p.x.sub q.x
  let dy := p.y.sub q.y
  let dz := p.z.sub q.z
  ((dx.mul dx).add (dy.mul dy)).add (dz.mul dz)

/-- The exact position arithmetic. -/
def exactMetric : Metric Vec3d Dbl :=
  { isnan0 := fun p => p.x.isnan, sqr_dist := Vec3d.sqr_dist, lt := Dbl.lt }

/-- A point with the given coordinates in units of 1/10000. -/
def pt (x y z : Int) : Vec3d := ⟨Dbl.frac x 10000, Dbl.frac y 10000, Dbl.frac z 10000⟩

/-- A spatial graph with the given neighbour maps and positions, all colours 0. -/
def mkGraph3D (edge_map : List AdjMap) (no_edges : Nat) (pos : NodeID → Vec3d) :
    AMGraph3D Vec3d Nat :=
  { edge_map := edge_map, no_edges_created := no_edges, pos := pos,
    node_color := fun _ => 0, edge_color := fun _ => 0 }

/-- A scenario with nodes at (0,0,0), (1,0,0), (0.5,0,0), (9,0,0) and the edge 2-3:
with threshold 0.5 node 2 lies within the threshold of node 0 and of node 1. -/
def scenarioBetween : AMGraph3D Vec3d Nat :=
  mkGraph3D [[], [], [(3, 0)], [(2, 0)]] 1 fun n =>
    match n with
    | 0 => pt 0 0 0
    | 1 => pt 10000 0 0
    | 2 => pt 5000 0 0
    | _ => pt 90000 0 0

/-- A path 0-1-2 with nodes at (0,0,0), (1,0,0), (2,0,0). -/
def scenarioPath : AMGraph3D Vec3d Nat :=
  mkGraph3D [[(1, 0)], [(0, 0), (2, 1)], [(1, 1)]] 2 fun n =>
    match n with
    | 0 => pt 0 0 0
    | 1 => pt 10000 0 0
    | _ => pt 20000 0 0

/-- A scenario with node 0 at (0,0,0), node 1 at the all-NaN position and joined
to node 0, and node 2 at (0,NaN,0). -/
def scenarioNaN : AMGraph3D Vec3d Nat :=
  mkGraph3D [[(1, 0)], [(0, 0)], []] 1 fun n =>
    match n with
    | 0 => pt 0 0 0
    | 1 => ⟨Dbl.nan, Dbl.nan, Dbl.nan⟩
    | _ => ⟨Dbl.frac 0 1, Dbl.nan, Dbl.frac 0 1⟩

/-- A scenario with the edge 0-1 between nodes at (0,0,0) and (1,0,0), and an
isolated node 2 at the all-NaN position. -/
def scenarioDeleted : AMGraph3D Vec3d Nat :=
  mkGraph3D [[(1, 0)], [(0, 0)], []] 1 fun n =>
    match n with
    | 0 => pt 0 0 0
    | 1 => pt 10000 0 0
    | _ => ⟨Dbl.nan, Dbl.nan, Dbl.nan⟩

/-- The scenario of the spec: nodes at (0,0,0), (0,0,0.0001), (5,0,0), no edges. -/
def scenarioNear : AMGraph3D Vec3d Nat :=
  mkGraph3D [[], [], []] 0 fun n =>
    match n with
    | 0 => pt 0 0 0
    | 1 => pt 0 0 1
    | _ => pt 50000 0 0

/-- A single node at (0,NaN,0): its position is not a number in the second
coordinate, while its first coordinate is a number. -/
def scenarioNaNSecond : AMGraph3D Vec3d Nat :=
  mkGraph3D [[]] 0 fun _ => ⟨Dbl.frac 0 1, Dbl.nan, Dbl.frac 0 1⟩

/-! ## The traversal engine `BreadthFirstSearch` and `minimum_spanning_tree` -/

/-- Modelled from the spec: the queue element `PrimPQElem` of `Graph.h`, a
candidate entry "(priority, node, parent)"; entries are ordered by priority. -/
structure PrimPQElem (W : Type) where
  priority : W
  node : NodeID
  parent : NodeID
deriving DecidableEq, Repr

/-- Modelled from the spec: the state of class `BreadthFirstSearch` (declared in
`Graph.h`): the priority queue, the distance table, the parent table, the
visited set, the frontier set and the last popped element. `W` is the type
`double` in exact arithmetic; in the distance table `none` stands for `DBL_MAX`
("+infinity" in the spec). -/
structure BreadthFirstSearch (W : Type) where
  pq : List (PrimPQElem W)
  dist : NodeID → Option W
  pred : NodeID → NodeID
  visited : List NodeID
  front : List NodeID
  last : PrimPQElem W

section Traversal

variable {W : Type} [LinearOrderedAddCommGroup W]

/-- The element `pq.top()` of `std::priority_queue`: an entry of greatest priority. -/
def pq_top : List (PrimPQElem W) → Option (PrimPQElem W)
  | [] => none
  | e :: q =>
    match pq_top q with
    | none => some e
    | some t => if t.priority < e.priority then some e else some t

/-- The statement `pq.pop()`: the top entry leaves the queue. -/
def pq_pop (q : List (PrimPQElem W)) : List (PrimPQElem W) :=
  match pq_top q with
  | none => q
  | some t => q.erase t

/-- The statement `pq.push(e)`. -/
def pq_push (q : List (PrimPQElem W)) (e : PrimPQElem W) : List (PrimPQElem W) := e :: q

/-- The comparison `d < dist[m]` for a candidate `d` that is a finite number, where
`none` is `DBL_MAX`. A candidate that is NaN or infinite is handled in `relax_fp`. -/
def lt_dist (d : W) : Option W → Bool
  | none => true
  | some x => decide (d < x)

/-- The comparison `last.priority == -dist[n]`. -/
def is_fresh (priority : W) : Option W → Bool
  | none => false
  | some x => decide (priority = -x)

namespace BreadthFirstSearch

/-- Modelled from the spec: the engine as constructed by `BreadthFirstSearch bfs(g)`
(constructor in `Graph.h`): no active run, all tables in their initial state. -/
def idle : BreadthFirstSearch W :=
  { pq := [], dist := fun _ => none, pred := fun _ => InvalidNodeID, visited := [], front := [],
    last := ⟨0, InvalidNodeID, InvalidNodeID⟩ }

/-- The method `BreadthFirstSearch::init(n)` (Graph.cpp lines 107-118). -/
def init (s : BreadthFirstSearch W) (n : NodeID) : BreadthFirstSearch W :=
  if s.pq = [] then
    { s with
      pq := pq_push [] ⟨-0, n, InvalidNodeID⟩
      dist := Function.update (fun _ => none) n (some 0)
      visited := []
      front := [] }
  else s

/-- One pass of the loop `for(auto m: g_ptr->neighbors(n))` of `step`
(Graph.cpp lines 130-138); `len n m` is the value `sqrt(g_ptr->sqr_dist(n,m))`, a
finite number (`relax_fp` below admits NaN and infinity). -/
def relax (len : NodeID → NodeID → W) (n : NodeID) (priority : W)
    (s : BreadthFirstSearch W) (m : NodeID) : BreadthFirstSearch W :=
  let d := len n m - priority
  if lt_dist d (s.dist m) then
    { s with
      dist := Function.update s.dist m (some d)
      pred := Function.update s.pred m n
      pq := pq_push s.pq ⟨-d, m, n⟩
      front := s.front.insert m }
  else s

/-- The statements `last = pq.top(); auto n = last.node; front.erase(n); pq.pop();`
of `step` (Graph.cpp lines 123-126), `top` being the top entry. -/
def pop_top (s : BreadthFirstSearch W) (top : PrimPQElem W) : BreadthFirstSearch W :=
  { s with last := top, front := s.front.erase top.node, pq := pq_pop s.pq }

/-- The statement `visited.insert(n)` of `step` (Graph.cpp line 128). -/
def visit (s : BreadthFirstSearch W) (n : NodeID) : BreadthFirstSearch W :=
  { s with visited := s.visited.insert n }

/-- The loop `while(!pq.empty() && !did_visit)` of `step` (Graph.cpp lines 122-140),
run for at most `fuel` passes; the result is `did_visit` and the new state. -/
def step_loop (g : AMGraph) (len : NodeID → NodeID → W) :
    Nat → BreadthFirstSearch W → Bool × BreadthFirstSearch W
  | 0, s => (false, s)
  | fuel + 1, s =>
    match pq_top s.pq with
    | none => (false, s)
    | some top =>
      let n := top.node
      let s1 := s.pop_top top
      if is_fresh top.priority (s1.dist n) then
        (true, (g.neighbors n).foldl (relax len n top.priority) (s1.visit n))
      else step_loop g len fuel s1

/-- The method `BreadthFirstSearch::step()` (Graph.cpp lines 120-142): every pass
of the loop pops one entry, so as many passes as the queue has entries suffice. -/
def step (g : AMGraph) (len : NodeID → NodeID → W) (s : BreadthFirstSearch W) :
    Bool × BreadthFirstSearch W :=
  step_loop g len s.pq.length s

/-- The state after `k` calls of `step()`. -/
def steps (g : AMGraph) (len : NodeID → NodeID → W) :
    Nat → BreadthFirstSearch W → BreadthFirstSearch W
  | 0, s => s
  | k + 1, s => steps g len k (step g len s).2

end BreadthFirstSearch

/-- The loop `while(bfs.step())` of `minimum_spanning_tree` (Graph.cpp lines 156-159),
run for at most `fuel` calls of `step()`; `none` when the fuel does not suffice. -/
def mst_loop (g : AMGraph) (len : NodeID → NodeID → W) :
    Nat → BreadthFirstSearch W → AMGraph → Option AMGraph
  | 0, _, _ => none
  | fuel + 1, bfs, gn =>
    if (bfs.step g len).1 then
      let last := (bfs.step g len).2.last
      mst_loop g len fuel (bfs.step g len).2 (gn.connect_nodes last.node last.parent).2
    else some gn

/-- The argument pairs `(last.node, last.parent)` of the `connect_nodes` calls made
by the loop of `minimum_spanning_tree`, in order. -/
def mst_calls (g : AMGraph) (len : NodeID → NodeID → W) :
    Nat → BreadthFirstSearch W → List (NodeID × NodeID)
  | 0, _ => []
  | fuel + 1, bfs =>
    if (bfs.step g len).1 then
      ((bfs.step g len).2.last.node, (bfs.step g len).2.last.parent) ::
        mst_calls g len fuel (bfs.step g len).2
    else []

/-- The nodes of the output of `minimum_spanning_tree`: the loop
`for(auto n: g.node_ids()) gn.add_node(g.pos[n])` (Graph.cpp lines 150-152). -/
def mst_nodes {P C : Type} [Inhabited P] [Inhabited C] (g : AMGraph3D P C) : AMGraph3D P C :=
  g.toAMGraph.node_ids.foldl (fun gn n => (gn.add_node (g.pos n)).2) AMGraph3D.empty

/-- The function `minimum_spanning_tree(g, root)` (Graph.cpp lines 145-162). The
driving loop is given `no_nodes + 1` calls of `step()`; the result is `none`
should they not suffice. -/
def minimum_spanning_tree {P C : Type} [Inhabited P] [Inhabited C]
    (len : NodeID → NodeID → W) (g : AMGraph3D P C) (root : NodeID) :
    Option (AMGraph3D P C) :=
  let root := if root = InvalidNodeID then 0 else root
  let gn := mst_nodes g
  let bfs := (BreadthFirstSearch.idle : BreadthFirstSearch W).init root
  (mst_loop g.toAMGraph len (g.toAMGraph.no_nodes + 1) bfs gn.toAMGraph).map
    fun t => { gn with toAMGraph := t }

/-- A walk in `g` from `a`, with its end node and its total length. -/
inductive Walk (g : AMGraph) (len : NodeID → NodeID → W) (a : NodeID) : NodeID → W → Prop where
  | nil : Walk g len a a 0
  | cons {b c : NodeID} {l : W} : Walk g len a b l → c ∈ g.neighbors b →
      Walk g len a c (l + len b c)

/-- The path from `start` to a node along the parent pointers `pred`, all of whose
nodes other than `start` lie in `vis`, with its total length. -/
inductive PredPath (g : AMGraph) (len : NodeID → NodeID → W) (pred : NodeID → NodeID)
    (vis : List NodeID) (start : NodeID) : NodeID → W → Prop where
  | base : PredPath g len pred vis start start 0
  | step {v : NodeID} {x : W} : v ≠ start → v ∈ vis → v ∈ g.neighbors (pred v) →
      PredPath g len pred vis start (pred v) x →
      PredPath g len pred vis start v (x + len (pred v) v)

/-- Invariant of a run of the engine started by `init(start)`. It holds between
calls of `step()` with `todo = []`; inside a call, after node `n` has been visited,
`todo` lists the neighbours of `n` that the relaxation loop has yet to process. -/
structure EngineInv (g : AMGraph) (len : NodeID → NodeID → W) (start : NodeID)
    (n : NodeID) (todo : List NodeID) (s : BreadthFirstSearch W) : Prop where
  /-- The start node keeps distance 0. -/
  seed_dist : s.dist start = some 0
  /-- Tentative distances are non-negative. -/
  dist_nonneg : ∀ m x, s.dist m = some x → 0 ≤ x
  /-- No node is in the visited set twice. -/
  vis_nodup : s.visited.Nodup
  /-- No node is in the frontier set twice. -/
  front_nodup : s.front.Nodup
  /-- The distance stored in a queue entry is at least the distance of its node. -/
  entry_ge : ∀ e ∈ s.pq, ∃ x, s.dist e.node = some x ∧ x ≤ -e.priority
  /-- Two entries of one node have different priorities. -/
  distinct : s.pq.Pairwise fun e e' => e.node = e'.node → e.priority ≠ e'.priority
  /-- Every entry of a visited node is stale. -/
  stale_vis : ∀ e ∈ s.pq, e.node ∈ s.visited → s.dist e.node ≠ some (-e.priority)
  /-- The distance of a visited node is at most the distance in any entry. -/
  mono : ∀ v ∈ s.visited, ∀ e ∈ s.pq, ∃ x, s.dist v = some x ∧ x ≤ -e.priority
  /-- A node with a tentative distance is visited or has its entry in the queue. -/
  pending : ∀ m x, s.dist m = some x →
    m ∈ s.visited ∨ ∃ e ∈ s.pq, e.node = m ∧ e.priority = -x
  /-- Before the first visit the queue holds the seed entry only. -/
  phase : (s.visited = [] ∧ s.pq = [⟨-0, start, InvalidNodeID⟩] ∧
    ∀ m, m ≠ start → s.dist m = none) ∨ start ∈ s.visited
  /-- An entry of a node other than `start` was pushed from its visited parent. -/
  parent : ∀ e ∈ s.pq, e.node ≠ start →
    e.parent ∈ s.visited ∧ e.node ∈ g.neighbors e.parent ∧
      ∃ x, s.dist e.parent = some x ∧ -e.priority = x + len e.parent e.node
  /-- The parent table agrees with the parent of the current entry of a node. -/
  pred_fresh : ∀ e ∈ s.pq, e.node ≠ start → s.dist e.node = some (-e.priority) →
    s.pred e.node = e.parent
  /-- Every edge out of a visited node has been relaxed. -/
  relaxed : ∀ v ∈ s.visited, ∀ m ∈ g.neighbors v, (v = n ∧ m ∈ todo) ∨
    ∃ x y, s.dist v = some x ∧ s.dist m = some y ∧ y ≤ x + len v m
  /-- The distance of a visited node is the length of its parent-pointer path. -/
  ppath : ∀ v ∈ s.visited, ∃ x, s.dist v = some x ∧ PredPath g len s.pred s.visited start v x
  /-- The frontier holds the unvisited nodes other than `start` with a distance. -/
  front_iff : ∀ m, m ∈ s.front ↔ (s.dist m ≠ none ∧ m ∉ s.visited ∧ m ≠ start)
  /-- Visited nodes are live. -/
  vis_live : ∀ v ∈ s.visited, v < g.no_nodes
  /-- The nodes of queue entries are live. -/
  pq_live : ∀ e ∈ s.pq, e.node < g.no_nodes

/-- Invariant of a run between two calls of `step()`. -/
def RunInv (g : AMGraph) (len : NodeID → NodeID → W) (start : NodeID)
    (s : BreadthFirstSearch W) : Prop := EngineInv g len start start [] s

/-- A call of `step()` that returns true takes the state `s` to `s'` by popping a
current entry `e` of an unvisited node, which becomes `last` and is visited; the
tables keep their values at visited nodes; `e` is the seed entry of `start`, popped
first, or was pushed from its visited parent `pred[e.node]`. -/
def VisitStep (g : AMGraph) (len : NodeID → NodeID → W) (start : NodeID)
    (s s' : BreadthFirstSearch W) : Prop :=
  ∃ e, e ∈ s.pq ∧ s'.last = e ∧ s.dist e.node = some (-e.priority) ∧ e.node ∉ s.visited ∧
    s'.visited = e.node :: s.visited ∧
    (∀ v ∈ e.node :: s.visited, s'.dist v = s.dist v ∧ s'.pred v = s.pred v) ∧
    ((e.node = start ∧ s.visited = [] ∧ e.parent = InvalidNodeID) ∨
      (e.node ≠ start ∧ start ∈ s.visited ∧ e.parent ∈ s.visited ∧
        e.node ∈ g.neighbors e.parent ∧ s.pred e.node = e.parent ∧
        ∃ x, s.dist e.parent = some x ∧ -e.priority = x + len e.parent e.node))

/-- The number of calls among the first `k` calls of `step()` that return true. -/
def true_steps (g : AMGraph) (len : NodeID → NodeID → W) :
    Nat → BreadthFirstSearch W → Nat
  | 0, _ => 0
  | k + 1, s => (if (s.step g len).1 then 1 else 0) + true_steps g len k (s.step g len).2

/-! ### Lengths that are not finite numbers

`sqrt(g_ptr->sqr_dist(n,m))` is NaN when a position is not a number (spec 4.2) and
infinite when the squared distance overflows. In the definitions below the length is
an `Option`: `none` stands for NaN or infinity; then `d` is NaN or infinite as well
and the test `d < dist[m]` of line 132 is false. Finite values are computed exactly,
as before. -/

/-- One pass of the loop `for(auto m: g_ptr->neighbors(n))` of `step`
(Graph.cpp lines 130-138); `len n m` is the value `sqrt(g_ptr->sqr_dist(n,m))`, `none`
when it is NaN or infinite: then `d < dist[m]` is false and nothing is done. -/
def BreadthFirstSearch.relax_fp (len : NodeID → NodeID → Option W) (n : NodeID) (priority : W)
    (s : BreadthFirstSearch W) (m : NodeID) : BreadthFirstSearch W :=
  match len n m with
  | none => s
  | some l =>
    let d := l - priority
    if lt_dist d (s.dist m) then
      { s with
        dist := Function.update s.dist m (some d)
        pred := Function.update s.pred m n
        pq := pq_push s.pq ⟨-d, m, n⟩
        front := s.front.insert m }
    else s

/-- The loop `while(!pq.empty() && !did_visit)` of `step` (Graph.cpp lines 122-140)
with lengths that may be NaN or infinite, run for at most `fuel` passes. -/
def BreadthFirstSearch.step_loop_fp (g : AMGraph) (len : NodeID → NodeID → Option W) :
    Nat → BreadthFirstSearch W → Bool × BreadthFirstSearch W
  | 0, s => (false, s)
  | fuel + 1, s =>
    match pq_top s.pq with
    | none => (false, s)
    | some top =>
      let n := top.node
      let s1 := s.pop_top top
      if is_fresh top.priority (s1.dist n) then
        (true, (g.neighbors n).foldl (BreadthFirstSearch.relax_fp len n top.priority) (s1.visit n))
      else BreadthFirstSearch.step_loop_fp g len fuel s1

/-- The method `BreadthFirstSearch::step()` (Graph.cpp lines 120-142) with lengths
that may be NaN or infinite. -/
def BreadthFirstSearch.step_fp (g : AMGraph) (len : NodeID → NodeID → Option W)
    (s : BreadthFirstSearch W) : Bool × BreadthFirstSearch W :=
  BreadthFirstSearch.step_loop_fp g len s.pq.length s

/-- Modelled from the spec: the call `gn.connect_nodes(a, b)` of `Graph.h` as made
by `minimum_spanning_tree`. Section 4.1 defines `connect_nodes` for live nodes;
"operating on unknown NodeIDs is undefined", so the graph left by a call with a
NodeID that is not live is the parameter `undef`. -/
def AMGraph.connect_nodes_with (undef : AMGraph → NodeID → NodeID → AMGraph) (gn : AMGraph)
    (a b : NodeID) : AMGraph :=
  if a < gn.no_nodes ∧ b < gn.no_nodes then (gn.connect_nodes a b).2 else undef gn a b

/-- The loop `while(bfs.step())` of `minimum_spanning_tree` (Graph.cpp lines 156-159)
with lengths that may be NaN or infinite and `undef` for the `connect_nodes` calls
outside the contract of section 4.1, run for at most `fuel` calls of `step()`. -/
def mst_loop_fp (undef : AMGraph → NodeID → NodeID → AMGraph) (g : AMGraph)
    (len : NodeID → NodeID → Option W) : Nat → BreadthFirstSearch W → AMGraph → Option AMGraph
  | 0, _, _ => none
  | fuel + 1, bfs, gn =>
    if (bfs.step_fp g len).1 then
      let last := (bfs.step_fp g len).2.last
      mst_loop_fp undef g len fuel (bfs.step_fp g len).2
        (gn.connect_nodes_with undef last.node last.parent)
    else some gn

/-- The argument pairs `(last.node, last.parent)` of the `connect_nodes` calls made
by the loop of `minimum_spanning_tree`, in order, with lengths that may be NaN or
infinite. -/
def mst_calls_fp (g : AMGraph) (len : NodeID → NodeID → Option W) :
    Nat → BreadthFirstSearch W → List (NodeID × NodeID)
  | 0, _ => []
  | fuel + 1, bfs =>
    if (bfs.step_fp g len).1 then
      ((bfs.step_fp g len).2.last.node, (bfs.step_fp g len).2.last.parent) ::
        mst_calls_fp g len fuel (bfs.step_fp g len).2
    else []

/-- The function `minimum_spanning_tree(g, root)` (Graph.cpp lines 145-162) with
lengths that may be NaN or infinite and `undef` for the `connect_nodes` calls outside
the contract of section 4.1. The driving loop is given `no_nodes + 1` calls of
`step()`; the result is `none` should they not suffice. -/
def minimum_spanning_tree_fp {P C : Type} [Inhabited P] [Inhabited C]
    (undef : AMGraph → NodeID → NodeID → AMGraph) (len : NodeID → NodeID → Option W)
    (g : AMGraph3D P C) (root : NodeID) : Option (AMGraph3D P C) :=
  let root := if root = InvalidNodeID then 0 else root
  let gn := mst_nodes g
  let bfs := (BreadthFirstSearch.idle : BreadthFirstSearch W).init root
  (mst_loop_fp undef g.toAMGraph len (g.toAMGraph.no_nodes + 1) bfs gn.toAMGraph).map
    fun t => { gn with toAMGraph := t }

/-- The length `len a b` when it is a finite number, and 0 otherwise. -/
def finite_len (len : NodeID → NodeID → Option W) (a b : NodeID) : W := (len a b).getD 0

end Traversal

/-- The graph `g` without the neighbour entries `a → b` for which `ok a b` is false. -/
def AMGraph.restrict (g : AMGraph) (ok : NodeID → NodeID → Bool) : AMGraph :=
  { g with
    edge_map := (List.range g.no_nodes).map fun a => (g.row a).filter fun p => ok a p.1 }

/-- The graph `g` without the neighbour entries whose length is NaN or infinite. -/
def AMGraph.finite_part {W : Type} (g : AMGraph) (len : NodeID → NodeID → Option W) : AMGraph :=
  g.restrict fun a b => (len a b).isSome

/-- The 4-cycle 0-1-2-3-0. -/
def cycle4 : AMGraph :=
  { edge_map := [[(1, 0), (3, 3)], [(0, 0), (2, 1)], [(1, 1), (3, 2)], [(2, 2), (0, 3)]]
    no_edges_created := 4 }

/-- The triangle 0-1-2. -/
def triangle : AMGraph :=
  { edge_map := [[(1, 0), (2, 2)], [(0, 0), (2, 1)], [(1, 1), (0, 2)]]
    no_edges_created := 3 }

/-- Edge lengths of the triangle with nodes at (0,0,0), (3,0,0), (3,4,0):
3 between 0 and 1, 4 between 1 and 2, 5 between 0 and 2. -/
def triangleLen (a b : NodeID) : Int :=
  if a = b then 0
  else if a + b = 1 then 3
  else if a + b = 3 then 4
  else 5

/-- Executable check that every neighbour is a live node. -/
def AMGraph.liveCheck (g : AMGraph) : Bool :=
  (List.range g.no_nodes).all fun a => (g.row a).all fun p => decide (p.1 < g.no_nodes)

/-- Unit edge lengths. -/
def unitLen (a b : NodeID) : Int := if a = b then 0 else 1

/-- Executable check that no stored EdgeID is the invalid handle. -/
def AMGraph.validIdsCheck (g : AMGraph) : Bool :=
  (List.range g.no_nodes).all fun a => (g.row a).all fun p => p.2 != InvalidEdgeID

/-- The triangle 0-1-2 with nodes at (0,0,0), (3,0,0), (3,4,0). -/
def triangle3D : AMGraph3D Vec3d Nat :=
  { toAMGraph := triangle
    pos := fun n =>
      match n with
      | 0 => ⟨Dbl.frac 0 1, Dbl.frac 0 1, Dbl.frac 0 1⟩
      | 1 => ⟨Dbl.frac 3 1, Dbl.frac 0 1, Dbl.frac 0 1⟩
      | _ => ⟨Dbl.frac 3 1, Dbl.frac 4 1, Dbl.frac 0 1⟩
    node_color := fun _ => 0
    edge_color := fun _ => 0 }

/-- The sum of the lengths of the edges of `g`, each pair of joined nodes counted once. -/
def total_length {W : Type} [AddCommMonoid W] (len : NodeID → NodeID → W) (g : AMGraph) : W :=
  ((List.range g.no_nodes).map fun a =>
    (((List.range a).filter fun b => (g.entry a b).isSome).map fun b => len a b).sum).sum

/-- The spanning tree of the triangle with the edges 0-1 and 1-2. -/
def trianglePath : AMGraph :=
  { edge_map := [[(1, 0)], [(0, 0), (2, 1)], [(1, 1)]], no_edges_created := 2 }

/-! ### Graph-theoretic notions for the output of `minimum_spanning_tree` -/

namespace AMGraph

/-- Nodes `a` and `b` are joined by an edge: `b` is a key of the neighbour map of `a`. -/
def Adj (g : AMGraph) (a b : NodeID) : Prop := g.entry a b ≠ none

instance (g : AMGraph) (a b : NodeID) : Decidable (g.Adj a b) :=
  inferInstanceAs (Decidable (g.entry a b ≠ none))

/-- Node `b` is reachable from node `a` by a path in `g`. -/
def Reach (g : AMGraph) (a b : NodeID) : Prop := Relation.ReflTransGen g.Adj a b

/-- The index after `i` on a cycle of `k` nodes. -/
def cyc_next (k i : Nat) : Nat := if i + 1 = k then 0 else i + 1

/-- The nodes `f 0, ..., f (k-1)` form a cycle of `g`: at least three nodes, pairwise
different, each joined to the next and the last to the first. -/
def IsCycle (g : AMGraph) (k : Nat) (f : Nat → NodeID) : Prop :=
  3 ≤ k ∧ (∀ i j, i < k → j < k → f i = f j → i = j) ∧
    ∀ i, i < k → g.Adj (f i) (f (cyc_next k i))

/-- The graph has no cycle. -/
def Acyclic (g : AMGraph) : Prop := ∀ k f, ¬ g.IsCycle k f

end AMGraph

/-- Node `b` is reachable from node `a` by a path in `g` all of whose edges have a
length that is a finite number. -/
def AMGraph.FiniteReach {W : Type} (g : AMGraph) (len : NodeID → NodeID → Option W)
    (a b : NodeID) : Prop :=
  Relation.ReflTransGen (fun x y => g.Adj x y ∧ (len x y).isSome = true) a b

/-- Invariant of the loop of `minimum_spanning_tree`: the new graph `gn` when the
engine has visited the nodes `visited`. -/
structure MstInv (g : AMGraph) (start : NodeID) (visited : List NodeID) (gn : AMGraph) :
    Prop where
  /-- The new graph has the nodes of `g`. -/
  nodes : gn.no_nodes = g.no_nodes
  /-- The neighbour maps of the new graph are symmetric. -/
  symm : gn.Symmetric
  /-- An edge of the new graph joins two visited nodes that are adjacent in `g`. -/
  inside : ∀ a b, gn.Adj a b → a ∈ visited ∧ b ∈ visited ∧ (g.Adj a b ∨ g.Adj b a)
  /-- Every visited node is reachable from `start` in the new graph. -/
  reach : ∀ v ∈ visited, gn.Reach start v
  /-- The new graph has no cycle. -/
  acyclic : gn.Acyclic
  /-- The new graph has one edge per visited node other than the first. -/
  count : edge_count gn = visited.length - 1
  /-- Every visited node other than `start` has an incident edge. -/
  incident : ∀ v ∈ visited, v ≠ start → ∃ b, gn.Adj v b
  /-- When two nodes are visited, `start` has an incident edge. -/
  root_incident : 2 ≤ visited.length → ∃ b, gn.Adj start b

/-- The 4-cycle 0-1-2-3-0 with its nodes at the corners of the unit square. -/
def cycle4_3D : AMGraph3D Vec3d Nat :=
  { toAMGraph := cycle4
    pos := fun n =>
      match n with
      | 0 => ⟨Dbl.frac 0 1, Dbl.frac 0 1, Dbl.frac 0 1⟩
      | 1 => ⟨Dbl.frac 1 1, Dbl.frac 0 1, Dbl.frac 0 1⟩
      | 2 => ⟨Dbl.frac 1 1, Dbl.frac 1 1, Dbl.frac 0 1⟩
      | _ => ⟨Dbl.frac 0 1, Dbl.frac 1 1, Dbl.frac 0 1⟩
    node_color := fun _ => 0
    edge_color := fun _ => 0 }

/-- Two nodes joined by an edge, at (0,0,0) and (10^200,0,0). -/
def farPair3D : AMGraph3D Vec3d Nat :=
  mkGraph3D [[(1, 0)], [(0, 0)]] 1 fun n =>
    match n with
    | 0 => ⟨Dbl.frac 0 1, Dbl.frac 0 1, Dbl.frac 0 1⟩
    | _ => ⟨Dbl.frac (10 ^ 200) 1, Dbl.frac 0 1, Dbl.frac 0 1⟩

/-- The lengths of `farPair3D` in `double`: the squared distance 1e400 of the two
nodes overflows to infinity, so the length between them is infinite (`none`). -/
def farLen (a b : NodeID) : Option Int := if a = b then some 0 else none

/-- The connect call that leaves the graph as it is. -/
def leave_unchanged (gn : AMGraph) (_ _ : NodeID) : AMGraph := gn

/-! ## Lemmas on neighbour maps -/

namespace AdjMap

theorem find_erase_self (m : AdjMap) (k : NodeID) : (m.erase k).find k = none := by
  induction m with
  | nil => rfl
  | cons p m ih =>
    obtain ⟨k', e⟩ := p
    by_cases h : k' = k <;> simp [erase, find, h, ih]

theorem find_erase_ne (m : AdjMap) {k j : NodeID} (h : j ≠ k) :
    (m.erase k).find j = m.find j := by
  induction m with
  | nil => rfl
  | cons p m ih =>
    obtain ⟨k', e⟩ := p
    by_cases h1 : k' = k
    · subst h1
      have h2 : ¬ k' = j := fun h2 => h h2.symm
      simp [erase, find, h2, ih]
    · by_cases h2 : k' = j
      · subst h2
        simp [erase, find, h1]
      · simp [erase, find, h1, h2, ih]

theorem find_assign_self (m : AdjMap) (k : NodeID) (e : EdgeID) :
    (m.assign k e).find k = some e := by
  induction m with
  | nil => simp [assign, find]
  | cons p m ih =>
    obtain ⟨k', e'⟩ := p
    by_cases h : k' = k <;> simp [assign, find, h, ih]

theorem find_assign_ne (m : AdjMap) {k j : NodeID} (e : EdgeID) (h : j ≠ k) :
    (m.assign k e).find j = m.find j := by
  induction m with
  | nil =>
    have h2 : ¬ k = j := fun h2 => h h2.symm
    simp [assign, find, h2]
  | cons p m ih =>
    obtain ⟨k', e'⟩ := p
    by_cases h1 : k' = k
    · subst h1
      have h2 : ¬ k' = j := fun h2 => h h2.symm
      simp [assign, find, h2]
    · by_cases h2 : k' = j
      · subst h2
        simp [assign, find, h1]
      · simp [assign, find, h1, h2, ih]

theorem find_eq_none_iff (m : AdjMap) (k : NodeID) : m.find k = none ↔ k ∉ m.keys := by
  induction m with
  | nil => simp [find, keys]
  | cons p m ih =>
    obtain ⟨k', e⟩ := p
    by_cases h : k' = k
    · simp [find, keys, h]
    · have h' : ¬ k = k' := fun h2 => h h2.symm
      simpa [find, keys, h, h'] using ih

theorem mem_keys_of_mem {m : AdjMap} {p : NodeID × EdgeID} (h : p ∈ m) : p.1 ∈ m.keys :=
  List.mem_map_of_mem _ h

end AdjMap

/-! ## Lemmas on the table of neighbour maps -/

theorem length_updateAt (l : List AdjMap) (n : Nat) (f : AdjMap → AdjMap) :
    (updateAt l n f).length = l.length := by
  induction l generalizing n with
  | nil => rfl
  | cons r rs ih => cases n <;> simp [updateAt, ih]

theorem rowAt_of_length_le (l : List AdjMap) (n : Nat) (h : l.length ≤ n) : rowAt l n = [] := by
  induction l generalizing n with
  | nil => rfl
  | cons r rs ih =>
    cases n with
    | zero => simp at h
    | succ n => exact ih n (by simpa using h)

theorem rowAt_updateAt (l : List AdjMap) (n m : Nat) (f : AdjMap → AdjMap) :
    rowAt (updateAt l n f) m =
      if m = n ∧ n < l.length then f (rowAt l n) else rowAt l m := by
  induction l generalizing n m with
  | nil => simp [updateAt, rowAt]
  | cons r rs ih =>
    cases n with
    | zero => cases m <;> simp [updateAt, rowAt]
    | succ n =>
      cases m with
      | zero => simp [updateAt, rowAt]
      | succ m => simp [updateAt, rowAt, ih]

namespace AMGraph

@[simp] theorem no_nodes_erase_entry (g : AMGraph) (a b : NodeID) :
    (g.erase_entry a b).no_nodes = g.no_nodes := length_updateAt _ _ _

@[simp] theorem no_nodes_set_entry (g : AMGraph) (a b : NodeID) (e : EdgeID) :
    (g.set_entry a b e).no_nodes = g.no_nodes := length_updateAt _ _ _

@[simp] theorem no_nodes_clear_row (g : AMGraph) (a : NodeID) :
    (g.clear_row a).no_nodes = g.no_nodes := length_updateAt _ _ _

theorem row_of_not_live (g : AMGraph) {a : NodeID} (h : ¬ a < g.no_nodes) : g.row a = [] :=
  rowAt_of_length_le _ _ (Nat.le_of_not_lt h)

theorem entry_of_not_live (g : AMGraph) {a : NodeID} (h : ¬ a < g.no_nodes) (b : NodeID) :
    g.entry a b = none := by
  simp [entry, row_of_not_live g h, AdjMap.find]

theorem live_of_entry {g : AMGraph} {a b : NodeID} {e : EdgeID} (h : g.entry a b = some e) :
    a < g.no_nodes := by
  by_contra hc
  rw [entry_of_not_live g hc] at h
  cases h

theorem entry_erase_entry (g : AMGraph) (a b x y : NodeID) :
    (g.erase_entry a b).entry x y = if x = a ∧ y = b then none else g.entry x y := by
  unfold entry row erase_entry
  simp only [rowAt_updateAt]
  by_cases hx : x = a
  · subst hx
    by_cases hl : x < g.edge_map.length
    · by_cases hy : y = b
      · subst hy; simp [hl, AdjMap.find_erase_self]
      · simp [hl, hy, AdjMap.find_erase_ne _ hy]
    · have : rowAt g.edge_map x = [] := rowAt_of_length_le _ _ (Nat.le_of_not_lt hl)
      simp [hl, this, AdjMap.find]
  · simp [hx]

theorem entry_set_entry (g : AMGraph) {a : NodeID} (ha : a < g.no_nodes) (b : NodeID)
    (e : EdgeID) (x y : NodeID) :
    (g.set_entry a b e).entry x y = if x = a ∧ y = b then some e else g.entry x y := by
  unfold entry row set_entry
  unfold no_nodes at ha
  simp only [rowAt_updateAt]
  by_cases hx : x = a
  · subst hx
    by_cases hy : y = b
    · subst hy; simp [ha, AdjMap.find_assign_self]
    · simp [ha, hy, AdjMap.find_assign_ne _ _ hy]
  · simp [hx]

theorem entry_clear_row (g : AMGraph) (a x y : NodeID) :
    (g.clear_row a).entry x y = if x = a then none else g.entry x y := by
  unfold entry row clear_row
  simp only [rowAt_updateAt]
  by_cases hx : x = a
  · subst hx
    by_cases hl : x < g.edge_map.length
    · simp [hl, AdjMap.find]
    · have : rowAt g.edge_map x = [] := rowAt_of_length_le _ _ (Nat.le_of_not_lt hl)
      simp [hl, this, AdjMap.find]
  · simp [hx]

theorem row_clear_row (g : AMGraph) (a : NodeID) : (g.clear_row a).row a = [] := by
  unfold row clear_row
  simp only [rowAt_updateAt]
  by_cases hl : a < g.edge_map.length
  · simp [hl]
  · simp [hl, rowAt_of_length_le _ _ (Nat.le_of_not_lt hl)]

theorem entry_eq_find_row (g : AMGraph) (a b : NodeID) : g.entry a b = (g.row a).find b := rfl

/-- Erasing the back-references `edge_map[m][n]` for every `m` of a list. -/
theorem entry_foldl_erase (ks : List NodeID) (g : AMGraph) (n x y : NodeID) :
    (ks.foldl (fun h m => h.erase_entry m n) g).entry x y =
      if y = n ∧ x ∈ ks then none else g.entry x y := by
  induction ks generalizing g with
  | nil => simp
  | cons k ks ih =>
    simp only [List.foldl_cons, ih, entry_erase_entry, List.mem_cons]
    by_cases hy : y = n <;> by_cases hx : x = k <;> by_cases hm : x ∈ ks <;> simp [hy, hx, hm]

theorem no_nodes_foldl_erase (ks : List NodeID) (g : AMGraph) (n : NodeID) :
    (ks.foldl (fun h m => h.erase_entry m n) g).no_nodes = g.no_nodes := by
  induction ks generalizing g with
  | nil => rfl
  | cons k ks ih => simp [List.foldl_cons, ih]

@[simp] theorem no_nodes_isolate_node (g : AMGraph) (n : NodeID) :
    (g.isolate_node n).no_nodes = g.no_nodes := by
  simp [isolate_node, no_nodes_foldl_erase]

/-- The entries after `isolate_node(n)`: row `n` is empty and every neighbour
of `n` has lost its back-reference. -/
theorem entry_isolate_node (g : AMGraph) (n x y : NodeID) :
    (g.isolate_node n).entry x y =
      if x = n then none
      else if y = n ∧ g.entry n x ≠ none then none
      else g.entry x y := by
  unfold isolate_node
  rw [entry_clear_row, entry_foldl_erase]
  have hk : x ∈ (g.row n).keys ↔ g.entry n x ≠ none := by
    rw [entry, Ne, AdjMap.find_eq_none_iff]; simp
  simp only [hk]

/-- On a symmetric table `isolate_node(n)` removes exactly the entries with
`n` as one of the two indices. -/
theorem entry_isolate_node_symm {g : AMGraph} (hs : g.Symmetric) (n x y : NodeID) :
    (g.isolate_node n).entry x y = if x = n ∨ y = n then none else g.entry x y := by
  rw [entry_isolate_node]
  by_cases hx : x = n
  · simp [hx]
  · by_cases hy : y = n
    · subst hy
      by_cases h : g.entry y x = none
      · simp [hx, h, hs x y]
      · simp [hx, h]
    · simp [hx, hy]

/-! ### The loop of `reassign_node_id` -/

@[simp] theorem no_nodes_reassign_step (src dst : NodeID) (g : AMGraph) (p : NodeID × EdgeID) :
    (reassign_step src dst g p).no_nodes = g.no_nodes := by
  simp only [reassign_step]
  split <;> simp

theorem no_nodes_foldl_reassign_step (src dst : NodeID) (l : List (NodeID × EdgeID))
    (g : AMGraph) : (l.foldl (reassign_step src dst) g).no_nodes = g.no_nodes := by
  induction l generalizing g with
  | nil => rfl
  | cons p l ih => simp [List.foldl_cons, ih]

/-- Entries after one pass of the loop body, for a neighbour `p.1` other than `dst`. -/
theorem entry_reassign_step (src dst : NodeID) (g : AMGraph) (p : NodeID × EdgeID)
    (hn : p.1 < g.no_nodes) (hd : dst < g.no_nodes) (hne : p.1 ≠ dst) (x y : NodeID) :
    (reassign_step src dst g p).entry x y =
      if g.entry dst p.1 = none ∧ ((x = dst ∧ y = p.1) ∨ (x = p.1 ∧ y = dst)) then some p.2
      else if x = p.1 ∧ y = src then none
      else g.entry x y := by
  have hfind : (g.erase_entry p.1 src).entry dst p.1 = g.entry dst p.1 := by
    rw [entry_erase_entry]
    have : ¬ (dst = p.1 ∧ p.1 = src) := fun h => hne h.1.symm
    simp [this]
  unfold reassign_step
  simp only [hfind]
  cases hc : g.entry dst p.1 with
  | none =>
    simp only [true_and]
    rw [entry_set_entry _ (by simpa using hn), entry_set_entry _ (by simpa using hd),
      entry_erase_entry]
    by_cases h1 : x = p.1 ∧ y = dst
    · simp [h1]
    · by_cases h2 : x = dst ∧ y = p.1
      · simp [h2]
      · simp [h1, h2]
  | some e =>
    simp [entry_erase_entry]

/-- Closed form of the entries after the loop, when `src ≠ dst` and no
neighbour in the list is `src` or `dst`. -/
theorem entry_foldl_reassign_step {src dst : NodeID} (hsd : src ≠ dst)
    (l : List (NodeID × EdgeID)) (g : AMGraph) (hd : dst < g.no_nodes)
    (hl : ∀ p ∈ l, p.1 < g.no_nodes ∧ p.1 ≠ src ∧ p.1 ≠ dst) (x y : NodeID) :
    (l.foldl (reassign_step src dst) g).entry x y =
      if y = src then (if (AdjMap.find l x).isSome then none else g.entry x src)
      else if x = dst then (match g.entry dst y with
        | some e => some e
        | none => AdjMap.find l y)
      else if y = dst then (match AdjMap.find l x with
        | some e => if g.entry dst x = none then some e else g.entry x dst
        | none => g.entry x dst)
      else g.entry x y := by
  induction l generalizing g with
  | nil =>
    simp only [List.foldl_nil, AdjMap.find]
    by_cases h1 : y = src
    · simp [h1]
    · by_cases h2 : x = dst
      · subst h2; cases g.entry x y <;> simp [h1]
      · by_cases h3 : y = dst
        · subst h3; simp [h1, h2]
        · simp [h1, h2, h3]
  | cons p l ih =>
    obtain ⟨n, e⟩ := p
    have hp := hl (n, e) (List.mem_cons_self _ _)
    simp only at hp
    obtain ⟨hn, hns, hnd⟩ := hp
    rw [List.foldl_cons, ih (reassign_step src dst g (n, e)) (by simpa using hd)
      (fun q hq => by simpa using hl q (List.mem_cons_of_mem _ hq))]
    simp only [entry_reassign_step src dst g (n, e) hn hd hnd, AdjMap.find]
    clear ih hl
    have hds : dst ≠ src := fun h => hsd h.symm
    have hdn : dst ≠ n := fun h => hnd h.symm
    have hsn : src ≠ n := fun h => hns h.symm
    by_cases h1 : y = src
    · subst h1
      by_cases h4 : n = x
      · subst h4; simp [hsd, hns, hdn, hnd]
      · have h4b : ¬ x = n := fun h => h4 h.symm
        simp [hsd, h4, h4b, hsn]
    · by_cases h2 : x = dst
      · subst h2
        by_cases h5 : n = y
        · subst h5
          cases hA : g.entry x n <;> simp [h1, hnd, hA]
        · have h5b : ¬ y = n := fun h => h5 h.symm
          simp [h1, h5, h5b, hdn]
      · by_cases h3 : y = dst
        · subst h3
          by_cases h4 : n = x
          · subst h4
            cases hA : g.entry y n <;> simp [h1, h2, hA, hns] <;>
              (cases hB : AdjMap.find l n <;> simp)
          · have h4b : ¬ x = n := fun h => h4 h.symm
            have h7 : ¬ y = x := fun h => h2 h.symm
            simp [h1, h2, h4, h4b, hdn, h7]
        · by_cases h4 : n = x
          · subst h4; simp [h1, h2, h3]
          · have h4b : ¬ x = n := fun h => h4 h.symm
            simp [h1, h2, h3, h4, h4b]

/-- Closed form of the entries after the loop when `src = dst`: every lookup
of the loop succeeds, so the loop only erases back-references. -/
theorem entry_foldl_reassign_step_same (s : NodeID) (l : List (NodeID × EdgeID)) (g : AMGraph)
    (hs : s < g.no_nodes)
    (hl : ∀ p ∈ l, p.1 < g.no_nodes ∧ p.1 ≠ s ∧ g.entry s p.1 ≠ none) (x y : NodeID) :
    (l.foldl (reassign_step s s) g).entry x y =
      if y = s ∧ (AdjMap.find l x).isSome then none else g.entry x y := by
  induction l generalizing g with
  | nil => simp [AdjMap.find]
  | cons p l ih =>
    obtain ⟨n, e⟩ := p
    have hp := hl (n, e) (List.mem_cons_self _ _)
    simp only at hp
    obtain ⟨hn, hns, hne⟩ := hp
    have hstep : ∀ a b, (reassign_step s s g (n, e)).entry a b =
        if a = n ∧ b = s then none else g.entry a b := by
      intro a b
      rw [entry_reassign_step s s g (n, e) hn hs hns]
      simp [hne]
    have hsn : ¬ s = n := fun h => hns h.symm
    rw [List.foldl_cons, ih (reassign_step s s g (n, e)) (by simpa using hs)]
    · simp only [hstep, AdjMap.find]
      by_cases h4 : n = x
      · subst h4
        by_cases h1 : y = s <;> simp [h1]
      · have h4b : ¬ x = n := fun h => h4 h.symm
        simp [h4, h4b]
    · intro q hq
      have hq2 := hl q (List.mem_cons_of_mem _ hq)
      refine ⟨by simpa using hq2.1, hq2.2.1, ?_⟩
      rw [hstep]
      simpa [hsn] using hq2.2.2

theorem find_ne_none_of_mem {m : AdjMap} {p : NodeID × EdgeID} (h : p ∈ m) :
    m.find p.1 ≠ none := by
  rw [Ne, AdjMap.find_eq_none_iff]
  exact fun hc => hc (AdjMap.mem_keys_of_mem h)

/-! ### Closed forms for `reassign_node_id` -/

/-- Entries after `reassign_node_id(src, dst, merge = false)` for distinct
live nodes of a well-formed graph. -/
theorem entry_reassign_no_merge {g : AMGraph} (hsym : g.Symmetric) (hloop : g.NoSelfLoop)
    {src dst : NodeID} (hd : dst < g.no_nodes) (hsd : src ≠ dst) (x y : NodeID) :
    (g.reassign_node_id src dst false).entry x y =
      if x = src ∨ y = src then none
      else if x = dst then (if y = dst then none else g.entry src y)
      else if y = dst then g.entry src x
      else g.entry x y := by
  have hds : ¬ dst = src := fun h => hsd h.symm
  have h2 : ∀ a b, ((g.isolate_node dst).erase_entry src dst).entry a b =
      if a = dst ∨ b = dst then none else g.entry a b := by
    intro a b
    rw [entry_erase_entry, entry_isolate_node_symm hsym]
    by_cases h : a = src ∧ b = dst
    · simp [h]
    · simp [h]
  have hl : ∀ p ∈ ((g.isolate_node dst).erase_entry src dst).row src,
      p.1 < ((g.isolate_node dst).erase_entry src dst).no_nodes ∧ p.1 ≠ src ∧ p.1 ≠ dst := by
    intro p hp
    have h3 := find_ne_none_of_mem hp
    rw [← entry_eq_find_row, h2] at h3
    by_cases h4 : p.1 = dst
    · simp [h4] at h3
    · simp only [hsd, h4, or_self, if_false] at h3
      refine ⟨?_, ?_, h4⟩
      · rw [hsym] at h3
        cases h5 : g.entry p.1 src with
        | none => exact absurd h5 h3
        | some e => simpa using live_of_entry h5
      · intro h6
        rw [h6] at h3
        exact h3 (hloop src)
  unfold reassign_node_id
  simp only [Bool.not_false, if_true]
  rw [entry_clear_row, entry_foldl_reassign_step hsd _ _ (by simpa using hd) hl]
  have hf : ∀ b, AdjMap.find (((g.isolate_node dst).erase_entry src dst).row src) b =
      ((g.isolate_node dst).erase_entry src dst).entry src b := fun _ => rfl
  simp only [hf, h2]
  by_cases hx : x = src
  · simp [hx]
  · by_cases hy : y = src
    · subst hy
      by_cases hxd : x = dst
      · simp [hxd]
      · have := hsym y x
        cases h7 : g.entry y x <;> simp [hx, hxd, hds, h7, ← this]
    · by_cases hxd : x = dst
      · subst hxd
        by_cases hyd : y = x
        · simp [hx, hy, hyd]
        · simp [hx, hy, hyd, hsd]
      · by_cases hyd : y = dst
        · subst hyd
          cases h7 : g.entry src x <;> simp [hx, hy, hxd, hsd]
        · simp [hx, hy, hxd, hyd]

/-- Entries after `reassign_node_id(src, dst, merge = true)` for distinct
live nodes of a well-formed graph. -/
theorem entry_reassign_merge {g : AMGraph} (hsym : g.Symmetric) (hloop : g.NoSelfLoop)
    {src dst : NodeID} (hd : dst < g.no_nodes) (hsd : src ≠ dst) (x y : NodeID) :
    (g.reassign_node_id src dst true).entry x y =
      if x = src ∨ y = src then none
      else if x = dst then
        (if y = dst then none else match g.entry dst y with
          | some e => some e
          | none => g.entry src y)
      else if y = dst then (match g.entry dst x with
        | some e => some e
        | none => g.entry src x)
      else g.entry x y := by
  have hds : ¬ dst = src := fun h => hsd h.symm
  have h2 : ∀ a b, ((g.erase_entry dst src).erase_entry src dst).entry a b =
      if (a = src ∧ b = dst) ∨ (a = dst ∧ b = src) then none else g.entry a b := by
    intro a b
    rw [entry_erase_entry, entry_erase_entry]
    by_cases h : a = src ∧ b = dst
    · simp [h]
    · by_cases h3 : a = dst ∧ b = src <;> simp [h, h3]
  have hl : ∀ p ∈ ((g.erase_entry dst src).erase_entry src dst).row src,
      p.1 < ((g.erase_entry dst src).erase_entry src dst).no_nodes ∧ p.1 ≠ src ∧ p.1 ≠ dst := by
    intro p hp
    have h3 := find_ne_none_of_mem hp
    rw [← entry_eq_find_row, h2] at h3
    by_cases h4 : p.1 = dst
    · simp [h4] at h3
    · simp only [hsd, h4, and_false, false_and, or_self, if_false] at h3
      refine ⟨?_, ?_, h4⟩
      · rw [hsym] at h3
        cases h5 : g.entry p.1 src with
        | none => exact absurd h5 h3
        | some e => simpa using live_of_entry h5
      · intro h6
        rw [h6] at h3
        exact h3 (hloop src)
  unfold reassign_node_id
  simp only [Bool.not_true, Bool.false_eq_true, if_false]
  rw [entry_clear_row, entry_foldl_reassign_step hsd _ _ (by simpa using hd) hl]
  have hf : ∀ b, AdjMap.find (((g.erase_entry dst src).erase_entry src dst).row src) b =
      ((g.erase_entry dst src).erase_entry src dst).entry src b := fun _ => rfl
  simp only [hf, h2]
  by_cases hx : x = src
  · simp [hx]
  · by_cases hy : y = src
    · subst hy
      by_cases hxd : x = dst
      · simp [hxd]
      · have := hsym y x
        cases h7 : g.entry y x <;> simp [hx, hxd, hds, h7, ← this]
    · by_cases hxd : x = dst
      · subst hxd
        by_cases hyd : y = x
        · subst hyd
          simp [hx, hloop y]
        · simp [hx, hy, hyd, hsd]
      · by_cases hyd : y = dst
        · subst hyd
          have := hsym y x
          cases h7 : g.entry src x <;> cases h8 : g.entry y x <;>
            simp [hx, hy, hxd, hsd, h7, h8, ← this]
        · simp [hx, hy, hxd, hyd]

/-- Entries after `reassign_node_id(n, n, merge)` on a well-formed graph:
the node is isolated and nothing else changes. -/
theorem entry_reassign_same {g : AMGraph} (hsym : g.Symmetric) (hloop : g.NoSelfLoop)
    {s : NodeID} (hs : s < g.no_nodes) (merge : Bool) (x y : NodeID) :
    (g.reassign_node_id s s merge).entry x y =
      if x = s ∨ y = s then none else g.entry x y := by
  cases merge with
  | false =>
    have h2 : ∀ a b, ((g.isolate_node s).erase_entry s s).entry a b =
        if a = s ∨ b = s then none else g.entry a b := by
      intro a b
      rw [entry_erase_entry, entry_isolate_node_symm hsym]
      by_cases h : a = s ∧ b = s <;> simp [h]
    have hrow : ((g.isolate_node s).erase_entry s s).row s = [] := by
      cases hr : ((g.isolate_node s).erase_entry s s).row s with
      | nil => rfl
      | cons p l =>
        have h3 := find_ne_none_of_mem (hr ▸ List.mem_cons_self p l :
          p ∈ ((g.isolate_node s).erase_entry s s).row s)
        rw [← entry_eq_find_row, h2] at h3
        simp at h3
    unfold reassign_node_id
    simp only [Bool.not_false, if_true, hrow, List.foldl_nil]
    rw [entry_clear_row, h2]
    by_cases hx : x = s <;> simp [hx]
  | true =>
    have h2 : ∀ a b, ((g.erase_entry s s).erase_entry s s).entry a b = g.entry a b := by
      intro a b
      rw [entry_erase_entry, entry_erase_entry]
      by_cases h : a = s ∧ b = s
      · simp [h, hloop s]
      · simp [h]
    have hl : ∀ p ∈ ((g.erase_entry s s).erase_entry s s).row s,
        p.1 < ((g.erase_entry s s).erase_entry s s).no_nodes ∧ p.1 ≠ s ∧
          ((g.erase_entry s s).erase_entry s s).entry s p.1 ≠ none := by
      intro p hp
      have h3 := find_ne_none_of_mem hp
      rw [← entry_eq_find_row] at h3
      refine ⟨?_, ?_, h3⟩
      · rw [h2, hsym] at h3
        cases h5 : g.entry p.1 s with
        | none => exact absurd h5 h3
        | some e => simpa using live_of_entry h5
      · intro h6
        rw [h2, h6] at h3
        exact h3 (hloop s)
    unfold reassign_node_id
    simp only [Bool.not_true, Bool.false_eq_true, if_false]
    rw [entry_clear_row, entry_foldl_reassign_step_same s _ _ (by simpa using hs) hl]
    have hf : ∀ b, AdjMap.find (((g.erase_entry s s).erase_entry s s).row s) b =
        ((g.erase_entry s s).erase_entry s s).entry s b := fun _ => rfl
    simp only [hf, h2]
    by_cases hx : x = s
    · simp [hx]
    · by_cases hy : y = s
      · subst hy
        have := hsym y x
        cases h7 : g.entry y x <;> simp [hx, h7, ← this]
      · simp [hx, hy]

@[simp] theorem no_nodes_reassign_node_id (g : AMGraph) (src dst : NodeID) (merge : Bool) :
    (g.reassign_node_id src dst merge).no_nodes = g.no_nodes := by
  unfold reassign_node_id
  cases merge <;> simp [no_nodes_foldl_reassign_step]

/-! ### Soundness of the executable checks -/

theorem mem_of_find {m : AdjMap} {k : NodeID} {e : EdgeID} (h : m.find k = some e) :
    (k, e) ∈ m := by
  induction m with
  | nil => simp [AdjMap.find] at h
  | cons p m ih =>
    obtain ⟨k', e'⟩ := p
    by_cases hk : k' = k
    · subst hk
      simp only [AdjMap.find, if_true, Option.some.injEq] at h
      subst h
      exact List.mem_cons_self _ _
    · simp only [AdjMap.find, hk, if_false] at h
      exact List.mem_cons_of_mem _ (ih h)

theorem symmetric_of_check {g : AMGraph} (h : g.symmetricCheck = true) : g.Symmetric := by
  have key : ∀ a b e, g.entry a b = some e → g.entry b a = some e := by
    intro a b e hab
    have ha := live_of_entry hab
    simp only [symmetricCheck, List.all_eq_true, List.mem_range] at h
    have := h a ha (b, e) (mem_of_find hab)
    simpa using this
  intro a b
  cases hab : g.entry a b with
  | some e => exact (key a b e hab).symm
  | none =>
    cases hba : g.entry b a with
    | none => rfl
    | some e => rw [key b a e hba] at hab; cases hab

theorem noSelfLoop_of_check {g : AMGraph} (h : g.noSelfLoopCheck = true) : g.NoSelfLoop := by
  intro a
  by_cases ha : a < g.no_nodes
  · simp only [noSelfLoopCheck, List.all_eq_true, List.mem_range] at h
    simpa using h a ha
  · exact entry_of_not_live g ha a

theorem edgeUnique_of_check {g : AMGraph} (h : g.edgeUniqueCheck = true) : g.EdgeUnique := by
  intro a b c d e hab hcd
  simp only [edgeUniqueCheck, List.all_eq_true, List.mem_range] at h
  have := h a (live_of_entry hab) (b, e) (mem_of_find hab) c (live_of_entry hcd) (d, e)
    (mem_of_find hcd)
  simp only [bne_self_eq_false, Bool.false_or, Bool.or_eq_true, Bool.and_eq_true,
    beq_iff_eq] at this
  exact this

end AMGraph

/-- Where an entry of the result comes from (`src ≠ dst`): it is an entry the
table already had at the same place, or the entry `src`-`n` moved to `dst`-`n`. -/
theorem AMGraph.reassign_provenance {g : AMGraph} (hsym : g.Symmetric) (hloop : g.NoSelfLoop)
    {src dst : NodeID} (hd : dst < g.no_nodes) (hsd : src ≠ dst) (merge : Bool)
    {x y : NodeID} {e : EdgeID} (h : (g.reassign_node_id src dst merge).entry x y = some e) :
    x ≠ src ∧ y ≠ src ∧
      (g.entry x y = some e ∨ (x = dst ∧ y ≠ dst ∧ g.entry src y = some e) ∨
        (y = dst ∧ x ≠ dst ∧ g.entry src x = some e)) := by
  by_cases hx : x = src
  · cases merge
    · rw [AMGraph.entry_reassign_no_merge hsym hloop hd hsd] at h; simp [hx] at h
    · rw [AMGraph.entry_reassign_merge hsym hloop hd hsd] at h; simp [hx] at h
  by_cases hy : y = src
  · cases merge
    · rw [AMGraph.entry_reassign_no_merge hsym hloop hd hsd] at h; simp [hy] at h
    · rw [AMGraph.entry_reassign_merge hsym hloop hd hsd] at h; simp [hy] at h
  refine ⟨hx, hy, ?_⟩
  cases merge with
  | false =>
    rw [AMGraph.entry_reassign_no_merge hsym hloop hd hsd] at h
    simp only [hx, hy, or_self, if_false] at h
    by_cases hxd : x = dst
    · by_cases hyd : y = dst
      · simp [hxd, hyd] at h
      · simp only [hxd, hyd, if_true, if_false] at h
        exact Or.inr (Or.inl ⟨hxd, hyd, h⟩)
    · by_cases hyd : y = dst
      · simp only [hxd, hyd, if_true, if_false] at h
        exact Or.inr (Or.inr ⟨hyd, hxd, h⟩)
      · simp only [hxd, hyd, if_false] at h
        exact Or.inl h
  | true =>
    rw [AMGraph.entry_reassign_merge hsym hloop hd hsd] at h
    simp only [hx, hy, or_self, if_false] at h
    by_cases hxd : x = dst
    · by_cases hyd : y = dst
      · simp [hxd, hyd] at h
      · simp only [hxd, hyd, if_true, if_false] at h
        cases h3 : g.entry dst y with
        | some e0 =>
          rw [h3] at h
          exact Or.inl (by rw [hxd, h3]; exact h)
        | none =>
          rw [h3] at h
          exact Or.inr (Or.inl ⟨hxd, hyd, h⟩)
    · by_cases hyd : y = dst
      · simp only [hxd, hyd, if_true, if_false] at h
        cases h3 : g.entry dst x with
        | some e0 =>
          rw [h3] at h
          exact Or.inl (by rw [hyd, hsym x dst, h3]; exact h)
        | none =>
          rw [h3] at h
          exact Or.inr (Or.inr ⟨hyd, hxd, h⟩)
      · simp only [hxd, hyd, if_false] at h
        exact Or.inl h

/-! ## Lemmas on `clean_graph` -/

theorem NodeMap.get_set_self (nm : NodeMap) (k v : NodeID) : (nm.set k v).get k = v := by
  simp [NodeMap.get, NodeMap.set, AdjMap.find_assign_self]

theorem NodeMap.get_set_ne (nm : NodeMap) {k j : NodeID} (v : NodeID) (h : j ≠ k) :
    (nm.set k v).get j = nm.get j := by
  simp [NodeMap.get, NodeMap.set, AdjMap.find_assign_ne _ _ h]

section CleanGraphLemmas

variable {P C D : Type}

/-- The inner loop of `clean_graph` over the nodes `0..j-1`, for `j ≤ n`:
it writes only `node_map[n]`, raises `erased` exactly when some earlier node
lies within the threshold, and leaves in `node_map[n]` the value of
`node_map[m]` for the last such `m`. -/
theorem clean_inner_foldl (M : Metric P D) (g : AMGraph3D P C) (thresh : D) (n : NodeID)
    (nm : NodeMap) (j : Nat) (hj : j ≤ n) :
    let st := (List.range j).foldl (clean_inner M g thresh n) (false, nm)
    (∀ k, k ≠ n → st.2.get k = nm.get k) ∧
    (st.1 = true ↔ ∃ m, m < j ∧ M.lt (M.sqr_dist (g.pos n) (g.pos m)) thresh = true) ∧
    (∀ m1, m1 < j → M.lt (M.sqr_dist (g.pos n) (g.pos m1)) thresh = true →
      (∀ m, m1 < m → m < j → M.lt (M.sqr_dist (g.pos n) (g.pos m)) thresh = false) →
      st.2.get n = nm.get m1) ∧
    (st.1 = false → st.2 = nm) := by
  induction j with
  | zero => simp
  | succ j ih =>
    have ih := ih (Nat.le_of_succ_le hj)
    simp only at ih ⊢
    obtain ⟨ih1, ih2, ih3, ih4⟩ := ih
    have hjn : j ≠ n := Nat.ne_of_lt hj
    rw [List.range_succ, List.foldl_append, List.foldl_cons, List.foldl_nil]
    generalize (List.range j).foldl (clean_inner M g thresh n) (false, nm) = st at *
    by_cases hc : M.lt (M.sqr_dist (g.pos n) (g.pos j)) thresh = true
    · have hstep : clean_inner M g thresh n st j = (true, st.2.set n (st.2.get j)) := by
        simp [clean_inner, hc]
      rw [hstep]
      refine ⟨?_, ?_, ?_, ?_⟩
      · intro k hk
        rw [NodeMap.get_set_ne _ _ hk]
        exact ih1 k hk
      · simp only [true_iff]
        exact ⟨j, Nat.lt_succ_self j, hc⟩
      · intro m1 hm1 _ hlast
        have : m1 = j := by
          by_contra hne
          have hlt : m1 < j := Nat.lt_of_le_of_ne (Nat.le_of_lt_succ hm1) hne
          have := hlast j hlt (Nat.lt_succ_self j)
          rw [hc] at this
          cases this
        subst this
        rw [NodeMap.get_set_self]
        exact ih1 m1 hjn
      · intro h; cases h
    · have hc' : M.lt (M.sqr_dist (g.pos n) (g.pos j)) thresh = false := by
        simpa using hc
      have hstep : clean_inner M g thresh n st j = st := by
        simp [clean_inner, hc']
      rw [hstep]
      refine ⟨ih1, ?_, ?_, ih4⟩
      · rw [ih2]
        constructor
        · rintro ⟨m, hm, hcm⟩
          exact ⟨m, Nat.lt_succ_of_lt hm, hcm⟩
        · rintro ⟨m, hm, hcm⟩
          have hne : m ≠ j := by
            intro h
            rw [h, hc'] at hcm
            cases hcm
          exact ⟨m, Nat.lt_of_le_of_ne (Nat.le_of_lt_succ hm) hne, hcm⟩
      · intro m1 hm1 hcm hlast
        have hne : m1 ≠ j := by
          intro h
          rw [h, hc'] at hcm
          cases hcm
        exact ih3 m1 (Nat.lt_of_le_of_ne (Nat.le_of_lt_succ hm1) hne) hcm
          (fun m h1 h2 => hlast m h1 (Nat.lt_succ_of_lt h2))

/-- When the first coordinate is a number, `survives` fails exactly when an
earlier node lies within the threshold. -/
theorem survives_eq_false_iff (M : Metric P D) (g : AMGraph3D P C) (thresh : D) (n : NodeID)
    (hnan : M.isnan0 (g.pos n) = false) :
    survives M g thresh n = false ↔ ∃ m, m < n ∧ within M g thresh n m = true := by
  simp only [survives, hnan, Bool.not_false, Bool.true_and]
  rw [← Bool.not_eq_true, List.all_eq_true]
  simp only [List.mem_range, Bool.not_eq_true', not_forall, Bool.not_eq_false, exists_prop]

/-- A surviving node gets the next free handle of the new graph. -/
theorem clean_node_of_survives (M : Metric P D) (g : AMGraph3D P C) (thresh : D)
    (st : AMGraph3D P C × NodeMap) (n : NodeID) (h : survives M g thresh n = true) :
    clean_node M g thresh st n =
      ((st.1.add_node (g.pos n)).2.set_node_color st.1.toAMGraph.no_nodes (g.node_color n),
        st.2.set n st.1.toAMGraph.no_nodes) := by
  have hnan : M.isnan0 (g.pos n) = false := by
    simp only [survives, Bool.and_eq_true, Bool.not_eq_true'] at h
    exact h.1
  have hno : ¬ ∃ m, m < n ∧ within M g thresh n m = true := by
    rw [← survives_eq_false_iff M g thresh n hnan, h]
    simp
  obtain ⟨_, h2, _, h4⟩ := clean_inner_foldl M g thresh n st.2 n (Nat.le_refl n)
  have he : ((List.range n).foldl (clean_inner M g thresh n) (false, st.2)).1 = false := by
    cases hb : ((List.range n).foldl (clean_inner M g thresh n) (false, st.2)).1 with
    | false => rfl
    | true => exact absurd (h2.1 hb) hno
  have h5 := h4 he
  simp only [clean_node, hnan, Bool.false_eq_true, if_false, he, Bool.not_false, if_true, h5,
    NodeMap.get_set_self]
  rfl

/-- A node that does not survive creates no node and writes only its own
entry of `node_map`. -/
theorem clean_node_of_not_survives (M : Metric P D) (g : AMGraph3D P C) (thresh : D)
    (st : AMGraph3D P C × NodeMap) (n : NodeID) (h : survives M g thresh n = false) :
    (clean_node M g thresh st n).1 = st.1 ∧
    (∀ k, k ≠ n → (clean_node M g thresh st n).2.get k = st.2.get k) ∧
    (M.isnan0 (g.pos n) = true → (clean_node M g thresh st n).2.get n = InvalidNodeID) ∧
    (M.isnan0 (g.pos n) = false → ∀ m1, m1 < n → within M g thresh n m1 = true →
      (∀ m, m1 < m → m < n → within M g thresh n m = false) →
      (clean_node M g thresh st n).2.get n = st.2.get m1) := by
  cases hnan : M.isnan0 (g.pos n) with
  | true =>
    simp only [clean_node, hnan, if_true, Bool.not_true, Bool.false_eq_true, if_false]
    refine ⟨trivial, ?_, ?_, ?_⟩
    · intro k hk; exact NodeMap.get_set_ne _ _ hk
    · intro _; exact NodeMap.get_set_self _ _ _
    · intro hc; cases hc
  | false =>
    obtain ⟨h1, h2, h3, _⟩ := clean_inner_foldl M g thresh n st.2 n (Nat.le_refl n)
    have he : ((List.range n).foldl (clean_inner M g thresh n) (false, st.2)).1 = true :=
      h2.2 ((survives_eq_false_iff M g thresh n hnan).1 h)
    simp only [clean_node, hnan, Bool.false_eq_true, if_false, he, Bool.not_true]
    refine ⟨trivial, h1, ?_, ?_⟩
    · intro hc; cases hc
    · intro _ m1 hm1 hc hlast
      exact h3 m1 hm1 hc hlast

theorem getElem?_append_singleton (l : List NodeID) (a : NodeID) (i : Nat) (s : NodeID)
    (h : (l ++ [a])[i]? = some s) : l[i]? = some s ∨ (i = l.length ∧ s = a) := by
  induction l generalizing i with
  | nil =>
    cases i with
    | zero => right; simpa [eq_comm] using h
    | succ i => simp at h
  | cons b l ih =>
    cases i with
    | zero => left; simpa using h
    | succ i =>
      rcases ih i (by simpa using h) with h1 | ⟨h1, h2⟩
      · left; simpa using h1
      · right; exact ⟨by simp [h1], h2⟩

theorem lt_of_getElem?_survivors (M : Metric P D) (g : AMGraph3D P C) (thresh : D) (n i : Nat)
    (s : NodeID) (h : ((List.range n).filter (survives M g thresh))[i]? = some s) :
    s < n ∧ survives M g thresh s = true := by
  have hm : s ∈ (List.range n).filter (survives M g thresh) := List.getElem?_mem h
  rw [List.mem_filter, List.mem_range] at hm
  exact hm

theorem lt_length_of_getElem? {l : List NodeID} {i : Nat} {s : NodeID} (h : l[i]? = some s) :
    i < l.length := by
  by_contra hc
  rw [List.getElem?_eq_none (Nat.le_of_not_lt hc)] at h
  cases h

/-- The loop invariant holds after any number of passes of the first loop. -/
theorem cleanInv_foldl [Inhabited P] [Inhabited C] (M : Metric P D) (g : AMGraph3D P C)
    (thresh : D) (n : Nat) :
    CleanInv M g thresh n ((List.range n).foldl (clean_node M g thresh) (AMGraph3D.empty, [])) := by
  induction n with
  | zero =>
    exact
      { rows := rfl
        fresh := rfl
        node := by intro i s h; simp at h
        nan := by intro k hk; exact absurd hk (Nat.not_lt_zero k)
        merged := by intro k hk; exact absurd hk (Nat.not_lt_zero k) }
  | succ n ih =>
    rw [List.range_succ, List.foldl_append, List.foldl_cons, List.foldl_nil]
    generalize (List.range n).foldl (clean_node M g thresh) (AMGraph3D.empty, []) = st at ih
    have hlen : st.1.toAMGraph.no_nodes =
        ((List.range n).filter (survives M g thresh)).length := by
      simp [AMGraph.no_nodes, ih.rows]
    cases hsv : survives M g thresh n with
    | true =>
      have hS : (List.range (n + 1)).filter (survives M g thresh) =
          (List.range n).filter (survives M g thresh) ++ [n] := by
        simp [List.range_succ, List.filter_append, List.filter_cons, hsv]
      have hnan : M.isnan0 (g.pos n) = false := by
        simp only [survives, Bool.and_eq_true, Bool.not_eq_true'] at hsv
        exact hsv.1
      have hkeep : ∀ k, k < n →
          (clean_node M g thresh st n).2.get k = st.2.get k := by
        intro k hk
        rw [clean_node_of_survives M g thresh st n hsv]
        exact NodeMap.get_set_ne _ _ (Nat.ne_of_lt hk)
      refine
        { rows := ?_, fresh := ?_, node := ?_, nan := ?_, merged := ?_ }
      · rw [hS, clean_node_of_survives M g thresh st n hsv]
        simp [AMGraph3D.add_node, AMGraph3D.set_node_color, ih.rows, List.replicate_succ']
      · rw [clean_node_of_survives M g thresh st n hsv]
        simpa [AMGraph3D.add_node, AMGraph3D.set_node_color] using ih.fresh
      · intro i s h
        rw [hS] at h
        rw [clean_node_of_survives M g thresh st n hsv]
        rcases getElem?_append_singleton _ _ _ _ h with h1 | ⟨h1, h2⟩
        · have hi : i ≠ st.1.toAMGraph.no_nodes := by
            rw [hlen]; exact Nat.ne_of_lt (lt_length_of_getElem? h1)
          have hs : s ≠ n := Nat.ne_of_lt (lt_of_getElem?_survivors M g thresh n i s h1).1
          obtain ⟨hp, hc, hm⟩ := ih.node i s h1
          refine ⟨?_, ?_, ?_⟩
          · simpa [AMGraph3D.add_node, AMGraph3D.set_node_color, Function.update, hi] using hp
          · simpa [AMGraph3D.add_node, AMGraph3D.set_node_color, Function.update, hi] using hc
          · rw [NodeMap.get_set_ne _ _ hs]; exact hm
        · subst h2
          have hi : i = st.1.toAMGraph.no_nodes := by rw [hlen]; exact h1
          subst hi
          refine ⟨?_, ?_, ?_⟩
          · simp [AMGraph3D.add_node, AMGraph3D.set_node_color]
          · simp [AMGraph3D.add_node, AMGraph3D.set_node_color]
          · exact NodeMap.get_set_self _ _ _
      · intro k hk hkn
        rcases Nat.lt_succ_iff_lt_or_eq.1 hk with h1 | h1
        · rw [hkeep k h1]; exact ih.nan k h1 hkn
        · rw [h1, hnan] at hkn; cases hkn
      · intro k hk hkn m1 hm1 hc hlast
        rcases Nat.lt_succ_iff_lt_or_eq.1 hk with h1 | h1
        · rw [hkeep k h1, hkeep m1 (Nat.lt_trans hm1 h1)]
          exact ih.merged k h1 hkn m1 hm1 hc hlast
        · subst h1
          have := (survives_eq_false_iff M g thresh k hkn).2 ⟨m1, hm1, hc⟩
          rw [hsv] at this; cases this
    | false =>
      have hS : (List.range (n + 1)).filter (survives M g thresh) =
          (List.range n).filter (survives M g thresh) := by
        simp [List.range_succ, List.filter_append, List.filter_cons, hsv]
      obtain ⟨h1, h2, h3, h4⟩ := clean_node_of_not_survives M g thresh st n hsv
      refine
        { rows := ?_, fresh := ?_, node := ?_, nan := ?_, merged := ?_ }
      · rw [hS, h1]; exact ih.rows
      · rw [h1]; exact ih.fresh
      · intro i s h
        rw [hS] at h
        have hs : s ≠ n := Nat.ne_of_lt (lt_of_getElem?_survivors M g thresh n i s h).1
        rw [h1, h2 s hs]
        exact ih.node i s h
      · intro k hk hkn
        rcases Nat.lt_succ_iff_lt_or_eq.1 hk with h5 | h5
        · rw [h2 k (Nat.ne_of_lt h5)]; exact ih.nan k h5 hkn
        · subst h5; exact h3 hkn
      · intro k hk hkn m1 hm1 hc hlast
        rcases Nat.lt_succ_iff_lt_or_eq.1 hk with h5 | h5
        · rw [h2 k (Nat.ne_of_lt h5), h2 m1 (Nat.ne_of_lt (Nat.lt_trans hm1 h5))]
          exact ih.merged k h5 hkn m1 hm1 hc hlast
        · subst h5
          rw [h2 m1 (Nat.ne_of_lt hm1)]
          exact h4 hkn m1 hm1 hc hlast

/-- The loop invariant holds when the first loop of `clean_graph` ends. -/
theorem cleanInv_clean_nodes [Inhabited P] [Inhabited C] (M : Metric P D) (g : AMGraph3D P C)
    (thresh : D) : CleanInv M g thresh g.toAMGraph.no_nodes (clean_nodes M g thresh) :=
  cleanInv_foldl M g thresh g.toAMGraph.no_nodes

/-! ### The second loop: `connect_nodes` -/

theorem AMGraph.connect_nodes_no_nodes (g : AMGraph) (a b : NodeID) :
    (g.connect_nodes a b).2.no_nodes = g.no_nodes := by
  unfold AMGraph.connect_nodes
  split
  · rfl
  · split
    · rfl
    · exact (AMGraph.no_nodes_set_entry _ _ _ _).trans (AMGraph.no_nodes_set_entry _ _ _ _)

/-- The entries present after `connect_nodes(a, b)` on a symmetric table. -/
theorem AMGraph.entry_connect_nodes {g : AMGraph} (hsym : g.Symmetric) (a b x y : NodeID) :
    (g.connect_nodes a b).2.entry x y ≠ none ↔
      g.entry x y ≠ none ∨
        (a ≠ b ∧ a < g.no_nodes ∧ b < g.no_nodes ∧ ((x = a ∧ y = b) ∨ (x = b ∧ y = a))) := by
  unfold AMGraph.connect_nodes
  by_cases hg : a = b ∨ ¬ a < g.no_nodes ∨ ¬ b < g.no_nodes
  · simp only [hg, if_true]
    constructor
    · intro h; exact Or.inl h
    · rintro (h | ⟨h1, h2, h3, _⟩)
      · exact h
      · rcases hg with h4 | h4 | h4
        · exact absurd h4 h1
        · exact absurd h2 h4
        · exact absurd h3 h4
  · simp only [hg, if_false]
    have hg2 : a ≠ b ∧ a < g.no_nodes ∧ b < g.no_nodes := by
      refine ⟨fun h => hg (Or.inl h), ?_, ?_⟩
      · by_contra h; exact hg (Or.inr (Or.inl h))
      · by_contra h; exact hg (Or.inr (Or.inr h))
    cases hab : g.entry a b with
    | some e =>
      simp only
      constructor
      · intro h; exact Or.inl h
      · rintro (h | ⟨_, _, _, ⟨h1, h2⟩ | ⟨h1, h2⟩⟩)
        · exact h
        · rw [h1, h2, hab]; simp
        · rw [h1, h2, hsym b a, hab]; simp
    | none =>
      simp only
      have he : ∀ (h : AMGraph) (k : Nat), AMGraph.entry { h with no_edges_created := k } x y =
          h.entry x y := fun _ _ => rfl
      rw [he, AMGraph.entry_set_entry _ (by simpa using hg2.2.2),
        AMGraph.entry_set_entry _ hg2.2.1]
      by_cases h1 : x = b ∧ y = a
      · simp [h1, hg2]
      · by_cases h2 : x = a ∧ y = b
        · simp [h2, hg2]
        · simp [h1, h2]

theorem AMGraph.symmetric_connect_nodes {g : AMGraph} (hsym : g.Symmetric) (a b : NodeID) :
    (g.connect_nodes a b).2.Symmetric := by
  unfold AMGraph.connect_nodes
  by_cases hg : a = b ∨ ¬ a < g.no_nodes ∨ ¬ b < g.no_nodes
  · simpa only [hg, if_true] using hsym
  · simp only [hg, if_false]
    have ha : a < g.no_nodes := by
      by_contra h; exact hg (Or.inr (Or.inl h))
    have hb : b < g.no_nodes := by
      by_contra h; exact hg (Or.inr (Or.inr h))
    cases hab : g.entry a b with
    | some e => simpa only using hsym
    | none =>
      simp only
      intro x y
      have key : ∀ u v, AMGraph.entry
          { ((g.set_entry a b g.no_edges_created).set_entry b a g.no_edges_created) with
            no_edges_created := g.no_edges_created + 1 } u v =
          if u = b ∧ v = a then some g.no_edges_created
          else if u = a ∧ v = b then some g.no_edges_created else g.entry u v := by
        intro u v
        have he : ∀ (h : AMGraph) (k : Nat), AMGraph.entry { h with no_edges_created := k } u v =
            h.entry u v := fun _ _ => rfl
        rw [he, AMGraph.entry_set_entry _ (by simpa using hb), AMGraph.entry_set_entry _ ha]
      rw [key x y, key y x, hsym x y]
      by_cases h1 : x = b ∧ y = a
      · obtain ⟨h1, h2⟩ := h1
        subst h1 h2
        simp
      · by_cases h2 : x = a ∧ y = b
        · obtain ⟨h2, h3⟩ := h2
          subst h2 h3
          simp
        · have h3 : ¬ (y = b ∧ x = a) := fun h => h2 ⟨h.2, h.1⟩
          have h4 : ¬ (y = a ∧ x = b) := fun h => h1 ⟨h.2, h.1⟩
          simp [h1, h2, h3, h4]

theorem connect_all_spec (calls : List (NodeID × NodeID)) (g : AMGraph) (hsym : g.Symmetric) :
    (connect_all g calls).Symmetric ∧ (connect_all g calls).no_nodes = g.no_nodes ∧
      ∀ x y, (connect_all g calls).entry x y ≠ none ↔
        g.entry x y ≠ none ∨ ∃ c ∈ calls, c.1 ≠ c.2 ∧ c.1 < g.no_nodes ∧ c.2 < g.no_nodes ∧
          ((x = c.1 ∧ y = c.2) ∨ (x = c.2 ∧ y = c.1)) := by
  induction calls generalizing g with
  | nil => exact ⟨hsym, rfl, by simp [connect_all]⟩
  | cons c calls ih =>
    obtain ⟨h1, h2, h3⟩ := ih (g.connect_nodes c.1 c.2).2
      (AMGraph.symmetric_connect_nodes hsym c.1 c.2)
    rw [AMGraph.connect_nodes_no_nodes] at h2 h3
    refine ⟨h1, h2, ?_⟩
    intro x y
    have h4 := h3 x y
    rw [AMGraph.entry_connect_nodes hsym] at h4
    have hfold : connect_all g (c :: calls) = connect_all (g.connect_nodes c.1 c.2).2 calls := rfl
    rw [hfold, h4]
    constructor
    · rintro ((h | h) | ⟨d, hd, h⟩)
      · exact Or.inl h
      · exact Or.inr ⟨c, List.mem_cons_self _ _, h⟩
      · exact Or.inr ⟨d, List.mem_cons_of_mem _ hd, h⟩
    · rintro (h | ⟨d, hd, h⟩)
      · exact Or.inl (Or.inl h)
      · rcases List.mem_cons.1 hd with h5 | h5
        · subst h5; exact Or.inl (Or.inr h)
        · exact Or.inr ⟨d, h5, h⟩

theorem clean_edge_spec (zero : C) (g : AMGraph3D P C) (nm : NodeMap) (n : NodeID)
    (gn : AMGraph3D P C) (nn : NodeID) :
    (clean_edge zero g nm n gn nn).toAMGraph =
        (gn.toAMGraph.connect_nodes (nm.get n) (nm.get nn)).2 ∧
      (clean_edge zero g nm n gn nn).pos = gn.pos ∧
      (clean_edge zero g nm n gn nn).node_color = gn.node_color := by
  unfold clean_edge
  simp only
  split
  · split <;> exact ⟨rfl, rfl, rfl⟩
  · exact ⟨rfl, rfl, rfl⟩

theorem clean_edge_foldl (zero : C) (g : AMGraph3D P C) (nm : NodeMap) (n : NodeID)
    (l : List NodeID) (gn : AMGraph3D P C) :
    (l.foldl (clean_edge zero g nm n) gn).toAMGraph =
        connect_all gn.toAMGraph (l.map fun nn => (nm.get n, nm.get nn)) ∧
      (l.foldl (clean_edge zero g nm n) gn).pos = gn.pos ∧
      (l.foldl (clean_edge zero g nm n) gn).node_color = gn.node_color := by
  induction l generalizing gn with
  | nil => exact ⟨rfl, rfl, rfl⟩
  | cons nn l ih =>
    obtain ⟨h1, h2, h3⟩ := ih (clean_edge zero g nm n gn nn)
    obtain ⟨h4, h5, h6⟩ := clean_edge_spec zero g nm n gn nn
    rw [List.foldl_cons]
    refine ⟨?_, h2.trans h5, h3.trans h6⟩
    rw [h1, h4]
    rfl

/-- The second loop of `clean_graph` makes exactly the calls listed by
`connect_calls` and touches neither positions nor node colours. -/
theorem clean_edges_spec (zero : C) (g : AMGraph3D P C) (nm : NodeMap) (gn : AMGraph3D P C) :
    (clean_edges zero g nm gn).toAMGraph = connect_all gn.toAMGraph (connect_calls g nm) ∧
      (clean_edges zero g nm gn).pos = gn.pos ∧
      (clean_edges zero g nm gn).node_color = gn.node_color := by
  unfold clean_edges connect_calls
  generalize g.toAMGraph.node_ids = ids
  induction ids generalizing gn with
  | nil => exact ⟨rfl, rfl, rfl⟩
  | cons n ids ih =>
    rw [List.foldl_cons, List.flatMap_cons]
    by_cases hv : nm.get n ≠ InvalidNodeID
    · simp only [hv, if_true, ne_eq, not_false_eq_true]
      obtain ⟨h1, h2, h3⟩ := clean_edge_foldl zero g nm n (g.toAMGraph.neighbors n) gn
      obtain ⟨h4, h5, h6⟩ := ih ((g.toAMGraph.neighbors n).foldl (clean_edge zero g nm n) gn)
      simp only [ne_eq] at h4 h5 h6
      refine ⟨?_, h5.trans h2, h6.trans h3⟩
      rw [h4, h1]
      simp [connect_all, List.foldl_append]
    · simp only [hv, if_false]
      obtain ⟨h4, h5, h6⟩ := ih gn
      simp only [ne_eq] at h4 h5 h6
      exact ⟨by simpa using h4, h5, h6⟩

theorem rowAt_replicate_nil (k n : Nat) : rowAt (List.replicate k []) n = [] := by
  induction k generalizing n with
  | zero => rfl
  | succ k ih =>
    cases n with
    | zero => rfl
    | succ n => simpa [List.replicate_succ, rowAt] using ih n

/-- The graph built by the first loop of `clean_graph` has no edge. -/
theorem entry_clean_nodes [Inhabited P] [Inhabited C] (M : Metric P D) (g : AMGraph3D P C)
    (thresh : D) (x y : NodeID) : (clean_nodes M g thresh).1.toAMGraph.entry x y = none := by
  unfold AMGraph.entry AMGraph.row
  rw [(cleanInv_clean_nodes M g thresh).rows, rowAt_replicate_nil]
  rfl

theorem symmetric_clean_nodes [Inhabited P] [Inhabited C] (M : Metric P D) (g : AMGraph3D P C)
    (thresh : D) : (clean_nodes M g thresh).1.toAMGraph.Symmetric := by
  intro a b
  rw [entry_clean_nodes, entry_clean_nodes]

theorem no_nodes_clean_nodes [Inhabited P] [Inhabited C] (M : Metric P D) (g : AMGraph3D P C)
    (thresh : D) :
    (clean_nodes M g thresh).1.toAMGraph.no_nodes = (survivors M g thresh).length := by
  unfold AMGraph.no_nodes
  rw [(cleanInv_clean_nodes M g thresh).rows, List.length_replicate]
  rfl

theorem no_nodes_clean_graph [Inhabited P] [Inhabited C] (M : Metric P D) (zero : C)
    (g : AMGraph3D P C) (thresh : D) :
    (clean_graph M zero g thresh).toAMGraph.no_nodes = (survivors M g thresh).length := by
  unfold clean_graph
  rw [(clean_edges_spec zero g _ _).1,
    (connect_all_spec _ _ (symmetric_clean_nodes M g thresh)).2.1, no_nodes_clean_nodes]

theorem mem_survivors (M : Metric P D) (g : AMGraph3D P C) (thresh : D) (n : NodeID) :
    n ∈ survivors M g thresh ↔
      n < g.toAMGraph.no_nodes ∧ M.isnan0 (g.pos n) = false ∧
        ∀ m, m < n → within M g thresh n m = false := by
  unfold survivors survives
  rw [List.mem_filter, List.mem_range, Bool.and_eq_true, List.all_eq_true]
  simp only [List.mem_range, Bool.not_eq_true']

theorem mem_connect_calls (g : AMGraph3D P C) (nm : NodeMap) (c : NodeID × NodeID) :
    c ∈ connect_calls g nm ↔
      ∃ n, n < g.toAMGraph.no_nodes ∧ nm.get n ≠ InvalidNodeID ∧
        ∃ nn, g.toAMGraph.entry n nn ≠ none ∧ c = (nm.get n, nm.get nn) := by
  unfold connect_calls AMGraph.node_ids
  rw [List.mem_flatMap]
  constructor
  · rintro ⟨n, hn, hc⟩
    rw [List.mem_range] at hn
    by_cases hv : nm.get n ≠ InvalidNodeID
    · rw [if_pos hv, List.mem_map] at hc
      obtain ⟨nn, hnn, hc⟩ := hc
      refine ⟨n, hn, hv, nn, ?_, hc.symm⟩
      rw [AMGraph.entry, Ne, AdjMap.find_eq_none_iff]
      exact fun h => h hnn
    · rw [if_neg hv] at hc
      cases hc
  · rintro ⟨n, hn, hv, nn, hnn, hc⟩
    refine ⟨n, List.mem_range.2 hn, ?_⟩
    rw [if_pos hv, List.mem_map]
    refine ⟨nn, ?_, hc.symm⟩
    rw [AMGraph.entry, Ne, AdjMap.find_eq_none_iff] at hnn
    exact not_not.1 hnn

/-- The edges of the output of `clean_graph`: the pairs joined by a
`connect_nodes` call with two distinct live arguments. -/
theorem entry_clean_graph [Inhabited P] [Inhabited C] (M : Metric P D) (zero : C)
    (g : AMGraph3D P C) (thresh : D) (x y : NodeID) :
    (clean_graph M zero g thresh).toAMGraph.entry x y ≠ none ↔
      ∃ c ∈ connect_calls g (clean_node_map M g thresh), c.1 ≠ c.2 ∧
        c.1 < (survivors M g thresh).length ∧ c.2 < (survivors M g thresh).length ∧
        ((x = c.1 ∧ y = c.2) ∨ (x = c.2 ∧ y = c.1)) := by
  unfold clean_graph
  rw [(clean_edges_spec zero g _ _).1,
    (connect_all_spec _ _ (symmetric_clean_nodes M g thresh)).2.2, entry_clean_nodes,
    no_nodes_clean_nodes]
  simp only [ne_eq, not_true_eq_false, false_or]
  rfl

theorem exists_last_true (p : Nat → Bool) (n : Nat) (h : ∃ m, m < n ∧ p m = true) :
    ∃ m1, m1 < n ∧ p m1 = true ∧ ∀ m, m1 < m → m < n → p m = false := by
  induction n with
  | zero =>
    obtain ⟨m, hm, _⟩ := h
    exact absurd hm (Nat.not_lt_zero m)
  | succ n ih =>
    cases hp : p n with
    | true =>
      refine ⟨n, Nat.lt_succ_self n, hp, ?_⟩
      intro m h1 h2
      exact absurd (Nat.lt_of_lt_of_le h1 (Nat.le_of_lt_succ h2)) (Nat.lt_irrefl n)
    | false =>
      obtain ⟨m, hm, hpm⟩ := h
      have hne : m ≠ n := by
        intro h1
        rw [h1, hp] at hpm
        cases hpm
      obtain ⟨m1, h1, h2, h3⟩ := ih ⟨m, Nat.lt_of_le_of_ne (Nat.le_of_lt_succ hm) hne, hpm⟩
      refine ⟨m1, Nat.lt_succ_of_lt h1, h2, ?_⟩
      intro k hk1 hk2
      rcases Nat.lt_succ_iff_lt_or_eq.1 hk2 with h4 | h4
      · exact h3 k hk1 h4
      · rw [h4]; exact hp

/-- When a distance to a NaN position is never below the threshold, every node
whose first coordinate is a number is mapped to the output node of a survivor. -/
theorem node_map_of_number [Inhabited P] [Inhabited C] (M : Metric P D) (g : AMGraph3D P C)
    (thresh : D)
    (hlaw : ∀ n m, M.isnan0 (g.pos m) = true → within M g thresh n m = false)
    (k : NodeID) (hk : k < g.toAMGraph.no_nodes) (hnan : M.isnan0 (g.pos k) = false) :
    ∃ i s, (survivors M g thresh)[i]? = some s ∧ (clean_node_map M g thresh).get k = i := by
  induction k using Nat.strong_induction_on with
  | _ k ih =>
    cases hsv : survives M g thresh k with
    | true =>
      have hmem : k ∈ survivors M g thresh :=
        List.mem_filter.2 ⟨List.mem_range.2 hk, hsv⟩
      obtain ⟨i, hi⟩ := List.getElem?_of_mem hmem
      exact ⟨i, k, hi, ((cleanInv_clean_nodes M g thresh).node i k hi).2.2⟩
    | false =>
      obtain ⟨m1, h1, h2, h3⟩ := exists_last_true (fun m => within M g thresh k m) k
        ((survives_eq_false_iff M g thresh k hnan).1 hsv)
      have hm1 : M.isnan0 (g.pos m1) = false := by
        cases h : M.isnan0 (g.pos m1) with
        | false => rfl
        | true =>
          have h4 := hlaw k m1 h
          rw [h4] at h2
          cases h2
      obtain ⟨i, s, hi, hget⟩ := ih m1 h1 (Nat.lt_trans h1 hk) hm1
      refine ⟨i, s, hi, ?_⟩
      rw [← hget]
      exact (cleanInv_clean_nodes M g thresh).merged k hk hnan m1 h1 h2 h3

theorem length_survivors_le (M : Metric P D) (g : AMGraph3D P C) (thresh : D) :
    (survivors M g thresh).length ≤ g.toAMGraph.no_nodes := by
  unfold survivors
  exact (List.length_filter_le _ _).trans (by rw [List.length_range])

end CleanGraphLemmas

theorem AMGraph.validIds_of_check {g : AMGraph} (h : g.validIdsCheck = true) :
    ∀ a b e, g.entry a b = some e → e ≠ InvalidEdgeID := by
  intro a b e hab
  simp only [AMGraph.validIdsCheck, List.all_eq_true, List.mem_range] at h
  have := h a (AMGraph.live_of_entry hab) (b, e) (AMGraph.mem_of_find hab)
  simpa using this

/-- A neighbour taken from `neighbors(n)` has an entry in the map of `n`, so
`find_edge` returns the stored EdgeID. -/
theorem AMGraph.valid_find_edge_of_neighbor (g : AMGraph) (n nn : NodeID)
    (hvalid : ∀ a b e, g.entry a b = some e → e ≠ InvalidEdgeID)
    (hnn : nn ∈ g.neighbors n) : valid_edge (g.find_edge n nn) = true := by
  have hne : g.entry n nn ≠ none := by
    rw [AMGraph.entry, Ne, AdjMap.find_eq_none_iff]
    exact fun h => h hnn
  cases he : g.entry n nn with
  | none => exact absurd he hne
  | some e =>
    have := hvalid n nn e he
    simp [valid_edge, AMGraph.find_edge, he, this]

/-! ## Lemmas on the traversal engine -/

section TraversalLemmas

variable {W : Type} [LinearOrderedAddCommGroup W]

theorem pq_top_eq_none_iff (q : List (PrimPQElem W)) : pq_top q = none ↔ q = [] := by
  cases q with
  | nil => simp [pq_top]
  | cons e q =>
    simp only [pq_top]
    cases pq_top q with
    | none => simp
    | some t => by_cases h : t.priority < e.priority <;> simp [h]

/-- The top entry is in the queue and no entry has a greater priority. -/
theorem pq_top_spec {q : List (PrimPQElem W)} {t : PrimPQElem W} (h : pq_top q = some t) :
    t ∈ q ∧ ∀ e ∈ q, e.priority ≤ t.priority := by
  induction q generalizing t with
  | nil => simp [pq_top] at h
  | cons e q ih =>
    simp only [pq_top] at h
    cases hq : pq_top q with
    | none =>
      rw [hq] at h
      simp only [Option.some.injEq] at h
      subst h
      have : q = [] := (pq_top_eq_none_iff q).1 hq
      subst this
      exact ⟨List.mem_cons_self _ _, by simp⟩
    | some t' =>
      rw [hq] at h
      obtain ⟨h1, h2⟩ := ih hq
      by_cases hlt : t'.priority < e.priority
      · simp only [hlt, if_true, Option.some.injEq] at h
        subst h
        refine ⟨List.mem_cons_self _ _, ?_⟩
        intro e' he'
        rcases List.mem_cons.1 he' with h3 | h3
        · rw [h3]
        · exact le_trans (h2 e' h3) (le_of_lt hlt)
      · simp only [hlt, if_false, Option.some.injEq] at h
        subst h
        refine ⟨List.mem_cons_of_mem _ h1, ?_⟩
        intro e' he'
        rcases List.mem_cons.1 he' with h3 | h3
        · rw [h3]; exact le_of_not_lt hlt
        · exact h2 e' h3

theorem pq_pop_of_top {q : List (PrimPQElem W)} {t : PrimPQElem W} (h : pq_top q = some t) :
    pq_pop q = q.erase t := by
  simp [pq_pop, h]

theorem length_pq_pop {q : List (PrimPQElem W)} {t : PrimPQElem W} (h : pq_top q = some t) :
    (pq_pop q).length + 1 = q.length := by
  rw [pq_pop_of_top h, List.length_erase_of_mem (pq_top_spec h).1]
  have : 0 < q.length := List.length_pos_of_mem (pq_top_spec h).1
  omega

theorem nodup_of_distinct {q : List (PrimPQElem W)}
    (h : q.Pairwise fun e e' => e.node = e'.node → e.priority ≠ e'.priority) : q.Nodup := by
  refine List.Pairwise.imp ?_ h
  intro a b hab heq
  exact hab (by rw [heq]) (by rw [heq])

theorem PredPath.mono {g : AMGraph} {len : NodeID → NodeID → W} {pred pred' : NodeID → NodeID}
    {vis vis' : List NodeID} {start v : NodeID} {x : W}
    (h : PredPath g len pred vis start v x) (hsub : ∀ u ∈ vis, u ∈ vis')
    (hpred : ∀ u ∈ vis, pred' u = pred u) : PredPath g len pred' vis' start v x := by
  induction h with
  | base => exact PredPath.base
  | @step u y hne hv hnb _ ih =>
    have hp := hpred u hv
    have : PredPath g len pred' vis' start u (y + len (pred' u) u) :=
      PredPath.step hne (hsub u hv) (by rw [hp]; exact hnb) (by rw [hp]; exact ih)
    rw [hp] at this
    exact this

theorem is_fresh_iff (p : W) (o : Option W) : is_fresh p o = true ↔ o = some (-p) := by
  cases o with
  | none => simp [is_fresh]
  | some x =>
    simp only [is_fresh, decide_eq_true_eq, Option.some.injEq]
    constructor
    · intro h; rw [h, neg_neg]
    · intro h; rw [h, neg_neg]

/-- The invariant holds after `init(start)` on an engine with an empty queue. -/
theorem runInv_init (g : AMGraph) (len : NodeID → NodeID → W) (start : NodeID)
    (hstart : start < g.no_nodes) (s : BreadthFirstSearch W) (hs : s.pq = []) :
    RunInv g len start (s.init start) := by
  have hpq : (s.init start).pq = [⟨-0, start, InvalidNodeID⟩] := by
    simp [BreadthFirstSearch.init, hs, pq_push]
  have hdist : (s.init start).dist = Function.update (fun _ => none) start (some 0) := by
    simp [BreadthFirstSearch.init, hs]
  have hvis : (s.init start).visited = [] := by simp [BreadthFirstSearch.init, hs]
  have hfront : (s.init start).front = [] := by simp [BreadthFirstSearch.init, hs]
  have hd0 : (s.init start).dist start = some 0 := by rw [hdist]; simp
  have hdne : ∀ m, m ≠ start → (s.init start).dist m = none := by
    intro m hm; rw [hdist]; simp [Function.update, hm]
  have hsome : ∀ m x, (s.init start).dist m = some x → m = start ∧ x = 0 := by
    intro m x h
    by_cases hm : m = start
    · subst hm; rw [hd0] at h; exact ⟨rfl, (Option.some.inj h).symm⟩
    · rw [hdne m hm] at h; cases h
  exact
    { seed_dist := hd0
      dist_nonneg := by
        intro m x h
        rw [(hsome m x h).2]
      vis_nodup := by rw [hvis]; exact List.nodup_nil
      front_nodup := by rw [hfront]; exact List.nodup_nil
      entry_ge := by
        intro e he
        rw [hpq, List.mem_singleton] at he
        subst he
        exact ⟨0, hd0, by simp⟩
      distinct := by rw [hpq]; exact List.pairwise_singleton _ _
      stale_vis := by
        intro e _ hv
        rw [hvis] at hv
        cases hv
      mono := by
        intro v hv
        rw [hvis] at hv
        cases hv
      pending := by
        intro m x h
        obtain ⟨h1, h2⟩ := hsome m x h
        right
        refine ⟨⟨-0, start, InvalidNodeID⟩, ?_, h1.symm, by rw [h2]⟩
        rw [hpq]
        exact List.mem_singleton_self _
      phase := Or.inl ⟨hvis, hpq, hdne⟩
      parent := by
        intro e he hne
        rw [hpq, List.mem_singleton] at he
        subst he
        exact absurd rfl hne
      pred_fresh := by
        intro e he hne
        rw [hpq, List.mem_singleton] at he
        subst he
        exact absurd rfl hne
      relaxed := by
        intro v hv
        rw [hvis] at hv
        cases hv
      ppath := by
        intro v hv
        rw [hvis] at hv
        cases hv
      front_iff := by
        intro m
        rw [hfront]
        constructor
        · intro h; cases h
        · rintro ⟨h1, _, h3⟩
          exact absurd (hdne m h3) h1
      vis_live := by
        intro v hv
        rw [hvis] at hv
        cases hv
      pq_live := by
        intro e he
        rw [hpq, List.mem_singleton] at he
        subst he
        exact hstart }

theorem mem_pq_pop {q : List (PrimPQElem W)} {t e : PrimPQElem W} (h : pq_top q = some t)
    (he : e ∈ pq_pop q) : e ∈ q := by
  rw [pq_pop_of_top h] at he
  exact List.mem_of_mem_erase he

theorem mem_pq_pop_of_ne {q : List (PrimPQElem W)} {t e : PrimPQElem W}
    (h : pq_top q = some t) (he : e ∈ q) (hne : e ≠ t) : e ∈ pq_pop q := by
  rw [pq_pop_of_top h]
  exact (List.mem_erase_of_ne hne).2 he

/-- The node of a stale top entry is already visited. -/
theorem visited_of_stale_top {g : AMGraph} {len : NodeID → NodeID → W} {start n0 : NodeID}
    {s : BreadthFirstSearch W} (inv : EngineInv g len start n0 [] s) {e : PrimPQElem W}
    (htop : pq_top s.pq = some e) (hstale : is_fresh e.priority (s.dist e.node) = false) :
    e.node ∈ s.visited := by
  obtain ⟨he, hmax⟩ := pq_top_spec htop
  obtain ⟨x, hx, hle⟩ := inv.entry_ge e he
  rcases inv.pending e.node x hx with h | ⟨e', he', hnode, hprio⟩
  · exact h
  · exfalso
    have h1 := hmax e' he'
    rw [hprio] at h1
    have h2 : x = -e.priority := le_antisymm hle (by
      have := neg_le_neg h1
      rwa [neg_neg] at this)
    have : is_fresh e.priority (s.dist e.node) = true := by
      rw [is_fresh_iff, hx, h2]
    rw [this] at hstale
    cases hstale

/-- Popping a stale entry keeps the invariant. -/
theorem engineInv_stale_pop {g : AMGraph} {len : NodeID → NodeID → W} {start n0 : NodeID}
    {s : BreadthFirstSearch W} (inv : EngineInv g len start n0 [] s) {e : PrimPQElem W}
    (htop : pq_top s.pq = some e) (hstale : is_fresh e.priority (s.dist e.node) = false) :
    EngineInv g len start n0 [] (s.pop_top e) := by
  have hvis := visited_of_stale_top inv htop hstale
  have hsub : ∀ e', e' ∈ (s.pop_top e).pq → e' ∈ s.pq := fun e' h => mem_pq_pop htop h
  have hnf : e.node ∉ s.front := fun h => ((inv.front_iff e.node).1 h).2.1 hvis
  have hfront : (s.pop_top e).front = s.front := List.erase_of_not_mem hnf
  have hne : ∀ x, s.dist e.node = some x → e.priority ≠ -x := by
    intro x hx hp
    have : is_fresh e.priority (s.dist e.node) = true := by
      rw [is_fresh_iff, hx, hp, neg_neg]
    rw [this] at hstale
    cases hstale
  exact
    { seed_dist := inv.seed_dist
      dist_nonneg := inv.dist_nonneg
      vis_nodup := inv.vis_nodup
      front_nodup := by rw [hfront]; exact inv.front_nodup
      entry_ge := fun e' h => inv.entry_ge e' (hsub e' h)
      distinct := by
        have : (s.pop_top e).pq = s.pq.erase e := pq_pop_of_top htop
        rw [this]
        exact inv.distinct.sublist (List.erase_sublist _ _)
      stale_vis := fun e' h => inv.stale_vis e' (hsub e' h)
      mono := fun v hv e' h => inv.mono v hv e' (hsub e' h)
      pending := by
        intro m x hx
        rcases inv.pending m x hx with h | ⟨e', he', hnode, hprio⟩
        · exact Or.inl h
        · right
          refine ⟨e', mem_pq_pop_of_ne htop he' ?_, hnode, hprio⟩
          intro heq
          subst heq
          rw [← hnode] at hx
          exact hne x hx hprio
      phase := by
        rcases inv.phase with ⟨h1, _, _⟩ | h
        · rw [h1] at hvis
          cases hvis
        · exact Or.inr h
      parent := fun e' h => inv.parent e' (hsub e' h)
      pred_fresh := fun e' h => inv.pred_fresh e' (hsub e' h)
      relaxed := inv.relaxed
      ppath := inv.ppath
      front_iff := by
        intro m
        rw [hfront]
        exact inv.front_iff m
      vis_live := inv.vis_live
      pq_live := fun e' h => inv.pq_live e' (hsub e' h) }

/-- Where a fresh top entry comes from: it is the seed entry, popped before anything
was visited, or an entry pushed from its visited parent. -/
theorem fresh_top_origin {g : AMGraph} {len : NodeID → NodeID → W} {start n0 : NodeID}
    {s : BreadthFirstSearch W} (inv : EngineInv g len start n0 [] s) {e : PrimPQElem W}
    (htop : pq_top s.pq = some e) (hfresh : is_fresh e.priority (s.dist e.node) = true) :
    e.node ∉ s.visited ∧
    ((e.node = start ∧ s.visited = [] ∧ e.parent = InvalidNodeID) ∨
      (e.node ≠ start ∧ start ∈ s.visited ∧ e.parent ∈ s.visited ∧
        e.node ∈ g.neighbors e.parent ∧ s.pred e.node = e.parent ∧
        ∃ x, s.dist e.parent = some x ∧ -e.priority = x + len e.parent e.node)) := by
  obtain ⟨he, _⟩ := pq_top_spec htop
  have hd : s.dist e.node = some (-e.priority) := (is_fresh_iff _ _).1 hfresh
  have hnv : e.node ∉ s.visited := fun h => inv.stale_vis e he h hd
  refine ⟨hnv, ?_⟩
  by_cases hs : e.node = start
  · left
    rcases inv.phase with ⟨h1, h2, _⟩ | h
    · rw [h2, List.mem_singleton] at he
      exact ⟨hs, h1, by rw [he]⟩
    · rw [hs] at hnv
      exact absurd h hnv
  · right
    obtain ⟨h1, h2, h3⟩ := inv.parent e he hs
    rcases inv.phase with ⟨h4, _, _⟩ | h
    · rw [h4] at h1
      cases h1
    · exact ⟨hs, h, h1, h2, inv.pred_fresh e he hs hd, h3⟩

/-- Popping a fresh entry and marking its node visited: the invariant holds with
all neighbours of the node still to be relaxed. -/
theorem engineInv_visit {g : AMGraph} {len : NodeID → NodeID → W} {start n0 : NodeID}
    {s : BreadthFirstSearch W} (inv : EngineInv g len start n0 [] s) {e : PrimPQElem W}
    (htop : pq_top s.pq = some e) (hfresh : is_fresh e.priority (s.dist e.node) = true) :
    ((s.pop_top e).visit e.node).visited = e.node :: s.visited ∧
    EngineInv g len start e.node (g.neighbors e.node) ((s.pop_top e).visit e.node) ∧
    ((s.pop_top e).visit e.node).dist e.node = some (-e.priority) ∧
    ∀ v ∈ ((s.pop_top e).visit e.node).visited,
      ∃ x, ((s.pop_top e).visit e.node).dist v = some x ∧ x ≤ -e.priority := by
  obtain ⟨he, hmax⟩ := pq_top_spec htop
  have hd : s.dist e.node = some (-e.priority) := (is_fresh_iff _ _).1 hfresh
  obtain ⟨hnv, horigin⟩ := fresh_top_origin inv htop hfresh
  have hvis : ((s.pop_top e).visit e.node).visited = e.node :: s.visited :=
    List.insert_of_not_mem hnv
  have hpq : ((s.pop_top e).visit e.node).pq = s.pq.erase e := pq_pop_of_top htop
  have hnodup : s.pq.Nodup := nodup_of_distinct inv.distinct
  have hmem : ∀ e', e' ∈ ((s.pop_top e).visit e.node).pq ↔ e' ∈ s.pq ∧ e' ≠ e := by
    intro e'
    rw [hpq, hnodup.mem_erase_iff]
    exact and_comm
  have hdist : ((s.pop_top e).visit e.node).dist = s.dist := rfl
  have hpred : ((s.pop_top e).visit e.node).pred = s.pred := rfl
  have hfront : ((s.pop_top e).visit e.node).front = s.front.erase e.node := rfl
  have htople : ∀ v ∈ e.node :: s.visited, ∃ x, s.dist v = some x ∧ x ≤ -e.priority := by
    intro v hv
    rcases List.mem_cons.1 hv with h | h
    · rw [h]; exact ⟨_, hd, le_refl _⟩
    · exact inv.mono v h e he
  refine ⟨hvis, ?_, hd, by rw [hvis]; exact htople⟩
  exact
    { seed_dist := inv.seed_dist
      dist_nonneg := inv.dist_nonneg
      vis_nodup := by rw [hvis]; exact List.nodup_cons.2 ⟨hnv, inv.vis_nodup⟩
      front_nodup := by rw [hfront]; exact inv.front_nodup.erase _
      entry_ge := fun e' h => inv.entry_ge e' ((hmem e').1 h).1
      distinct := by rw [hpq]; exact inv.distinct.sublist (List.erase_sublist _ _)
      stale_vis := by
        intro e' h hv
        obtain ⟨h1, h2⟩ := (hmem e').1 h
        rw [hvis] at hv
        rcases List.mem_cons.1 hv with h3 | h3
        · intro h4
          rw [hdist, h3, hd] at h4
          have hp : e.priority = e'.priority := neg_injective (Option.some.inj h4)
          have hsymm : Symmetric fun (a b : PrimPQElem W) =>
              a.node = b.node → a.priority ≠ b.priority :=
            fun a b hab hn hq => hab hn.symm hq.symm
          exact List.Pairwise.forall hsymm inv.distinct he h1 (fun h5 => h2 h5.symm) h3.symm hp
        · exact inv.stale_vis e' h1 h3
      mono := by
        intro v hv e' h
        obtain ⟨h1, _⟩ := (hmem e').1 h
        rw [hvis] at hv
        rcases List.mem_cons.1 hv with h3 | h3
        · rw [h3]
          exact ⟨_, hd, neg_le_neg (hmax e' h1)⟩
        · exact inv.mono v h3 e' h1
      pending := by
        intro m x hx
        rw [hvis]
        rcases inv.pending m x hx with h | ⟨e', he', hnode, hprio⟩
        · exact Or.inl (List.mem_cons_of_mem _ h)
        · by_cases heq : e' = e
          · left
            rw [← hnode, heq]
            exact List.mem_cons_self _ _
          · exact Or.inr ⟨e', (hmem e').2 ⟨he', heq⟩, hnode, hprio⟩
      phase := by
        right
        rw [hvis]
        rcases horigin with ⟨h1, _, _⟩ | ⟨_, h2, _⟩
        · rw [h1]; exact List.mem_cons_self _ _
        · exact List.mem_cons_of_mem _ h2
      parent := by
        intro e' h hne
        obtain ⟨h1, h2, h3⟩ := inv.parent e' ((hmem e').1 h).1 hne
        rw [hvis]
        exact ⟨List.mem_cons_of_mem _ h1, h2, h3⟩
      pred_fresh := fun e' h => inv.pred_fresh e' ((hmem e').1 h).1
      relaxed := by
        intro v hv m hm
        rw [hvis] at hv
        rcases List.mem_cons.1 hv with h3 | h3
        · exact Or.inl ⟨h3, by rw [← h3]; exact hm⟩
        · rcases inv.relaxed v h3 m hm with ⟨_, h4⟩ | h4
          · cases h4
          · exact Or.inr h4
      ppath := by
        intro v hv
        rw [hvis] at hv ⊢
        rcases List.mem_cons.1 hv with h3 | h3
        · rcases horigin with ⟨h1, _, _⟩ | ⟨h1, _, h4, h5, h6, x, h7, h8⟩
          · rw [h3, h1]
            exact ⟨0, inv.seed_dist, PredPath.base⟩
          · obtain ⟨y, hy, hpath⟩ := inv.ppath e.parent h4
            rw [h7] at hy
            have hxy : x = y := Option.some.inj hy
            subst hxy
            rw [h3]
            refine ⟨x + len e.parent e.node, by rw [hdist, hd, h8], ?_⟩
            have hp2 : PredPath g len s.pred (e.node :: s.visited) start (s.pred e.node) x := by
              rw [h6]
              exact hpath.mono (fun u hu => List.mem_cons_of_mem _ hu) (fun _ _ => rfl)
            have := PredPath.step h1 (List.mem_cons_self _ _) (by rw [h6]; exact h5) hp2
            rw [h6] at this
            exact this
        · obtain ⟨y, hy, hpath⟩ := inv.ppath v h3
          exact ⟨y, hy, hpath.mono (fun u hu => List.mem_cons_of_mem _ hu) (fun _ _ => rfl)⟩
      front_iff := by
        intro m
        rw [hfront, hvis, inv.front_nodup.mem_erase_iff, inv.front_iff m, List.mem_cons]
        constructor
        · rintro ⟨h1, h2, h3, h4⟩
          exact ⟨h2, fun h => h.elim h1 h3, h4⟩
        · rintro ⟨h1, h2, h3⟩
          exact ⟨fun h => h2 (Or.inl h), h1, fun h => h2 (Or.inr h), h3⟩
      vis_live := by
        intro v hv
        rw [hvis] at hv
        rcases List.mem_cons.1 hv with h3 | h3
        · rw [h3]; exact inv.pq_live e he
        · exact inv.vis_live v h3
      pq_live := fun e' h => inv.pq_live e' ((hmem e').1 h).1 }

theorem lt_dist_eq_false_iff (d : W) (o : Option W) :
    lt_dist d o = false ↔ ∃ y, o = some y ∧ y ≤ d := by
  cases o with
  | none => simp [lt_dist]
  | some x => simp [lt_dist]

theorem lt_dist_eq_true_iff (d : W) (o : Option W) :
    lt_dist d o = true ↔ ∀ y, o = some y → d < y := by
  cases o with
  | none => simp [lt_dist]
  | some x => simp [lt_dist]

/-- Relaxing one edge out of the node `n` just visited keeps the invariant. -/
theorem engineInv_relax {g : AMGraph} {len : NodeID → NodeID → W} {start n m : NodeID}
    {todo : List NodeID} {s : BreadthFirstSearch W} {p : W}
    (hlen : ∀ a b, 0 ≤ len a b) (hlive : ∀ a b, b ∈ g.neighbors a → b < g.no_nodes)
    (inv : EngineInv g len start n (m :: todo) s) (hn : n ∈ s.visited)
    (hdn : s.dist n = some (-p))
    (htop : ∀ v ∈ s.visited, ∃ x, s.dist v = some x ∧ x ≤ -p) (hm : m ∈ g.neighbors n) :
    EngineInv g len start n todo (s.relax len n p m) ∧
    (s.relax len n p m).visited = s.visited ∧ (s.relax len n p m).dist n = some (-p) ∧
    (∀ v ∈ (s.relax len n p m).visited, ∃ x, (s.relax len n p m).dist v = some x ∧ x ≤ -p) ∧
    (s.relax len n p m).last = s.last ∧
    ∀ v ∈ s.visited, (s.relax len n p m).dist v = s.dist v ∧
      (s.relax len n p m).pred v = s.pred v := by
  have hd : len n m - p = -p + len n m := by rw [sub_eq_add_neg, add_comm]
  cases hlt : lt_dist (len n m - p) (s.dist m) with
  | false =>
    have hsame : s.relax len n p m = s := by
      simp [BreadthFirstSearch.relax, hlt]
    rw [hsame]
    refine ⟨?_, rfl, hdn, htop, rfl, fun _ _ => ⟨rfl, rfl⟩⟩
    obtain ⟨y, hy, hle⟩ := (lt_dist_eq_false_iff _ _).1 hlt
    exact
      { inv with
        relaxed := by
          intro v hv m' hm'
          rcases inv.relaxed v hv m' hm' with ⟨h1, h2⟩ | h
          · rcases List.mem_cons.1 h2 with h3 | h3
            · right
              rw [h1, h3]
              exact ⟨-p, y, hdn, hy, by rw [← hd]; exact hle⟩
            · exact Or.inl ⟨h1, h3⟩
          · exact Or.inr h }
  | true =>
    have hlt' := (lt_dist_eq_true_iff _ _).1 hlt
    have hstart : start ∈ s.visited := by
      rcases inv.phase with ⟨h1, _, _⟩ | h
      · rw [h1] at hn; cases hn
      · exact h
    have hdnn : 0 ≤ -p := inv.dist_nonneg n _ hdn
    have hnv : m ∉ s.visited := by
      intro hv
      obtain ⟨x, hx, hle⟩ := htop m hv
      have h1 := hlt' x hx
      have h2 : x ≤ len n m - p := by
        rw [hd]
        exact le_trans hle (le_add_of_nonneg_right (hlen n m))
      exact absurd h1 (not_lt.2 h2)
    have hms : m ≠ start := fun h => hnv (h ▸ hstart)
    have hmn : m ≠ n := fun h => hnv (h ▸ hn)
    have hrel : s.relax len n p m =
        { s with
          dist := Function.update s.dist m (some (len n m - p))
          pred := Function.update s.pred m n
          pq := pq_push s.pq ⟨-(len n m - p), m, n⟩
          front := s.front.insert m } := by
      simp [BreadthFirstSearch.relax, hlt]
    rw [hrel]
    have hdist_ne : ∀ u, u ≠ m → Function.update s.dist m (some (len n m - p)) u = s.dist u :=
      fun u hu => Function.update_noteq hu _ _
    have hdist_m : Function.update s.dist m (some (len n m - p)) m = some (len n m - p) :=
      Function.update_same _ _ _
    have hvne : ∀ v ∈ s.visited, v ≠ m := fun v hv h => hnv (h ▸ hv)
    have hold : ∀ e ∈ s.pq, e.node = m → len n m - p < -e.priority := by
      intro e he hnode
      obtain ⟨x, hx, hle⟩ := inv.entry_ge e he
      rw [hnode] at hx
      exact lt_of_lt_of_le (hlt' x hx) hle
    refine ⟨?_, rfl, ?_, ?_, rfl, fun v hv =>
      ⟨hdist_ne v (hvne v hv), Function.update_noteq (hvne v hv) _ _⟩⟩
    · exact
        { seed_dist := by
            show Function.update s.dist m (some (len n m - p)) start = some 0
            rw [hdist_ne start (Ne.symm hms)]
            exact inv.seed_dist
          dist_nonneg := by
            intro u x hx
            change Function.update s.dist m (some (len n m - p)) u = some x at hx
            by_cases hu : u = m
            · rw [hu, hdist_m] at hx
              rw [← Option.some.inj hx, hd]
              exact add_nonneg hdnn (hlen n m)
            · rw [hdist_ne u hu] at hx
              exact inv.dist_nonneg u x hx
          vis_nodup := inv.vis_nodup
          front_nodup := inv.front_nodup.insert
          entry_ge := by
            intro e he
            rcases List.mem_cons.1 he with h | h
            · rw [h]
              exact ⟨len n m - p, hdist_m, by simp⟩
            · by_cases hnode : e.node = m
              · refine ⟨len n m - p, ?_, le_of_lt (hold e h hnode)⟩
                rw [hnode]
                exact hdist_m
              · obtain ⟨x, hx, hle⟩ := inv.entry_ge e h
                exact ⟨x, (hdist_ne _ hnode).trans hx, hle⟩
          distinct := by
            refine List.pairwise_cons.2 ⟨?_, inv.distinct⟩
            intro e he hnode hprio
            have h1 := hold e he hnode.symm
            rw [← hprio] at h1
            simp at h1
          stale_vis := by
            intro e he hv
            rcases List.mem_cons.1 he with h | h
            · rw [h] at hv
              exact absurd hv hnv
            · intro hc
              exact inv.stale_vis e h hv ((hdist_ne _ (hvne _ hv)).symm.trans hc)
          mono := by
            intro v hv e he
            rcases List.mem_cons.1 he with h | h
            · obtain ⟨x, hx, hle⟩ := htop v hv
              refine ⟨x, (hdist_ne _ (hvne v hv)).trans hx, ?_⟩
              rw [h]
              simp only [neg_neg]
              rw [hd]
              exact le_trans hle (le_add_of_nonneg_right (hlen n m))
            · obtain ⟨x, hx, hle⟩ := inv.mono v hv e h
              exact ⟨x, (hdist_ne _ (hvne v hv)).trans hx, hle⟩
          pending := by
            intro u x hx
            by_cases hu : u = m
            · right
              rw [hu] at hx
              have hx2 : some (len n m - p) = some x := hdist_m.symm.trans hx
              have hx3 : len n m - p = x := Option.some.inj hx2
              exact ⟨⟨-(len n m - p), m, n⟩, List.mem_cons_self _ _, hu.symm, by rw [hx3]⟩
            · rcases inv.pending u x ((hdist_ne u hu).symm.trans hx) with h | ⟨e, he, h1, h2⟩
              · exact Or.inl h
              · exact Or.inr ⟨e, List.mem_cons_of_mem _ he, h1, h2⟩
          phase := Or.inr hstart
          parent := by
            intro e he hne
            rcases List.mem_cons.1 he with h | h
            · rw [h]
              refine ⟨hn, hm, -p, (hdist_ne n (Ne.symm hmn)).trans hdn, ?_⟩
              simp only [neg_neg]
              exact hd
            · obtain ⟨h1, h2, x, h3, h4⟩ := inv.parent e h hne
              exact ⟨h1, h2, x, (hdist_ne _ (hvne _ h1)).trans h3, h4⟩
          pred_fresh := by
            intro e he hne hf
            rcases List.mem_cons.1 he with h | h
            · rw [h]
              exact Function.update_same _ _ _
            · by_cases hnode : e.node = m
              · exfalso
                rw [hnode] at hf
                have h1 : some (len n m - p) = some (-e.priority) := hdist_m.symm.trans hf
                have h2 := hold e h hnode
                rw [Option.some.inj h1] at h2
                exact lt_irrefl _ h2
              · have h1 : s.pred e.node = e.parent :=
                  inv.pred_fresh e h hne ((hdist_ne _ hnode).symm.trans hf)
                exact (Function.update_noteq hnode _ _).trans h1
          relaxed := by
            intro v hv m' hm'
            have hvd : ∀ x, s.dist v = some x →
                Function.update s.dist m (some (len n m - p)) v = some x :=
              fun x hx => (hdist_ne v (hvne v hv)).trans hx
            rcases inv.relaxed v hv m' hm' with ⟨h1, h2⟩ | ⟨x, y, hx, hy, hle⟩
            · rcases List.mem_cons.1 h2 with h3 | h3
              · right
                refine ⟨-p, len n m - p, hvd _ (h1 ▸ hdn), ?_, ?_⟩
                · rw [h3]; exact hdist_m
                · rw [h1, h3, hd]
              · exact Or.inl ⟨h1, h3⟩
            · right
              by_cases hm2 : m' = m
              · subst hm2
                exact ⟨x, len n m' - p, hvd x hx, hdist_m,
                  le_trans (le_of_lt (hlt' y hy)) hle⟩
              · exact ⟨x, y, hvd x hx, (hdist_ne m' hm2).trans hy, hle⟩
          ppath := by
            intro v hv
            obtain ⟨x, hx, hpath⟩ := inv.ppath v hv
            exact ⟨x, (hdist_ne v (hvne v hv)).trans hx,
              hpath.mono (fun _ h => h) (fun u hu => Function.update_noteq (hvne u hu) _ _)⟩
          front_iff := by
            intro u
            show u ∈ s.front.insert m ↔
              Function.update s.dist m (some (len n m - p)) u ≠ none ∧ u ∉ s.visited ∧ u ≠ start
            rw [List.mem_insert_iff]
            by_cases hu : u = m
            · rw [hu, hdist_m]
              simp [hnv, hms]
            · rw [hdist_ne u hu, inv.front_iff u]
              simp [hu]
          vis_live := inv.vis_live
          pq_live := by
            intro e he
            rcases List.mem_cons.1 he with h | h
            · rw [h]; exact hlive n m hm
            · exact inv.pq_live e h }
    · show Function.update s.dist m (some (len n m - p)) n = some (-p)
      rw [hdist_ne n (Ne.symm hmn)]
      exact hdn
    · intro v hv
      change ∃ x, Function.update s.dist m (some (len n m - p)) v = some x ∧ x ≤ -p
      rw [hdist_ne v (hvne v hv)]
      exact htop v hv

/-- The relaxation loop over the neighbours of the node `n` just visited keeps the
invariant and changes neither the visited set nor the tables at visited nodes. -/
theorem engineInv_relax_foldl {g : AMGraph} {len : NodeID → NodeID → W} {start n : NodeID}
    {p : W} (hlen : ∀ a b, 0 ≤ len a b) (hlive : ∀ a b, b ∈ g.neighbors a → b < g.no_nodes)
    (todo : List NodeID) (htodo : ∀ m ∈ todo, m ∈ g.neighbors n) (s : BreadthFirstSearch W)
    (inv : EngineInv g len start n todo s) (hn : n ∈ s.visited) (hdn : s.dist n = some (-p))
    (htop : ∀ v ∈ s.visited, ∃ x, s.dist v = some x ∧ x ≤ -p) :
    EngineInv g len start n [] (todo.foldl (BreadthFirstSearch.relax len n p) s) ∧
    (todo.foldl (BreadthFirstSearch.relax len n p) s).visited = s.visited ∧
    (todo.foldl (BreadthFirstSearch.relax len n p) s).last = s.last ∧
    ∀ v ∈ s.visited, (todo.foldl (BreadthFirstSearch.relax len n p) s).dist v = s.dist v ∧
      (todo.foldl (BreadthFirstSearch.relax len n p) s).pred v = s.pred v := by
  induction todo generalizing s with
  | nil => exact ⟨inv, rfl, rfl, fun _ _ => ⟨rfl, rfl⟩⟩
  | cons m todo ih =>
    obtain ⟨h1, h2, h3, h4, h5, h6⟩ := engineInv_relax hlen hlive inv hn hdn htop
      (htodo m (List.mem_cons_self _ _))
    obtain ⟨i1, i2, i3, i4⟩ := ih (fun m' hm' => htodo m' (List.mem_cons_of_mem _ hm'))
      (s.relax len n p m) h1 (h2 ▸ hn) h3 h4
    rw [List.foldl_cons]
    refine ⟨i1, i2.trans h2, i3.trans h5, ?_⟩
    intro v hv
    obtain ⟨j1, j2⟩ := i4 v (h2 ▸ hv)
    obtain ⟨k1, k2⟩ := h6 v hv
    exact ⟨j1.trans k1, j2.trans k2⟩

theorem EngineInv.change_node {g : AMGraph} {len : NodeID → NodeID → W} {start n : NodeID}
    {s : BreadthFirstSearch W} (inv : EngineInv g len start n [] s) (n' : NodeID) :
    EngineInv g len start n' [] s :=
  { inv with
    relaxed := by
      intro v hv m hm
      rcases inv.relaxed v hv m hm with ⟨_, h⟩ | h
      · cases h
      · exact Or.inr h }

theorem step_loop_none (g : AMGraph) (len : NodeID → NodeID → W) (fuel : Nat)
    {s : BreadthFirstSearch W} (htop : pq_top s.pq = none) :
    BreadthFirstSearch.step_loop g len (fuel + 1) s = (false, s) := by
  simp only [BreadthFirstSearch.step_loop, htop]

theorem step_loop_fresh (g : AMGraph) (len : NodeID → NodeID → W) (fuel : Nat)
    {s : BreadthFirstSearch W} {e : PrimPQElem W} (htop : pq_top s.pq = some e)
    (hf : is_fresh e.priority (s.dist e.node) = true) :
    BreadthFirstSearch.step_loop g len (fuel + 1) s =
      (true, (g.neighbors e.node).foldl (BreadthFirstSearch.relax len e.node e.priority)
        ((s.pop_top e).visit e.node)) := by
  have : is_fresh e.priority ((s.pop_top e).dist e.node) = true := hf
  simp only [BreadthFirstSearch.step_loop, htop, this, if_true]

theorem step_loop_stale (g : AMGraph) (len : NodeID → NodeID → W) (fuel : Nat)
    {s : BreadthFirstSearch W} {e : PrimPQElem W} (htop : pq_top s.pq = some e)
    (hf : is_fresh e.priority (s.dist e.node) = false) :
    BreadthFirstSearch.step_loop g len (fuel + 1) s =
      BreadthFirstSearch.step_loop g len fuel (s.pop_top e) := by
  have : is_fresh e.priority ((s.pop_top e).dist e.node) = false := hf
  simp only [BreadthFirstSearch.step_loop, htop, this, Bool.false_eq_true, if_false]

theorem length_pop_top_le {s : BreadthFirstSearch W} {e : PrimPQElem W} {fuel : Nat}
    (htop : pq_top s.pq = some e) (hfuel : s.pq.length ≤ fuel + 1) :
    (s.pop_top e).pq.length ≤ fuel := by
  have := length_pq_pop htop
  have h2 : (s.pop_top e).pq = pq_pop s.pq := rfl
  rw [h2]
  omega

/-- What `step()` does without any assumption on the state: it returns true exactly
when the queue holds an entry whose priority is the negated distance of its node;
when it returns false the queue has been emptied and the visited set and the
distance and parent tables are unchanged. -/
theorem step_loop_general (g : AMGraph) (len : NodeID → NodeID → W) (fuel : Nat)
    (s : BreadthFirstSearch W) (hfuel : s.pq.length ≤ fuel) :
    ((BreadthFirstSearch.step_loop g len fuel s).1 = true ↔
      ∃ e ∈ s.pq, is_fresh e.priority (s.dist e.node) = true) ∧
    ((BreadthFirstSearch.step_loop g len fuel s).1 = false →
      (BreadthFirstSearch.step_loop g len fuel s).2.pq = [] ∧
      (BreadthFirstSearch.step_loop g len fuel s).2.visited = s.visited ∧
      (BreadthFirstSearch.step_loop g len fuel s).2.dist = s.dist ∧
      (BreadthFirstSearch.step_loop g len fuel s).2.pred = s.pred) := by
  induction fuel generalizing s with
  | zero =>
    have hnil : s.pq = [] := List.length_eq_zero.1 (Nat.le_zero.1 hfuel)
    simp [BreadthFirstSearch.step_loop, hnil]
  | succ fuel ih =>
    cases htop : pq_top s.pq with
    | none =>
      have hnil : s.pq = [] := (pq_top_eq_none_iff _).1 htop
      rw [step_loop_none g len fuel htop]
      simp [hnil]
    | some e =>
      obtain ⟨he, _⟩ := pq_top_spec htop
      cases hf : is_fresh e.priority (s.dist e.node) with
      | true =>
        rw [step_loop_fresh g len fuel htop hf]
        exact ⟨⟨fun _ => ⟨e, he, hf⟩, fun _ => rfl⟩, fun h => by cases h⟩
      | false =>
        obtain ⟨h1, h2⟩ := ih (s.pop_top e) (length_pop_top_le htop hfuel)
        rw [step_loop_stale g len fuel htop hf]
        refine ⟨?_, h2⟩
        rw [h1]
        constructor
        · rintro ⟨e', he', hf'⟩
          exact ⟨e', mem_pq_pop htop he', hf'⟩
        · rintro ⟨e', he', hf'⟩
          refine ⟨e', mem_pq_pop_of_ne htop he' ?_, hf'⟩
          intro heq
          rw [heq, hf] at hf'
          cases hf'

/-- A call of `step()` keeps the invariant of the run; when it returns true it has
visited exactly one new node, as described by `VisitStep`. -/
theorem step_loop_inv {g : AMGraph} {len : NodeID → NodeID → W} {start : NodeID}
    (hlen : ∀ a b, 0 ≤ len a b) (hlive : ∀ a b, b ∈ g.neighbors a → b < g.no_nodes)
    (fuel : Nat) (s : BreadthFirstSearch W) (inv : RunInv g len start s)
    (hfuel : s.pq.length ≤ fuel) :
    RunInv g len start (BreadthFirstSearch.step_loop g len fuel s).2 ∧
    ((BreadthFirstSearch.step_loop g len fuel s).1 = true →
      VisitStep g len start s (BreadthFirstSearch.step_loop g len fuel s).2) := by
  induction fuel generalizing s with
  | zero => exact ⟨inv, fun h => by simp [BreadthFirstSearch.step_loop] at h⟩
  | succ fuel ih =>
    cases htop : pq_top s.pq with
    | none =>
      rw [step_loop_none g len fuel htop]
      exact ⟨inv, fun h => by cases h⟩
    | some e =>
      obtain ⟨he, _⟩ := pq_top_spec htop
      cases hf : is_fresh e.priority (s.dist e.node) with
      | true =>
        rw [step_loop_fresh g len fuel htop hf]
        obtain ⟨hvis, inv2, hd, htople⟩ := engineInv_visit inv htop hf
        obtain ⟨hnv, horigin⟩ := fresh_top_origin inv htop hf
        have hn : e.node ∈ ((s.pop_top e).visit e.node).visited := by
          rw [hvis]; exact List.mem_cons_self _ _
        obtain ⟨i1, i2, i3, i4⟩ := engineInv_relax_foldl hlen hlive (g.neighbors e.node)
          (fun _ h => h) _ inv2 hn hd htople
        refine ⟨i1.change_node start, fun _ => ⟨e, he, i3, hd, hnv, i2.trans hvis, ?_, horigin⟩⟩
        intro v hv
        exact i4 v (hvis ▸ hv)
      | false =>
        rw [step_loop_stale g len fuel htop hf]
        obtain ⟨h1, h2⟩ := ih (s.pop_top e) (engineInv_stale_pop inv htop hf)
          (length_pop_top_le htop hfuel)
        refine ⟨h1, fun h => ?_⟩
        obtain ⟨e', he', j1, j2, j3, j4, j5, j6⟩ := h2 h
        exact ⟨e', mem_pq_pop htop he', j1, j2, j3, j4, j5, j6⟩

/-- The invariant of the run after any number of calls of `step()`. -/
theorem runInv_steps {g : AMGraph} {len : NodeID → NodeID → W} {start : NodeID}
    (hlen : ∀ a b, 0 ≤ len a b) (hlive : ∀ a b, b ∈ g.neighbors a → b < g.no_nodes)
    (k : Nat) (s : BreadthFirstSearch W) (inv : RunInv g len start s) :
    RunInv g len start (BreadthFirstSearch.steps g len k s) := by
  induction k generalizing s with
  | zero => exact inv
  | succ k ih =>
    exact ih _ (step_loop_inv hlen hlive _ s inv (Nat.le_refl _)).1

/-- More fuel than the queue has entries does not change the result of `step()`. -/
theorem step_loop_fuel (g : AMGraph) (len : NodeID → NodeID → W) (fuel : Nat)
    (s : BreadthFirstSearch W) (hfuel : s.pq.length ≤ fuel) :
    BreadthFirstSearch.step_loop g len fuel s = s.step g len := by
  unfold BreadthFirstSearch.step
  induction fuel generalizing s with
  | zero =>
    have : s.pq.length = 0 := Nat.le_zero.1 hfuel
    rw [this]
  | succ fuel ih =>
    cases htop : pq_top s.pq with
    | none =>
      have hnil : s.pq = [] := (pq_top_eq_none_iff _).1 htop
      rw [step_loop_none g len fuel htop, hnil]
      rfl
    | some e =>
      have hpos : s.pq.length = (s.pop_top e).pq.length + 1 := by
        have := length_pq_pop htop
        have h2 : (s.pop_top e).pq = pq_pop s.pq := rfl
        rw [h2]
        omega
      cases hf : is_fresh e.priority (s.dist e.node) with
      | true =>
        rw [step_loop_fresh g len fuel htop hf, hpos, step_loop_fresh g len _ htop hf]
      | false =>
        rw [step_loop_stale g len fuel htop hf, hpos, step_loop_stale g len _ htop hf]
        exact ih (s.pop_top e) (length_pop_top_le htop hfuel)

theorem visited_length_le {g : AMGraph} {len : NodeID → NodeID → W} {start : NodeID}
    {s : BreadthFirstSearch W} (inv : RunInv g len start s) :
    s.visited.length ≤ g.no_nodes := by
  have hsub : List.Subperm s.visited (List.range g.no_nodes) :=
    inv.vis_nodup.subperm (fun v hv => List.mem_range.2 (inv.vis_live v hv))
  have h := hsub.length_le
  rwa [List.length_range] at h

/-- The invariant of the run `init(start); step(); ...; step()` from an engine with
an empty queue. -/
theorem runInv_run {g : AMGraph} {len : NodeID → NodeID → W} {start : NodeID}
    (hlen : ∀ a b, 0 ≤ len a b) (hlive : ∀ a b, b ∈ g.neighbors a → b < g.no_nodes)
    (hstart : start < g.no_nodes) (s0 : BreadthFirstSearch W) (hs0 : s0.pq = []) (k : Nat) :
    RunInv g len start (BreadthFirstSearch.steps g len k (s0.init start)) :=
  runInv_steps hlen hlive k _ (runInv_init g len start hstart s0 hs0)

/-- One call of `step()` in a run: the effect on the visited set. -/
theorem step_visited {g : AMGraph} {len : NodeID → NodeID → W} {start : NodeID}
    (hlen : ∀ a b, 0 ≤ len a b) (hlive : ∀ a b, b ∈ g.neighbors a → b < g.no_nodes)
    (s : BreadthFirstSearch W) (inv : RunInv g len start s) :
    RunInv g len start (s.step g len).2 ∧
    ((s.step g len).1 = true → VisitStep g len start s (s.step g len).2) ∧
    ((s.step g len).1 = false → (s.step g len).2.pq = [] ∧
      (s.step g len).2.visited = s.visited ∧ (s.step g len).2.dist = s.dist ∧
      (s.step g len).2.pred = s.pred) ∧
    start ∈ (s.step g len).2.visited ∧
    (s.step g len).2.visited.length =
      s.visited.length + (if (s.step g len).1 then 1 else 0) := by
  obtain ⟨h1, h2⟩ := step_loop_inv hlen hlive s.pq.length s inv (Nat.le_refl _)
  obtain ⟨h3, h4⟩ := step_loop_general g len s.pq.length s (Nat.le_refl _)
  have h1' : RunInv g len start (s.step g len).2 := h1
  have h2' : (s.step g len).1 = true → VisitStep g len start s (s.step g len).2 := h2
  have h3' : (s.step g len).1 = true ↔ ∃ e ∈ s.pq, is_fresh e.priority (s.dist e.node) = true :=
    h3
  have h4' : (s.step g len).1 = false → (s.step g len).2.pq = [] ∧
      (s.step g len).2.visited = s.visited ∧ (s.step g len).2.dist = s.dist ∧
      (s.step g len).2.pred = s.pred := h4
  refine ⟨h1', h2', h4', ?_, ?_⟩
  · cases hb : (s.step g len).1 with
    | true =>
      obtain ⟨e, he, _, _, _, hv, _, horigin⟩ := h2' hb
      rw [hv]
      rcases horigin with ⟨h5, _, _⟩ | ⟨_, h5, _⟩
      · rw [h5]; exact List.mem_cons_self _ _
      · exact List.mem_cons_of_mem _ h5
    | false =>
      rw [(h4' hb).2.1]
      rcases inv.phase with ⟨_, h5, _⟩ | h5
      · exfalso
        have : (s.step g len).1 = true := by
          rw [h3', h5]
          refine ⟨_, List.mem_singleton_self _, ?_⟩
          rw [is_fresh_iff, inv.seed_dist]
          simp
        rw [hb] at this
        cases this
      · exact h5
  · cases hb : (s.step g len).1 with
    | true =>
      obtain ⟨e, _, _, _, _, hv, _, _⟩ := h2' hb
      rw [hv]
      simp
    | false =>
      rw [(h4' hb).2.1]
      simp

theorem steps_succ_right (g : AMGraph) (len : NodeID → NodeID → W) (k : Nat)
    (s : BreadthFirstSearch W) :
    BreadthFirstSearch.steps g len (k + 1) s =
      ((BreadthFirstSearch.steps g len k s).step g len).2 := by
  induction k generalizing s with
  | zero => rfl
  | succ k ih =>
    rw [BreadthFirstSearch.steps, ih]
    rfl

/-- After at least one call of `step()` the start node is visited. -/
theorem start_mem_visited {g : AMGraph} {len : NodeID → NodeID → W} {start : NodeID}
    (hlen : ∀ a b, 0 ≤ len a b) (hlive : ∀ a b, b ∈ g.neighbors a → b < g.no_nodes)
    (s : BreadthFirstSearch W) (inv : RunInv g len start s) (k : Nat) (hk : 0 < k) :
    start ∈ (BreadthFirstSearch.steps g len k s).visited := by
  cases k with
  | zero => exact absurd hk (Nat.lt_irrefl 0)
  | succ k =>
    rw [steps_succ_right]
    exact (step_visited hlen hlive _ (runInv_steps hlen hlive k s inv)).2.2.2.1

/-- The visited set grows by one node for each call of `step()` that returns true. -/
theorem visited_length_steps {g : AMGraph} {len : NodeID → NodeID → W} {start : NodeID}
    (hlen : ∀ a b, 0 ≤ len a b) (hlive : ∀ a b, b ∈ g.neighbors a → b < g.no_nodes)
    (k : Nat) (s : BreadthFirstSearch W) (inv : RunInv g len start s) :
    (BreadthFirstSearch.steps g len k s).visited.length =
      s.visited.length + true_steps g len k s := by
  induction k generalizing s with
  | zero => rfl
  | succ k ih =>
    obtain ⟨h1, _, _, _, h5⟩ := step_visited hlen hlive s inv
    rw [BreadthFirstSearch.steps, true_steps, ih _ h1, h5]
    omega

/-- The driving loop of `minimum_spanning_tree` ends within the calls it is given. -/
theorem mst_loop_isSome {g : AMGraph} {len : NodeID → NodeID → W} {start : NodeID}
    (hlen : ∀ a b, 0 ≤ len a b) (hlive : ∀ a b, b ∈ g.neighbors a → b < g.no_nodes)
    (fuel : Nat) (bfs : BreadthFirstSearch W) (gn : AMGraph) (inv : RunInv g len start bfs)
    (h : g.no_nodes < fuel + bfs.visited.length) : (mst_loop g len fuel bfs gn).isSome = true := by
  induction fuel generalizing bfs gn with
  | zero =>
    have := visited_length_le inv
    omega
  | succ fuel ih =>
    obtain ⟨h1, _, _, _, h5⟩ := step_visited hlen hlive bfs inv
    cases hb : (bfs.step g len).1 with
    | false => simp [mst_loop, hb]
    | true =>
      simp only [mst_loop, hb, if_true]
      apply ih _ _ h1
      rw [h5, hb]
      simp only [if_true]
      omega

end TraversalLemmas

theorem AMGraph.neighbors_live_of_check {g : AMGraph} (h : g.liveCheck = true) :
    ∀ a b, b ∈ g.neighbors a → b < g.no_nodes := by
  intro a b hb
  have hne : g.entry a b ≠ none := by
    rw [AMGraph.entry, Ne, AdjMap.find_eq_none_iff]
    exact fun h2 => h2 hb
  cases he : g.entry a b with
  | none => exact absurd he hne
  | some e =>
    simp only [AMGraph.liveCheck, List.all_eq_true, List.mem_range, decide_eq_true_eq] at h
    exact h a (AMGraph.live_of_entry he) (b, e) (AMGraph.mem_of_find he)

theorem unitLen_nonneg (a b : NodeID) : 0 ≤ unitLen a b := by
  unfold unitLen
  split <;> decide


/-! ## Lemmas on `minimum_spanning_tree` -/

theorem length_filter_range_add (c c' : Nat → Bool) (lo : Nat) (h0 : c lo = false)
    (h1 : c' lo = true) (K : Nat) (hne : ∀ b, b < K → b ≠ lo → c' b = c b) :
    ((List.range K).filter c').length =
      ((List.range K).filter c).length + (if lo < K then 1 else 0) := by
  induction K with
  | zero => simp
  | succ K ih =>
    rw [List.range_succ, List.filter_append, List.filter_append, List.length_append,
      List.length_append, ih (fun b hb => hne b (Nat.lt_succ_of_lt hb))]
    by_cases hK : K = lo
    · subst hK
      simp [List.filter_cons, h0, h1]
    · have h2 := hne K (Nat.lt_succ_self K) hK
      have h3 : (lo < K + 1) = (lo < K) := by
        apply propext
        constructor
        · intro h; omega
        · intro h; omega
      simp only [h3]
      cases hc : c K
      · simp [List.filter_cons, h2, hc]
      · simp [List.filter_cons, h2, hc]
        omega

theorem sum_map_range_add (c c' : Nat → Nat) (hi : Nat) (h1 : c' hi = c hi + 1)
    (hne : ∀ a, a ≠ hi → c' a = c a) (M : Nat) :
    ((List.range M).map c').sum = ((List.range M).map c).sum + (if hi < M then 1 else 0) := by
  induction M with
  | zero => simp
  | succ M ih =>
    rw [List.range_succ, List.map_append, List.map_append, List.sum_append, List.sum_append, ih]
    by_cases hM : M = hi
    · subst hM
      simp [h1]
      omega
    · have h2 := hne M hM
      have h3 : (hi < M + 1) = (hi < M) := by
        apply propext
        constructor
        · intro h; omega
        · intro h; omega
      simp only [h3, List.map_cons, List.map_nil, List.sum_cons, List.sum_nil, h2]
      omega

/-- Adding one edge between the nodes `lo < hi` raises the edge count by one. -/
theorem edge_count_add_edge (g g' : AMGraph) (hi lo : NodeID) (hlt : lo < hi)
    (hhi : hi < g.no_nodes) (hN : g'.no_nodes = g.no_nodes) (h0 : g.entry hi lo = none)
    (h1 : g'.entry hi lo ≠ none)
    (hsame : ∀ a b, b < a → ¬ (a = hi ∧ b = lo) →
      (g'.entry a b).isSome = (g.entry a b).isSome) :
    edge_count g' = edge_count g + 1 := by
  unfold edge_count
  rw [hN, sum_map_range_add
    (fun a => ((List.range a).filter fun b => (g.entry a b).isSome).length)
    (fun a => ((List.range a).filter fun b => (g'.entry a b).isSome).length) hi ?_ ?_
    g.no_nodes]
  · simp [hhi]
  · simp only
    rw [length_filter_range_add (fun b => (g.entry hi b).isSome)
      (fun b => (g'.entry hi b).isSome) lo (by simp [h0]) ?_ hi ?_]
    · simp [hlt]
    · cases h : g'.entry hi lo with
      | none => exact absurd h h1
      | some e => simp [h]
    · intro b hb hne
      exact hsame hi b hb (fun h => hne h.2)
  · intro a ha
    simp only
    congr 1
    apply List.filter_congr
    intro b hb
    exact hsame a b (List.mem_range.1 hb) (fun h => ha h.1)

/-- The edges after `connect_nodes(n, p)` for two different live nodes of a graph
with symmetric neighbour maps. -/
theorem AMGraph.adj_connect_nodes {g : AMGraph} (hsym : g.Symmetric) {n p : NodeID}
    (hnp : n ≠ p) (hn : n < g.no_nodes) (hp : p < g.no_nodes) (x y : NodeID) :
    (g.connect_nodes n p).2.Adj x y ↔ g.Adj x y ∨ (x = n ∧ y = p) ∨ (x = p ∧ y = n) := by
  unfold AMGraph.Adj
  rw [AMGraph.entry_connect_nodes hsym]
  constructor
  · rintro (h | ⟨_, _, _, h⟩)
    · exact Or.inl h
    · exact Or.inr h
  · rintro (h | h)
    · exact Or.inl h
    · exact Or.inr ⟨hnp, hn, hp, h⟩

/-- Joining a node without edges to another node creates no cycle. -/
theorem AMGraph.acyclic_attach_leaf {g g' : AMGraph} {n p : NodeID} (hac : g.Acyclic)
    (hnp : n ≠ p) (hleaf : ∀ b, ¬ g.Adj n b ∧ ¬ g.Adj b n)
    (hadj : ∀ x y, g'.Adj x y ↔ g.Adj x y ∨ (x = n ∧ y = p) ∨ (x = p ∧ y = n)) :
    g'.Acyclic := by
  rintro k f ⟨hk, hinj, hcyc⟩
  by_cases hmem : ∃ i, i < k ∧ f i = n
  · obtain ⟨i, hi, hfi⟩ := hmem
    -- the node after `n` on the cycle is `p`
    have hnext_lt : AMGraph.cyc_next k i < k := by
      unfold AMGraph.cyc_next; split_ifs <;> omega
    have h1 : f (AMGraph.cyc_next k i) = p := by
      have := (hadj _ _).1 (hcyc i hi)
      rw [hfi] at this
      rcases this with h | ⟨_, h⟩ | ⟨h, _⟩
      · exact absurd h (hleaf _).1
      · exact h
      · exact absurd h hnp
    -- the node before `n` on the cycle is `p` as well
    have hprev_lt : (if i = 0 then k - 1 else i - 1) < k := by split_ifs <;> omega
    have hprev_next : AMGraph.cyc_next k (if i = 0 then k - 1 else i - 1) = i := by
      unfold AMGraph.cyc_next; split_ifs <;> omega
    have h2 : f (if i = 0 then k - 1 else i - 1) = p := by
      have := (hadj _ _).1 (hcyc _ hprev_lt)
      rw [hprev_next, hfi] at this
      rcases this with h | ⟨_, h⟩ | ⟨h, _⟩
      · exact absurd h (hleaf _).2
      · exact absurd h hnp
      · exact h
    have h3 := hinj _ _ hnext_lt hprev_lt (h1.trans h2.symm)
    unfold AMGraph.cyc_next at h3
    split_ifs at h3 <;> omega
  · apply hac k f
    refine ⟨hk, hinj, ?_⟩
    intro i hi
    have hnext_lt : AMGraph.cyc_next k i < k := by
      unfold AMGraph.cyc_next; split_ifs <;> omega
    rcases (hadj _ _).1 (hcyc i hi) with h | ⟨h, _⟩ | ⟨_, h⟩
    · exact h
    · exact absurd ⟨i, hi, h⟩ hmem
    · exact absurd ⟨_, hnext_lt, h⟩ hmem

/-- The first pass of the loop of `minimum_spanning_tree`, in which `start` is
visited, when it leaves the new graph as it is. -/
theorem mstInv_seed {g : AMGraph} {start : NodeID} {gn : AMGraph}
    (minv : MstInv g start [] gn) : MstInv g start [start] gn := by
  exact
    { nodes := minv.nodes
      symm := minv.symm
      inside := by
        intro a b h
        have := (minv.inside a b h).1
        cases this
      reach := by
        intro v hv
        rw [List.mem_singleton] at hv
        rw [hv]
        exact Relation.ReflTransGen.refl
      acyclic := minv.acyclic
      count := by
        have := minv.count
        simpa using this
      incident := by
        intro v hv hne
        rw [List.mem_singleton] at hv
        exact absurd hv hne
      root_incident := by
        intro h
        simp at h }

/-- A later pass of the loop of `minimum_spanning_tree`: the node `n` just visited is
joined to its visited parent `p`. -/
theorem mstInv_edge {g : AMGraph} {start : NodeID} {vis : List NodeID} {gn : AMGraph}
    (minv : MstInv g start vis gn) {n p : NodeID} (hstart : start ∈ vis) (hn : n ∉ vis)
    (hp : p ∈ vis) (hadj : g.Adj p n) (hnl : n < g.no_nodes) (hpl : p < g.no_nodes) :
    MstInv g start (n :: vis) (gn.connect_nodes n p).2 := by
  have hnp : n ≠ p := fun h => hn (h ▸ hp)
  have hnl' : n < gn.no_nodes := by rw [minv.nodes]; exact hnl
  have hpl' : p < gn.no_nodes := by rw [minv.nodes]; exact hpl
  have hnew := AMGraph.adj_connect_nodes minv.symm hnp hnl' hpl'
  have hleaf : ∀ b, ¬ gn.Adj n b ∧ ¬ gn.Adj b n :=
    fun b => ⟨fun h => hn (minv.inside n b h).1, fun h => hn (minv.inside b n h).2.1⟩
  have hlift : ∀ x y, gn.Adj x y → (gn.connect_nodes n p).2.Adj x y :=
    fun x y h => (hnew x y).2 (Or.inl h)
  have hreach : ∀ v, gn.Reach start v → (gn.connect_nodes n p).2.Reach start v :=
    fun v h => Relation.ReflTransGen.mono hlift h
  exact
    { nodes := (AMGraph.connect_nodes_no_nodes gn n p).trans minv.nodes
      symm := AMGraph.symmetric_connect_nodes minv.symm n p
      inside := by
        intro a b h
        rcases (hnew a b).1 h with h1 | ⟨h1, h2⟩ | ⟨h1, h2⟩
        · obtain ⟨i1, i2, i3⟩ := minv.inside a b h1
          exact ⟨List.mem_cons_of_mem _ i1, List.mem_cons_of_mem _ i2, i3⟩
        · rw [h1, h2]
          exact ⟨List.mem_cons_self _ _, List.mem_cons_of_mem _ hp, Or.inr hadj⟩
        · rw [h1, h2]
          exact ⟨List.mem_cons_of_mem _ hp, List.mem_cons_self _ _, Or.inl hadj⟩
      reach := by
        intro v hv
        rcases List.mem_cons.1 hv with h | h
        · rw [h]
          exact Relation.ReflTransGen.tail (hreach p (minv.reach p hp))
            ((hnew p n).2 (Or.inr (Or.inr ⟨rfl, rfl⟩)))
        · exact hreach v (minv.reach v h)
      acyclic := AMGraph.acyclic_attach_leaf minv.acyclic hnp hleaf hnew
      count := by
        have hpos : 0 < vis.length := List.length_pos_of_mem hp
        have hsome : ∀ a b, ¬ ((a = n ∧ b = p) ∨ (a = p ∧ b = n)) →
            ((gn.connect_nodes n p).2.entry a b).isSome = (gn.entry a b).isSome := by
          intro a b hab
          have h1 := hnew a b
          unfold AMGraph.Adj at h1
          cases h2 : (gn.connect_nodes n p).2.entry a b <;> cases h3 : gn.entry a b <;>
            simp [h2, h3, hab] at h1 ⊢
        have hcount : edge_count (gn.connect_nodes n p).2 = edge_count gn + 1 := by
          rcases Nat.lt_or_gt_of_ne hnp with hlt | hlt
          · refine edge_count_add_edge gn _ p n hlt hpl' (AMGraph.connect_nodes_no_nodes gn n p)
              (not_not.1 (hleaf p).2) ((hnew p n).2 (Or.inr (Or.inr ⟨rfl, rfl⟩))) ?_
            intro a b hba hab
            refine hsome a b ?_
            rintro (⟨h5, h6⟩ | h5)
            · rw [h5, h6] at hba
              exact Nat.lt_asymm hlt hba
            · exact hab h5
          · refine edge_count_add_edge gn _ n p hlt hnl' (AMGraph.connect_nodes_no_nodes gn n p)
              (not_not.1 (hleaf p).1) ((hnew n p).2 (Or.inr (Or.inl ⟨rfl, rfl⟩))) ?_
            intro a b hba hab
            refine hsome a b ?_
            rintro (h5 | ⟨h5, h6⟩)
            · exact hab h5
            · rw [h5, h6] at hba
              exact Nat.lt_asymm hlt hba
        rw [hcount, minv.count, List.length_cons]
        omega
      incident := by
        intro v hv hne
        rcases List.mem_cons.1 hv with h | h
        · rw [h]
          exact ⟨p, (hnew n p).2 (Or.inr (Or.inl ⟨rfl, rfl⟩))⟩
        · obtain ⟨b, hb⟩ := minv.incident v h hne
          exact ⟨b, hlift v b hb⟩
      root_incident := by
        intro _
        by_cases hps : p = start
        · rw [← hps]
          exact ⟨n, (hnew p n).2 (Or.inr (Or.inr ⟨rfl, rfl⟩))⟩
        · obtain ⟨b, hb⟩ := minv.incident p hp hps
          obtain ⟨_, i2, _⟩ := minv.inside p b hb
          have hsb : gn.Adj b p := by
            unfold AMGraph.Adj at hb ⊢
            rw [minv.symm b p]; exact hb
          -- `start` and `p` are two different visited nodes; `p` has an edge, and so
          -- has start, which every visited node is reached from
          have hrp := minv.reach p hp
          rcases Relation.ReflTransGen.cases_head hrp with h | ⟨c, hc, _⟩
          · exact absurd h.symm hps
          · exact ⟨c, hlift start c hc⟩ }

theorem AMGraph.mem_neighbors_iff (g : AMGraph) (a b : NodeID) :
    b ∈ g.neighbors a ↔ g.Adj a b := by
  unfold AMGraph.Adj AMGraph.neighbors
  rw [AMGraph.entry, Ne, AdjMap.find_eq_none_iff, not_not]

/-- On a graph with symmetric neighbour maps every neighbour is a live node. -/
theorem AMGraph.neighbors_live_of_symmetric {g : AMGraph} (hsym : g.Symmetric) :
    ∀ a b, b ∈ g.neighbors a → b < g.no_nodes := by
  intro a b hb
  have h1 : g.entry a b ≠ none := (g.mem_neighbors_iff a b).1 hb
  rw [hsym a b] at h1
  cases h2 : g.entry b a with
  | none => exact absurd h2 h1
  | some e => exact AMGraph.live_of_entry h2

section MstLemmas

variable {W : Type} [LinearOrderedAddCommGroup W]

theorem Walk.reach {g : AMGraph} {len : NodeID → NodeID → W} {a v : NodeID} {x : W}
    (w : Walk g len a v x) : g.Reach a v := by
  induction w with
  | nil => exact Relation.ReflTransGen.refl
  | cons _ hc ih => exact Relation.ReflTransGen.tail ih ((g.mem_neighbors_iff _ _).1 hc)

/-- Once the queue is empty every node reachable from `start` in `g` is visited. -/
theorem visited_of_reach {g : AMGraph} {len : NodeID → NodeID → W} {start : NodeID}
    {s : BreadthFirstSearch W} (inv : RunInv g len start s) (hq : s.pq = []) {v : NodeID}
    (h : g.Reach start v) : v ∈ s.visited := by
  have hfin : ∀ m x, s.dist m = some x → m ∈ s.visited := by
    intro m x hx
    rcases inv.pending m x hx with h1 | ⟨e, he, _, _⟩
    · exact h1
    · rw [hq] at he
      cases he
  induction h with
  | refl => exact hfin start 0 inv.seed_dist
  | @tail b c _ hbc ih =>
    rcases inv.relaxed b ih c ((g.mem_neighbors_iff b c).2 hbc) with ⟨_, h1⟩ | ⟨x, y, _, hy, _⟩
    · cases h1
    · exact hfin c y hy

/-- Once the start node is visited, the loop of `minimum_spanning_tree` returns, with
the engine drained and the new graph satisfying the invariant for the final visited
set. -/
theorem mst_loop_spec {g : AMGraph} {len : NodeID → NodeID → W} {start : NodeID}
    (hlen : ∀ a b, 0 ≤ len a b) (hlive : ∀ a b, b ∈ g.neighbors a → b < g.no_nodes)
    (fuel : Nat) (bfs : BreadthFirstSearch W)
    (gn : AMGraph) (inv : RunInv g len start bfs) (hst : start ∈ bfs.visited)
    (minv : MstInv g start bfs.visited gn)
    (hfuel : g.no_nodes < fuel + bfs.visited.length) :
    ∃ gn' bfs', mst_loop g len fuel bfs gn = some gn' ∧ RunInv g len start bfs' ∧
      bfs'.pq = [] ∧ MstInv g start bfs'.visited gn' := by
  induction fuel generalizing bfs gn with
  | zero =>
    have := visited_length_le inv
    omega
  | succ fuel ih =>
    obtain ⟨h1, h2, h3, h4, h5⟩ := step_visited hlen hlive bfs inv
    cases hb : (bfs.step g len).1 with
    | false =>
      obtain ⟨hq, hv, _, _⟩ := h3 hb
      refine ⟨gn, (bfs.step g len).2, by simp [mst_loop, hb], h1, hq, ?_⟩
      rw [hv]
      exact minv
    | true =>
      obtain ⟨e, _, he, _, hnv, hv, _, horigin⟩ := h2 hb
      have hminv : MstInv g start (bfs.step g len).2.visited
          (gn.connect_nodes (bfs.step g len).2.last.node (bfs.step g len).2.last.parent).2 := by
        rw [he, hv]
        rcases horigin with ⟨_, o2, _⟩ | ⟨_, o2, o3, o4, _, _⟩
        · rw [o2] at hst
          cases hst
        · exact mstInv_edge minv o2 hnv o3 ((g.mem_neighbors_iff _ _).1 o4)
            (hlive _ _ o4) (inv.vis_live _ o3)
      obtain ⟨gn', bfs', r1, r2, r3, r4⟩ := ih (bfs.step g len).2 _ h1 h4 hminv (by
        rw [h5, hb]
        simp only [if_true]
        omega)
      refine ⟨gn', bfs', ?_, r2, r3, r4⟩
      simp only [mst_loop, hb, if_true]
      exact r1

/-- The nodes of the output of `minimum_spanning_tree`: as many as `g` has, at the
same positions, without edges. -/
theorem mst_nodes_spec {P C : Type} [Inhabited P] [Inhabited C] (g : AMGraph3D P C) :
    (mst_nodes g).edge_map = List.replicate g.toAMGraph.no_nodes [] ∧
    (mst_nodes g).no_edges_created = 0 ∧
    ∀ n, n < g.toAMGraph.no_nodes → (mst_nodes g).pos n = g.pos n := by
  unfold mst_nodes AMGraph.node_ids
  generalize g.toAMGraph.no_nodes = N
  induction N with
  | zero => exact ⟨rfl, rfl, fun n hn => absurd hn (Nat.not_lt_zero n)⟩
  | succ N ih =>
    obtain ⟨h1, h2, h3⟩ := ih
    rw [List.range_succ, List.foldl_append, List.foldl_cons, List.foldl_nil]
    generalize (List.range N).foldl (fun gn n => (gn.add_node (g.pos n)).2)
      (AMGraph3D.empty : AMGraph3D P C) = gn at h1 h2 h3
    have hlen : gn.toAMGraph.no_nodes = N := by
      simp [AMGraph.no_nodes, h1]
    refine ⟨?_, h2, ?_⟩
    · simp [AMGraph3D.add_node, h1, List.replicate_succ']
    · intro n hn
      rcases Nat.lt_succ_iff_lt_or_eq.1 hn with h | h
      · have hne : n ≠ gn.toAMGraph.no_nodes := by rw [hlen]; exact Nat.ne_of_lt h
        simpa [AMGraph3D.add_node, Function.update, hne] using h3 n h
      · simp [AMGraph3D.add_node, hlen, h]

theorem edge_count_of_no_edge {g : AMGraph} (h : ∀ a b, g.entry a b = none) :
    edge_count g = 0 := by
  unfold edge_count
  simp [h]

/-- The invariant of the loop of `minimum_spanning_tree` holds before the first pass. -/
theorem mstInv_init {P C : Type} [Inhabited P] [Inhabited C] (g : AMGraph3D P C)
    (start : NodeID) : MstInv g.toAMGraph start [] (mst_nodes g).toAMGraph := by
  have hnone : ∀ a b, (mst_nodes g).toAMGraph.entry a b = none := by
    intro a b
    unfold AMGraph.entry AMGraph.row
    rw [(mst_nodes_spec g).1, rowAt_replicate_nil]
    rfl
  have hnadj : ∀ a b, ¬ (mst_nodes g).toAMGraph.Adj a b := fun a b h => h (hnone a b)
  exact
    { nodes := by
        unfold AMGraph.no_nodes
        rw [(mst_nodes_spec g).1, List.length_replicate]
        rfl
      symm := by
        intro a b
        rw [hnone, hnone]
      inside := fun a b h => absurd h (hnadj a b)
      reach := by
        intro v hv
        cases hv
      acyclic := by
        rintro k f ⟨hk, _, hcyc⟩
        exact hnadj _ _ (hcyc 0 (by omega))
      count := by
        rw [edge_count_of_no_edge hnone]
        rfl
      incident := by
        intro v hv
        cases hv
      root_incident := by
        intro h
        simp at h }

/-- The first call of `step()` after `init(start)` visits `start` through the seed
entry, whose parent is the invalid node. -/
theorem step_seed {g : AMGraph} {len : NodeID → NodeID → W} {start : NodeID}
    (hlen : ∀ a b, 0 ≤ len a b) (hlive : ∀ a b, b ∈ g.neighbors a → b < g.no_nodes)
    (s : BreadthFirstSearch W) (inv : RunInv g len start s) (hvis : s.visited = []) :
    (s.step g len).1 = true ∧ (s.step g len).2.last.node = start ∧
      (s.step g len).2.last.parent = InvalidNodeID := by
  obtain ⟨_, h2, h3, h4, _⟩ := step_visited hlen hlive s inv
  cases hb : (s.step g len).1 with
  | false =>
    exfalso
    rw [(h3 hb).2.1, hvis] at h4
    cases h4
  | true =>
    obtain ⟨e, _, he, _, _, _, _, horigin⟩ := h2 hb
    rw [he]
    rcases horigin with ⟨o1, _, o3⟩ | ⟨_, o2, _⟩
    · exact ⟨rfl, o1, o3⟩
    · rw [hvis] at o2
      cases o2

/-- A run that ends with an empty queue on a graph all of whose nodes are reachable
from `start` has visited every node. -/
theorem visited_length_of_connected {g : AMGraph} {len : NodeID → NodeID → W}
    {start : NodeID} {s : BreadthFirstSearch W} (inv : RunInv g len start s)
    (hq : s.pq = []) (hconn : ∀ v, v < g.no_nodes → g.Reach start v) :
    s.visited.length = g.no_nodes := by
  have hsub : List.Subperm (List.range g.no_nodes) s.visited :=
    (List.nodup_range g.no_nodes).subperm
      (fun v hv => visited_of_reach inv hq (hconn v (List.mem_range.1 hv)))
  have h := hsub.length_le
  rw [List.length_range] at h
  exact Nat.le_antisymm (visited_length_le inv) h

end MstLemmas

/-- Reachability is symmetric on a graph with symmetric neighbour maps. -/
theorem AMGraph.reach_symm {g : AMGraph} (hsym : g.Symmetric) {a b : NodeID}
    (h : g.Reach a b) : g.Reach b a := by
  refine Relation.ReflTransGen.symmetric (fun x y hxy => ?_) h
  unfold AMGraph.Adj at hxy ⊢
  rwa [hsym y x]

/-- Every node of the 4-cycle is reachable from node 0. -/
theorem cycle4_connected (v : Nat) (hv : v < cycle4.no_nodes) : cycle4.Reach 0 v := by
  have h01 : cycle4.Adj 0 1 := by decide
  have h12 : cycle4.Adj 1 2 := by decide
  have h03 : cycle4.Adj 0 3 := by decide
  have hv4 : v < 4 := hv
  have hcases : v = 0 ∨ v = 1 ∨ v = 2 ∨ v = 3 := by omega
  rcases hcases with h | h | h | h <;> subst h
  · exact Relation.ReflTransGen.refl
  · exact Relation.ReflTransGen.single h01
  · exact (Relation.ReflTransGen.single h01).tail h12
  · exact Relation.ReflTransGen.single h03

theorem rowAt_eq_getD (l : List AdjMap) (n : Nat) : rowAt l n = (l[n]?).getD [] := by
  induction l generalizing n with
  | nil => simp [rowAt]
  | cons r rs ih =>
    cases n with
    | zero => simp [rowAt]
    | succ n => simpa [rowAt] using ih n

theorem AMGraph.no_nodes_restrict (g : AMGraph) (ok : NodeID → NodeID → Bool) :
    (g.restrict ok).no_nodes = g.no_nodes := by
  simp [AMGraph.restrict, AMGraph.no_nodes]

theorem AMGraph.row_restrict (g : AMGraph) (ok : NodeID → NodeID → Bool) (a : NodeID) :
    (g.restrict ok).row a = (g.row a).filter fun p => ok a p.1 := by
  by_cases h : a < g.no_nodes
  · unfold AMGraph.row AMGraph.restrict
    simp only
    rw [rowAt_eq_getD, List.getElem?_map, List.getElem?_range h]
    rfl
  · rw [AMGraph.row_of_not_live g h,
      AMGraph.row_of_not_live _ (by rw [AMGraph.no_nodes_restrict]; exact h)]
    rfl

theorem AMGraph.neighbors_restrict (g : AMGraph) (ok : NodeID → NodeID → Bool) (a : NodeID) :
    (g.restrict ok).neighbors a = (g.neighbors a).filter (ok a) := by
  unfold AMGraph.neighbors
  rw [AMGraph.row_restrict]
  generalize g.row a = m
  induction m with
  | nil => rfl
  | cons p m ih =>
    cases hp : ok a p.1 <;> simp [AdjMap.keys, List.filter, hp] at ih ⊢ <;> exact ih

theorem AdjMap.find_filter (m : AdjMap) (q : NodeID → Bool) (k : NodeID) :
    AdjMap.find (m.filter fun p => q p.1) k = if q k = true then m.find k else none := by
  induction m with
  | nil => simp [AdjMap.find]
  | cons p m ih =>
    obtain ⟨k', e⟩ := p
    by_cases hk : k' = k
    · subst hk
      cases hq : q k' <;> simp [List.filter, hq, AdjMap.find, ih]
    · cases hq : q k' <;> simp [List.filter, hq, AdjMap.find, ih, hk]

theorem AMGraph.entry_restrict (g : AMGraph) (ok : NodeID → NodeID → Bool) (a b : NodeID) :
    (g.restrict ok).entry a b = if ok a b = true then g.entry a b else none := by
  unfold AMGraph.entry
  rw [AMGraph.row_restrict, AdjMap.find_filter]

theorem AMGraph.adj_restrict (g : AMGraph) (ok : NodeID → NodeID → Bool) (a b : NodeID) :
    (g.restrict ok).Adj a b ↔ g.Adj a b ∧ ok a b = true := by
  unfold AMGraph.Adj
  rw [AMGraph.entry_restrict]
  cases ok a b <;> simp

section FiniteLengths

variable {W : Type} [LinearOrderedAddCommGroup W]

/-- With a length that is a finite number the relaxation is the one of exact
lengths. -/
theorem relax_fp_of_some (len : NodeID → NodeID → W) (n : NodeID) (p : W)
    (s : BreadthFirstSearch W) (m : NodeID) :
    BreadthFirstSearch.relax_fp (fun a b => some (len a b)) n p s m =
      BreadthFirstSearch.relax len n p s m := rfl

/-- The relaxation loop skips the neighbours whose length is NaN or infinite. -/
theorem relax_fp_foldl (len : NodeID → NodeID → Option W) (n : NodeID) (p : W)
    (l : List NodeID) (s : BreadthFirstSearch W) :
    l.foldl (BreadthFirstSearch.relax_fp len n p) s =
      (l.filter fun m => (len n m).isSome).foldl
        (BreadthFirstSearch.relax (finite_len len) n p) s := by
  induction l generalizing s with
  | nil => rfl
  | cons m l ih =>
    rw [List.foldl_cons, ih]
    cases h : len n m with
    | none => simp [List.filter, h, BreadthFirstSearch.relax_fp]
    | some x =>
      simp [List.filter, h, BreadthFirstSearch.relax_fp, BreadthFirstSearch.relax, finite_len]

/-- The engine with lengths that may be NaN or infinite runs as the engine with exact
lengths on the graph without the edges of such a length. -/
theorem step_loop_fp_eq (g : AMGraph) (len : NodeID → NodeID → Option W) (fuel : Nat)
    (s : BreadthFirstSearch W) :
    BreadthFirstSearch.step_loop_fp g len fuel s =
      BreadthFirstSearch.step_loop (g.finite_part len) (finite_len len) fuel s := by
  induction fuel generalizing s with
  | zero => rfl
  | succ fuel ih =>
    unfold BreadthFirstSearch.step_loop_fp BreadthFirstSearch.step_loop
    cases pq_top s.pq with
    | none => rfl
    | some top =>
      simp only
      rw [ih, relax_fp_foldl]
      unfold AMGraph.finite_part
      rw [AMGraph.neighbors_restrict]

theorem step_fp_eq (g : AMGraph) (len : NodeID → NodeID → Option W)
    (s : BreadthFirstSearch W) :
    s.step_fp g len = s.step (g.finite_part len) (finite_len len) :=
  step_loop_fp_eq g len _ s

theorem mst_calls_fp_eq (g : AMGraph) (len : NodeID → NodeID → Option W) (fuel : Nat)
    (s : BreadthFirstSearch W) :
    mst_calls_fp g len fuel s = mst_calls (g.finite_part len) (finite_len len) fuel s := by
  induction fuel generalizing s with
  | zero => rfl
  | succ fuel ih =>
    unfold mst_calls_fp mst_calls
    rw [step_fp_eq, ih]

theorem finite_len_nonneg {len : NodeID → NodeID → Option W}
    (hlen : ∀ a b l, len a b = some l → 0 ≤ l) (a b : NodeID) : 0 ≤ finite_len len a b := by
  unfold finite_len
  cases h : len a b with
  | none => exact le_refl _
  | some l => exact hlen a b l h

theorem AMGraph.neighbors_live_finite_part {g : AMGraph} (len : NodeID → NodeID → Option W)
    (hlive : ∀ a b, b ∈ g.neighbors a → b < g.no_nodes) :
    ∀ a b, b ∈ (g.finite_part len).neighbors a → b < (g.finite_part len).no_nodes := by
  intro a b hb
  unfold AMGraph.finite_part at hb ⊢
  rw [AMGraph.neighbors_restrict] at hb
  rw [AMGraph.no_nodes_restrict]
  exact hlive a b (List.mem_filter.1 hb).1

/-- Reachability in the graph without the edges of NaN or infinite length. -/
theorem AMGraph.reach_finite_part (g : AMGraph) (len : NodeID → NodeID → Option W)
    (a b : NodeID) : (g.finite_part len).Reach a b ↔ g.FiniteReach len a b := by
  have hadj : (g.finite_part len).Adj = fun x y => g.Adj x y ∧ (len x y).isSome = true := by
    funext x y
    exact propext (g.adj_restrict _ x y)
  unfold AMGraph.Reach AMGraph.FiniteReach
  rw [hadj]

/-- Once the start node is visited every `connect_nodes` call of the loop has two
live nodes as arguments, so the loop runs as the loop with exact lengths on the graph
without the edges of NaN or infinite length, whatever `undef` is. -/
theorem mst_loop_fp_eq {g : AMGraph} {len : NodeID → NodeID → Option W} {start : NodeID}
    (undef : AMGraph → NodeID → NodeID → AMGraph)
    (hlen : ∀ a b, 0 ≤ finite_len len a b)
    (hlive : ∀ a b, b ∈ (g.finite_part len).neighbors a → b < (g.finite_part len).no_nodes)
    (fuel : Nat) (bfs : BreadthFirstSearch W) (gn : AMGraph)
    (inv : RunInv (g.finite_part len) (finite_len len) start bfs)
    (hst : start ∈ bfs.visited) (hn : gn.no_nodes = (g.finite_part len).no_nodes) :
    mst_loop_fp undef g len fuel bfs gn =
      mst_loop (g.finite_part len) (finite_len len) fuel bfs gn := by
  induction fuel generalizing bfs gn with
  | zero => rfl
  | succ fuel ih =>
    obtain ⟨h1, h2, _, h4, _⟩ := step_visited hlen hlive bfs inv
    unfold mst_loop_fp mst_loop
    rw [step_fp_eq]
    cases hb : (bfs.step (g.finite_part len) (finite_len len)).1 with
    | false => simp
    | true =>
      simp only [if_true]
      obtain ⟨e, _, he, _, _, _, _, horigin⟩ := h2 hb
      have hcall : gn.connect_nodes_with undef
          (bfs.step (g.finite_part len) (finite_len len)).2.last.node
          (bfs.step (g.finite_part len) (finite_len len)).2.last.parent =
          (gn.connect_nodes (bfs.step (g.finite_part len) (finite_len len)).2.last.node
            (bfs.step (g.finite_part len) (finite_len len)).2.last.parent).2 := by
        rw [he]
        rcases horigin with ⟨_, o2, _⟩ | ⟨_, _, o3, o4, _, _⟩
        · rw [o2] at hst
          cases hst
        · unfold AMGraph.connect_nodes_with
          rw [if_pos]
          rw [hn]
          exact ⟨hlive _ _ o4, inv.vis_live _ o3⟩
      rw [hcall]
      exact ih _ _ h1 h4 (by rw [AMGraph.connect_nodes_no_nodes]; exact hn)

/-- The invariant of the loop of `minimum_spanning_tree` before the first pass, with
respect to the graph without the edges of NaN or infinite length. -/
theorem mstInv_init_finite_part {P C : Type} [Inhabited P] [Inhabited C] (g : AMGraph3D P C)
    (len : NodeID → NodeID → Option W) (start : NodeID) :
    MstInv (g.toAMGraph.finite_part len) start [] (mst_nodes g).toAMGraph := by
  have m := mstInv_init g start
  exact
    { nodes := by
        unfold AMGraph.finite_part
        rw [AMGraph.no_nodes_restrict]
        exact m.nodes
      symm := m.symm
      inside := by
        intro a b h
        have := (m.inside a b h).1
        cases this
      reach := m.reach
      acyclic := m.acyclic
      count := m.count
      incident := m.incident
      root_incident := m.root_incident }

/-- The run of `minimum_spanning_tree(g, root)` on a graph with symmetric neighbour
maps and a live root, when the first call `connect_nodes(root, InvalidNodeID)` leaves
the new graph as it is: the function returns the nodes of `mst_nodes g` with the
edges the loop has made, the engine ends with an empty queue, and the loop invariant
holds with respect to the graph without the edges of NaN or infinite length. -/
theorem minimum_spanning_tree_fp_run {P C : Type} [Inhabited P] [Inhabited C]
    (undef : AMGraph → NodeID → NodeID → AMGraph) (len : NodeID → NodeID → Option W)
    (g : AMGraph3D P C) (root : NodeID)
    (hlen : ∀ a b l, len a b = some l → 0 ≤ l) (hsym : g.toAMGraph.Symmetric)
    (hN : g.toAMGraph.no_nodes ≤ InvalidNodeID) (hroot : root < g.toAMGraph.no_nodes)
    (hnoop : undef (mst_nodes g).toAMGraph root InvalidNodeID = (mst_nodes g).toAMGraph) :
    ∃ gn bfs,
      minimum_spanning_tree_fp undef len g root = some { mst_nodes g with toAMGraph := gn } ∧
      RunInv (g.toAMGraph.finite_part len) (finite_len len) root bfs ∧ bfs.pq = [] ∧
      MstInv (g.toAMGraph.finite_part len) root bfs.visited gn := by
  have hne : root ≠ InvalidNodeID := by
    intro h
    rw [h] at hroot
    exact absurd hroot (Nat.not_lt.2 hN)
  have hnodes : (g.toAMGraph.finite_part len).no_nodes = g.toAMGraph.no_nodes :=
    AMGraph.no_nodes_restrict _ _
  have hlen2 := finite_len_nonneg hlen
  have hlive := AMGraph.neighbors_live_finite_part len
    (AMGraph.neighbors_live_of_symmetric hsym)
  have hN2 : ¬ InvalidNodeID < (g.toAMGraph.finite_part len).no_nodes := by
    rw [hnodes]
    exact Nat.not_lt.2 hN
  have hvis : ((BreadthFirstSearch.idle : BreadthFirstSearch W).init root).visited = [] := by
    simp [BreadthFirstSearch.init, BreadthFirstSearch.idle]
  have inv0 := runInv_init (g.toAMGraph.finite_part len) (finite_len len) root
    (by rw [hnodes]; exact hroot) (BreadthFirstSearch.idle : BreadthFirstSearch W) rfl
  obtain ⟨s1, s2, s3⟩ := step_seed hlen2 hlive _ inv0 hvis
  obtain ⟨h1, h2, _, h4, _⟩ := step_visited hlen2 hlive _ inv0
  obtain ⟨e, _, he, _, _, hv, _, _⟩ := h2 s1
  have hvis1 : (((BreadthFirstSearch.idle : BreadthFirstSearch W).init root).step
      (g.toAMGraph.finite_part len) (finite_len len)).2.visited = [root] := by
    rw [hv, hvis, ← he, s2]
  have minv0 := mstInv_init_finite_part g len root
  have minv1 : MstInv (g.toAMGraph.finite_part len) root [root] (mst_nodes g).toAMGraph :=
    mstInv_seed minv0
  obtain ⟨gn, bfs, r1, r2, r3, r4⟩ := mst_loop_spec hlen2 hlive g.toAMGraph.no_nodes _
    (mst_nodes g).toAMGraph h1 h4 (by rw [hvis1]; exact minv1)
    (by rw [hvis1, hnodes]; simp)
  refine ⟨gn, bfs, ?_, r2, r3, r4⟩
  have hcall : (mst_nodes g).toAMGraph.connect_nodes_with undef root InvalidNodeID =
      (mst_nodes g).toAMGraph := by
    unfold AMGraph.connect_nodes_with
    rw [if_neg, hnoop]
    intro h
    exact absurd h.2 (by rw [minv0.nodes]; exact hN2)
  unfold minimum_spanning_tree_fp
  simp only [if_neg hne]
  unfold mst_loop_fp
  rw [step_fp_eq]
  simp only [s1, if_true, s2, s3, hcall]
  rw [mst_loop_fp_eq undef hlen2 hlive _ _ _ h1 h4 minv0.nodes, r1]
  rfl

/-- After the first pass every `connect_nodes` call of the loop of
`minimum_spanning_tree` joins a live node to a live node of which it is a neighbour. -/
theorem mst_calls_edges {g : AMGraph} {len : NodeID → NodeID → W} {start : NodeID}
    (hlen : ∀ a b, 0 ≤ len a b) (hlive : ∀ a b, b ∈ g.neighbors a → b < g.no_nodes)
    (fuel : Nat) (bfs : BreadthFirstSearch W) (inv : RunInv g len start bfs)
    (hst : start ∈ bfs.visited) :
    ∀ c ∈ mst_calls g len fuel bfs,
      c.1 < g.no_nodes ∧ c.2 < g.no_nodes ∧ c.1 ∈ g.neighbors c.2 := by
  induction fuel generalizing bfs with
  | zero =>
    intro c hc
    cases hc
  | succ fuel ih =>
    intro c hc
    obtain ⟨h1, h2, _, h4, _⟩ := step_visited hlen hlive bfs inv
    cases hb : (bfs.step g len).1 with
    | false =>
      simp [mst_calls, hb] at hc
    | true =>
      simp only [mst_calls, hb, if_true] at hc
      rcases List.mem_cons.1 hc with h | h
      · obtain ⟨e, _, he, _, _, _, _, horigin⟩ := h2 hb
        rw [h, he]
        rcases horigin with ⟨_, o2, _⟩ | ⟨_, _, o3, o4, _, _⟩
        · rw [o2] at hst
          cases hst
        · exact ⟨hlive _ _ o4, inv.vis_live _ o3, o4⟩
      · exact ih _ h1 h4 c h

/-- The `connect_nodes` calls of `minimum_spanning_tree`: the first has the root and
the invalid node as arguments, every other one a live node and a live node of which
it is a neighbour in `g`, at a length that is a finite number. -/
theorem mst_calls_fp_spec {g : AMGraph} (len : NodeID → NodeID → Option W) (root : NodeID)
    (hlen : ∀ a b l, len a b = some l → 0 ≤ l)
    (hlive : ∀ a b, b ∈ g.neighbors a → b < g.no_nodes)
    (hroot : root < g.no_nodes) (fuel : Nat) :
    ∃ rest, mst_calls_fp g len (fuel + 1)
        ((BreadthFirstSearch.idle : BreadthFirstSearch W).init root)
        = (root, InvalidNodeID) :: rest ∧
      ∀ c ∈ rest, c.1 < g.no_nodes ∧ c.2 < g.no_nodes ∧ g.Adj c.2 c.1 ∧
        (len c.2 c.1).isSome = true := by
  have hnodes : (g.finite_part len).no_nodes = g.no_nodes := AMGraph.no_nodes_restrict _ _
  have hlen2 := finite_len_nonneg hlen
  have hlive2 := AMGraph.neighbors_live_finite_part len hlive
  have inv := runInv_init (g.finite_part len) (finite_len len) root
    (by rw [hnodes]; exact hroot) (BreadthFirstSearch.idle : BreadthFirstSearch W) rfl
  have hvis : ((BreadthFirstSearch.idle : BreadthFirstSearch W).init root).visited = [] := by
    simp [BreadthFirstSearch.init, BreadthFirstSearch.idle]
  obtain ⟨h1, h2, h3⟩ := step_seed hlen2 hlive2 _ inv hvis
  obtain ⟨i1, _, _, i4, _⟩ := step_visited hlen2 hlive2 _ inv
  refine ⟨mst_calls (g.finite_part len) (finite_len len) fuel
    (((BreadthFirstSearch.idle : BreadthFirstSearch W).init root).step (g.finite_part len)
      (finite_len len)).2, ?_, ?_⟩
  · rw [mst_calls_fp_eq]
    simp only [mst_calls, h1, if_true, h2, h3]
  · intro c hc
    obtain ⟨c1, c2, c3⟩ := mst_calls_edges hlen2 hlive2 fuel _ i1 i4 c hc
    rw [hnodes] at c1 c2
    have hadj := ((g.finite_part len).mem_neighbors_iff c.2 c.1).1 c3
    unfold AMGraph.finite_part at hadj
    rw [AMGraph.adj_restrict] at hadj
    exact ⟨c1, c2, hadj.1, hadj.2⟩

/-- With lengths that are all finite numbers the engine is the engine with exact
lengths. -/
theorem step_loop_fp_of_exact (g : AMGraph) (len : NodeID → NodeID → W) (fuel : Nat)
    (s : BreadthFirstSearch W) :
    BreadthFirstSearch.step_loop_fp g (fun a b => some (len a b)) fuel s =
      BreadthFirstSearch.step_loop g len fuel s := by
  induction fuel generalizing s with
  | zero => rfl
  | succ fuel ih =>
    unfold BreadthFirstSearch.step_loop_fp BreadthFirstSearch.step_loop
    cases pq_top s.pq with
    | none => rfl
    | some top =>
      simp only
      rw [ih]
      rfl

/-- With lengths that are all finite numbers, and when a `connect_nodes` call with a
NodeID that is not live leaves the graph unchanged, `minimum_spanning_tree` is the
function with exact lengths. -/
theorem minimum_spanning_tree_fp_of_exact {P C : Type} [Inhabited P] [Inhabited C]
    (len : NodeID → NodeID → W) (g : AMGraph3D P C) (root : NodeID) :
    minimum_spanning_tree_fp leave_unchanged (fun a b => some (len a b)) g root =
      minimum_spanning_tree len g root := by
  have hstep : ∀ s : BreadthFirstSearch W,
      s.step_fp g.toAMGraph (fun a b => some (len a b)) = s.step g.toAMGraph len :=
    fun s => step_loop_fp_of_exact g.toAMGraph len _ s
  have hcall : ∀ (gn : AMGraph) (a b : NodeID),
      gn.connect_nodes_with leave_unchanged a b = (gn.connect_nodes a b).2 := by
    intro gn a b
    unfold AMGraph.connect_nodes_with AMGraph.connect_nodes leave_unchanged
    by_cases h : a < gn.no_nodes ∧ b < gn.no_nodes
    · rw [if_pos h]
    · rw [if_neg h, if_pos]
      by_cases ha : a < gn.no_nodes
      · exact Or.inr (Or.inr fun hb => h ⟨ha, hb⟩)
      · exact Or.inr (Or.inl ha)
  have hloop : ∀ fuel (bfs : BreadthFirstSearch W) (gn : AMGraph),
      mst_loop_fp leave_unchanged g.toAMGraph (fun a b => some (len a b)) fuel bfs gn =
        mst_loop g.toAMGraph len fuel bfs gn := by
    intro fuel
    induction fuel with
    | zero => intro bfs gn; rfl
    | succ fuel ih =>
      intro bfs gn
      unfold mst_loop_fp mst_loop
      rw [hstep]
      simp only [hcall, ih]
  unfold minimum_spanning_tree_fp minimum_spanning_tree
  simp only [hloop]

end FiniteLengths

/-! ## `reassign_node_id`: the contract -/

theorem sampleGraph_symmetric : sampleGraph.Symmetric :=
  AMGraph.symmetric_of_check (by decide)

theorem sampleGraph_noSelfLoop : sampleGraph.NoSelfLoop :=
  AMGraph.noSelfLoop_of_check (by decide)

theorem sampleGraph_edgeUnique : sampleGraph.EdgeUnique :=
  AMGraph.edgeUnique_of_check (by decide)

/-- C1: on a well-formed graph (symmetric, no self-loops) and for distinct live
nodes `src`, `dst`, after `reassign_node_id(src, dst, merge = false)` every node
`n ≠ dst` that was a neighbour of `src` is connected to `dst` in both directions
with exactly the EdgeID `e` that the edge `src`-`n` had before the call. -/
theorem reassign_no_merge_transplants (g : AMGraph) (hsym : g.Symmetric)
    (hloop : g.NoSelfLoop) (src dst : NodeID) (_hs : g.Live src) (hd : g.Live dst)
    (hsd : src ≠ dst) (n : NodeID) (e : EdgeID) (hn : n ≠ dst)
    (he : g.entry src n = some e) :
    (g.reassign_node_id src dst false).entry dst n = some e ∧
      (g.reassign_node_id src dst false).entry n dst = some e := by
  have hns : n ≠ src := by
    intro h
    rw [h, hloop src] at he
    cases he
  have hds : ¬ dst = src := fun h => hsd h.symm
  constructor
  · rw [AMGraph.entry_reassign_no_merge hsym hloop hd hsd]
    simp [hds, hns, hn, he]
  · rw [AMGraph.entry_reassign_no_merge hsym hloop hd hsd]
    simp [hds, hns, hn, he]

theorem reassign_no_merge_transplants_witness :
    (sampleGraph.reassign_node_id 0 1 false).entry 1 2 = some 1 ∧
      (sampleGraph.reassign_node_id 0 1 false).entry 2 1 = some 1 :=
  reassign_no_merge_transplants sampleGraph sampleGraph_symmetric sampleGraph_noSelfLoop 0 1
    (by decide) (by decide) (by decide) 2 1 (by decide) (by decide)

/-- C2, as stated, fails: in the sample graph node 2 is a neighbour of both
`src = 0` and `dst = 1`; after `reassign_node_id(0, 1, merge = false)` the
lookups `find_edge(1, 2)` and `find_edge(2, 1)` return EdgeID 1, not
`InvalidEdgeID`. -/
theorem reassign_no_merge_common_neighbour_keeps_edge :
    sampleGraph.Symmetric ∧ sampleGraph.NoSelfLoop ∧ sampleGraph.Live 0 ∧ sampleGraph.Live 1 ∧
      sampleGraph.entry 1 2 = some 2 ∧ sampleGraph.entry 0 2 = some 1 ∧
      (sampleGraph.reassign_node_id 0 1 false).find_edge 1 2 = 1 ∧
      (sampleGraph.reassign_node_id 0 1 false).find_edge 2 1 = 1 ∧
      (1 : EdgeID) ≠ InvalidEdgeID :=
  ⟨sampleGraph_symmetric, sampleGraph_noSelfLoop, by decide, by decide, by decide, by decide,
    by decide, by decide, by decide⟩

/-- C2, amended: on a well-formed graph and for distinct live `src`, `dst`, after
`reassign_node_id(src, dst, merge = false)` every prior neighbour `n` of `dst`
that was not also a neighbour of `src` has lost its edge to `dst`
(`find_edge(dst, n)` and `find_edge(n, dst)` are `InvalidEdgeID`), while a prior
neighbour of `dst` that was also a neighbour of `src` is joined to `dst` by the
EdgeID of its former edge to `src`. -/
theorem reassign_no_merge_clears_dst (g : AMGraph) (hsym : g.Symmetric)
    (hloop : g.NoSelfLoop) (src dst : NodeID) (_hs : g.Live src) (hd : g.Live dst)
    (hsd : src ≠ dst) (n : NodeID) (hn : g.entry dst n ≠ none) :
    (g.entry src n = none →
      (g.reassign_node_id src dst false).find_edge dst n = InvalidEdgeID ∧
      (g.reassign_node_id src dst false).find_edge n dst = InvalidEdgeID) ∧
    (∀ e, g.entry src n = some e →
      (g.reassign_node_id src dst false).find_edge dst n = e ∧
      (g.reassign_node_id src dst false).find_edge n dst = e) := by
  have hnd : n ≠ dst := by
    intro h
    rw [h, hloop dst] at hn
    exact hn rfl
  have hds : ¬ dst = src := fun h => hsd h.symm
  have h1 : (g.reassign_node_id src dst false).entry dst n =
      if n = src then none else g.entry src n := by
    rw [AMGraph.entry_reassign_no_merge hsym hloop hd hsd]
    simp [hds, hnd]
  have h2 : (g.reassign_node_id src dst false).entry n dst =
      if n = src then none else g.entry src n := by
    rw [AMGraph.entry_reassign_no_merge hsym hloop hd hsd]
    simp [hds, hnd]
  constructor
  · intro h0
    simp [AMGraph.find_edge, h1, h2, h0]
  · intro e he
    have hns : n ≠ src := by
      intro h
      rw [h, hloop src] at he
      cases he
    simp [AMGraph.find_edge, h1, h2, he, hns]

theorem reassign_no_merge_clears_dst_witness :
    (sampleGraph.entry 0 3 = none →
      (sampleGraph.reassign_node_id 0 1 false).find_edge 1 3 = InvalidEdgeID ∧
      (sampleGraph.reassign_node_id 0 1 false).find_edge 3 1 = InvalidEdgeID) ∧
    (∀ e, sampleGraph.entry 0 3 = some e →
      (sampleGraph.reassign_node_id 0 1 false).find_edge 1 3 = e ∧
      (sampleGraph.reassign_node_id 0 1 false).find_edge 3 1 = e) :=
  reassign_no_merge_clears_dst sampleGraph sampleGraph_symmetric sampleGraph_noSelfLoop 0 1
    (by decide) (by decide) (by decide) 3 (by decide)

/-- C3: on a well-formed graph, for all live `src`, `dst` (equal or not) and both
values of `merge`, after `reassign_node_id(src, dst, merge)` the node `src` is
isolated: its neighbour map is empty and `src` is a key of no neighbour map. -/
theorem reassign_isolates_src (g : AMGraph) (hsym : g.Symmetric) (hloop : g.NoSelfLoop)
    (src dst : NodeID) (hs : g.Live src) (hd : g.Live dst) (merge : Bool) :
    (g.reassign_node_id src dst merge).row src = [] ∧
      ∀ n, src ∉ ((g.reassign_node_id src dst merge).row n).keys := by
  constructor
  · exact AMGraph.row_clear_row _ _
  · intro n
    rw [← AdjMap.find_eq_none_iff, ← AMGraph.entry_eq_find_row]
    by_cases hsd : src = dst
    · subst hsd
      rw [AMGraph.entry_reassign_same hsym hloop hs]
      simp
    · cases merge with
      | false =>
        rw [AMGraph.entry_reassign_no_merge hsym hloop hd hsd]
        simp
      | true =>
        rw [AMGraph.entry_reassign_merge hsym hloop hd hsd]
        simp

theorem reassign_isolates_src_witness :
    (sampleGraph.reassign_node_id 0 1 true).row 0 = [] ∧
      ∀ n, 0 ∉ ((sampleGraph.reassign_node_id 0 1 true).row n).keys :=
  reassign_isolates_src sampleGraph sampleGraph_symmetric sampleGraph_noSelfLoop 0 1
    (by decide) (by decide) true

/-- C4: on a well-formed graph whose EdgeIDs each join one unordered pair, and
for distinct live `src`, `dst`, after `reassign_node_id(src, dst, merge = true)`
the edge `dst`-`n` of every node `n` other than `src` and `dst` is, in both
directions: the EdgeID it had before if `dst`-`n` existed (and then the old
`src`-`n` EdgeID occurs nowhere in `edge_map`); otherwise the EdgeID of the old
edge `src`-`n` if that existed; otherwise absent. The direct edge `src`-`dst`
is removed. -/
theorem reassign_merge_frame (g : AMGraph) (hsym : g.Symmetric) (hloop : g.NoSelfLoop)
    (huniq : g.EdgeUnique) (src dst : NodeID) (_hs : g.Live src) (hd : g.Live dst)
    (hsd : src ≠ dst) :
    (∀ n, n ≠ src → n ≠ dst →
      (g.reassign_node_id src dst true).entry dst n =
        (match g.entry dst n with
          | some e => some e
          | none => g.entry src n) ∧
      (g.reassign_node_id src dst true).entry n dst =
        (match g.entry dst n with
          | some e => some e
          | none => g.entry src n) ∧
      (∀ e0 e, g.entry dst n = some e0 → g.entry src n = some e →
        ¬ (g.reassign_node_id src dst true).Occurs e)) ∧
    (g.reassign_node_id src dst true).entry src dst = none ∧
    (g.reassign_node_id src dst true).entry dst src = none := by
  have hds : ¬ dst = src := fun h => hsd h.symm
  refine ⟨?_, ?_, ?_⟩
  · intro n hns hnd
    refine ⟨?_, ?_, ?_⟩
    · rw [AMGraph.entry_reassign_merge hsym hloop hd hsd]
      simp [hds, hns, hnd]
    · rw [AMGraph.entry_reassign_merge hsym hloop hd hsd]
      simp [hds, hns, hnd]
    · rintro e0 e h0 he ⟨a, b, hab⟩
      obtain ⟨ha, hb, hcase⟩ := AMGraph.reassign_provenance hsym hloop hd hsd true hab
      rcases hcase with h1 | ⟨h1, _, h3⟩ | ⟨h1, _, h3⟩
      · rcases huniq a b src n e h1 he with ⟨h4, _⟩ | ⟨_, h5⟩
        · exact ha h4
        · exact hb h5
      · rcases huniq src b src n e h3 he with ⟨_, h5⟩ | ⟨h4, _⟩
        · subst h5 h1
          rw [AMGraph.entry_reassign_merge hsym hloop hd hsd] at hab
          simp [hds, hns, hnd, h0] at hab
          rcases huniq a b src b e0 (hab ▸ h0) (hab ▸ he) with ⟨h4, _⟩ | ⟨_, h5⟩
          · exact ha h4
          · exact hb h5
        · exact hns h4.symm
      · rcases huniq src a src n e h3 he with ⟨_, h5⟩ | ⟨h4, _⟩
        · subst h5 h1
          rw [AMGraph.entry_reassign_merge hsym hloop hd hsd] at hab
          simp [hds, hns, hnd, h0] at hab
          rcases huniq b a src a e0 (hab ▸ h0) (hab ▸ he) with ⟨h4, _⟩ | ⟨_, h5⟩
          · exact hb h4
          · exact ha h5
        · exact hns h4.symm
  · rw [AMGraph.entry_reassign_merge hsym hloop hd hsd]; simp
  · rw [AMGraph.entry_reassign_merge hsym hloop hd hsd]; simp

theorem reassign_merge_frame_witness :
    (∀ n, n ≠ 0 → n ≠ 1 →
      (sampleGraph.reassign_node_id 0 1 true).entry 1 n =
        (match sampleGraph.entry 1 n with
          | some e => some e
          | none => sampleGraph.entry 0 n) ∧
      (sampleGraph.reassign_node_id 0 1 true).entry n 1 =
        (match sampleGraph.entry 1 n with
          | some e => some e
          | none => sampleGraph.entry 0 n) ∧
      (∀ e0 e, sampleGraph.entry 1 n = some e0 → sampleGraph.entry 0 n = some e →
        ¬ (sampleGraph.reassign_node_id 0 1 true).Occurs e)) ∧
    (sampleGraph.reassign_node_id 0 1 true).entry 0 1 = none ∧
    (sampleGraph.reassign_node_id 0 1 true).entry 1 0 = none :=
  reassign_merge_frame sampleGraph sampleGraph_symmetric sampleGraph_noSelfLoop
    sampleGraph_edgeUnique 0 1 (by decide) (by decide) (by decide)

/-- C5: `reassign_node_id` preserves the adjacency invariant: if `edge_map` is
symmetric and has no self-loop entry before the call, then for all live `src`,
`dst` and both values of `merge` the same holds after the call. -/
theorem reassign_preserves_adjacency_invariant (g : AMGraph) (hsym : g.Symmetric)
    (hloop : g.NoSelfLoop) (src dst : NodeID) (hs : g.Live src) (hd : g.Live dst)
    (merge : Bool) :
    (g.reassign_node_id src dst merge).Symmetric ∧
      (g.reassign_node_id src dst merge).NoSelfLoop := by
  by_cases hsd : src = dst
  · subst hsd
    constructor
    · intro a b
      rw [AMGraph.entry_reassign_same hsym hloop hs, AMGraph.entry_reassign_same hsym hloop hs,
        hsym a b]
      by_cases ha : a = src <;> by_cases hb : b = src <;> simp [ha, hb]
    · intro a
      rw [AMGraph.entry_reassign_same hsym hloop hs, hloop a]
      simp
  · have hds : ¬ dst = src := fun h => hsd h.symm
    cases merge with
    | false =>
      constructor
      · intro a b
        rw [AMGraph.entry_reassign_no_merge hsym hloop hd hsd,
          AMGraph.entry_reassign_no_merge hsym hloop hd hsd, hsym a b]
        by_cases ha : a = src
        · simp [ha]
        · by_cases hb : b = src
          · simp [hb]
          · by_cases had : a = dst <;> by_cases hbd : b = dst <;> simp [ha, hb, had, hbd]
      · intro a
        rw [AMGraph.entry_reassign_no_merge hsym hloop hd hsd, hloop a]
        by_cases ha : a = src
        · simp [ha]
        · by_cases had : a = dst <;> simp [ha, had]
    | true =>
      constructor
      · intro a b
        rw [AMGraph.entry_reassign_merge hsym hloop hd hsd,
          AMGraph.entry_reassign_merge hsym hloop hd hsd, hsym a b]
        by_cases ha : a = src
        · simp [ha]
        · by_cases hb : b = src
          · simp [hb]
          · by_cases had : a = dst <;> by_cases hbd : b = dst <;> simp [ha, hb, had, hbd]
      · intro a
        rw [AMGraph.entry_reassign_merge hsym hloop hd hsd, hloop a]
        by_cases ha : a = src
        · simp [ha]
        · by_cases had : a = dst <;> simp [ha, had]

theorem reassign_preserves_adjacency_invariant_witness :
    (sampleGraph.reassign_node_id 0 1 false).Symmetric ∧
      (sampleGraph.reassign_node_id 0 1 false).NoSelfLoop :=
  reassign_preserves_adjacency_invariant sampleGraph sampleGraph_symmetric
    sampleGraph_noSelfLoop 0 1 (by decide) (by decide) false

/-- C6: `reassign_node_id` preserves edge-identity uniqueness: on a well-formed
graph in which every EdgeID joins exactly one unordered pair of nodes, after
`reassign_node_id(src, dst, merge)` with `src ≠ dst` live and either value of
`merge`, every EdgeID occurring in `edge_map` still joins exactly one unordered
pair, and no EdgeID occurs that did not occur before. -/
theorem reassign_preserves_edge_unique (g : AMGraph) (hsym : g.Symmetric)
    (hloop : g.NoSelfLoop) (huniq : g.EdgeUnique) (src dst : NodeID) (_hs : g.Live src)
    (hd : g.Live dst) (hsd : src ≠ dst) (merge : Bool) :
    (g.reassign_node_id src dst merge).EdgeUnique ∧
      ∀ e, (g.reassign_node_id src dst merge).Occurs e → g.Occurs e := by
  constructor
  · intro a b c d e hab hcd
    obtain ⟨ha, hb, h1⟩ := AMGraph.reassign_provenance hsym hloop hd hsd merge hab
    obtain ⟨hc, hd', h2⟩ := AMGraph.reassign_provenance hsym hloop hd hsd merge hcd
    have moved : ∀ n m, g.entry src n = some e → g.entry src m = some e → n = m := by
      intro n m hn hm
      rcases huniq src n src m e hn hm with ⟨_, h⟩ | ⟨h3, h4⟩
      · exact h
      · rw [← h3, h4]
    have kept : ∀ x y n, x ≠ src → y ≠ src → g.entry x y = some e →
        g.entry src n = some e → False := by
      intro x y n hx hy hxy hn
      rcases huniq x y src n e hxy hn with ⟨h, _⟩ | ⟨_, h⟩
      · exact hx h
      · exact hy h
    rcases h1 with h1 | ⟨h1, _, h1e⟩ | ⟨h1, _, h1e⟩ <;>
      rcases h2 with h2 | ⟨h2, _, h2e⟩ | ⟨h2, _, h2e⟩
    · exact huniq a b c d e h1 h2
    · exact (kept a b d ha hb h1 h2e).elim
    · exact (kept a b c ha hb h1 h2e).elim
    · exact (kept c d b hc hd' h2 h1e).elim
    · exact Or.inl ⟨h1.trans h2.symm, moved b d h1e h2e⟩
    · exact Or.inr ⟨h1.trans h2.symm, moved b c h1e h2e⟩
    · exact (kept c d a hc hd' h2 h1e).elim
    · exact Or.inr ⟨moved a d h1e h2e, h1.trans h2.symm⟩
    · exact Or.inl ⟨moved a c h1e h2e, h1.trans h2.symm⟩
  · rintro e ⟨a, b, hab⟩
    obtain ⟨_, _, h1⟩ := AMGraph.reassign_provenance hsym hloop hd hsd merge hab
    rcases h1 with h1 | ⟨_, _, h1e⟩ | ⟨_, _, h1e⟩
    · exact ⟨a, b, h1⟩
    · exact ⟨src, b, h1e⟩
    · exact ⟨src, a, h1e⟩

theorem reassign_preserves_edge_unique_witness :
    (sampleGraph.reassign_node_id 0 1 true).EdgeUnique ∧
      ∀ e, (sampleGraph.reassign_node_id 0 1 true).Occurs e → sampleGraph.Occurs e :=
  reassign_preserves_edge_unique sampleGraph sampleGraph_symmetric sampleGraph_noSelfLoop
    sampleGraph_edgeUnique 0 1 (by decide) (by decide) (by decide) true

/-! ## `clean_graph`: the contract -/

/-- C7, as stated, fails: the single node of the scenario is at (0,NaN,0), a position
that is not a number, and `clean_graph` with threshold 0.01 still creates an output
node for it, at that position: the test of line 69 reads the first coordinate only. -/
theorem clean_graph_keeps_nan_second_coordinate :
    (scenarioNaNSecond.pos 0).y.isnan = true ∧
      exactMetric.isnan0 (scenarioNaNSecond.pos 0) = false ∧
      survivors exactMetric scenarioNaNSecond (Dbl.frac 1 100) = [0] ∧
      (clean_graph exactMetric 0 scenarioNaNSecond (Dbl.frac 1 100)).toAMGraph.no_nodes = 1 ∧
      (clean_graph exactMetric 0 scenarioNaNSecond (Dbl.frac 1 100)).pos 0 =
        scenarioNaNSecond.pos 0 := by
  decide

/-- C7, amended: for every graph `g` and threshold, `clean_graph(g, thresh)` creates
exactly one output node, in ascending original-ID order and with the original
position and node colour, for each original node `n` whose position has a first
coordinate that is not NaN (the test `std::isnan(g.pos[n][0])` of the code) and for
which no `m < n` has `sqr_dist(n, m) < thresh`, and creates no other node: the output
nodes `0..K-1` are the survivors in ascending order, and `node_map` sends the `i`-th
survivor to `i`.
In the scenario with positions (0,0,0), (0,0,0.0001), (5,0,0) and threshold 0.01 the
output has exactly 2 nodes and the nodes 0 and 1 share one output node. -/
theorem clean_graph_creates_survivors :
    (∀ (P C D : Type) [Inhabited P] [Inhabited C] (M : Metric P D) (zero : C)
        (g : AMGraph3D P C) (thresh : D),
      (∀ n, n ∈ survivors M g thresh ↔
        n < g.toAMGraph.no_nodes ∧ M.isnan0 (g.pos n) = false ∧
          ∀ m, m < n → within M g thresh n m = false) ∧
      (survivors M g thresh).Pairwise (· < ·) ∧
      (clean_graph M zero g thresh).toAMGraph.no_nodes = (survivors M g thresh).length ∧
      ∀ i s, (survivors M g thresh)[i]? = some s →
        (clean_graph M zero g thresh).pos i = g.pos s ∧
        (clean_graph M zero g thresh).node_color i = g.node_color s ∧
        (clean_node_map M g thresh).get s = i) ∧
    ((clean_graph exactMetric 0 scenarioNear (Dbl.frac 1 100)).toAMGraph.no_nodes = 2 ∧
      (clean_node_map exactMetric scenarioNear (Dbl.frac 1 100)).get 0 = 0 ∧
      (clean_node_map exactMetric scenarioNear (Dbl.frac 1 100)).get 1 = 0 ∧
      (clean_node_map exactMetric scenarioNear (Dbl.frac 1 100)).get 2 = 1) := by
  refine ⟨?_, by decide, by decide, by decide, by decide⟩
  intro P C D _ _ M zero g thresh
  refine ⟨mem_survivors M g thresh, ?_, no_nodes_clean_graph M zero g thresh, ?_⟩
  · exact List.Pairwise.filter _ (List.pairwise_lt_range _)
  · intro i s h
    obtain ⟨h1, h2, h3⟩ := (cleanInv_clean_nodes M g thresh).node i s h
    obtain ⟨_, h5, h6⟩ := clean_edges_spec zero g (clean_nodes M g thresh).2
      (clean_nodes M g thresh).1
    refine ⟨?_, ?_, h3⟩
    · unfold clean_graph; rw [h5]; exact h1
    · unfold clean_graph; rw [h6]; exact h2

/-- C8, as stated, fails: in the scenario with nodes at (0,0,0), (1,0,0), (0.5,0,0)
and threshold 0.5, node 2 has the earlier nodes 0 and 1 within the threshold; the
smallest is `m0 = 0`, yet `node_map[2]` is `node_map[1] = 1`, not `node_map[0] = 0`,
and the edge 2-3 of the input is attached to output node 1, not to output node 0. -/
theorem clean_graph_first_match_does_not_win :
    exactMetric.isnan0 (scenarioBetween.pos 2) = false ∧
      within exactMetric scenarioBetween (Dbl.frac 1 2) 2 0 = true ∧
      within exactMetric scenarioBetween (Dbl.frac 1 2) 2 1 = true ∧
      (clean_node_map exactMetric scenarioBetween (Dbl.frac 1 2)).get 0 = 0 ∧
      (clean_node_map exactMetric scenarioBetween (Dbl.frac 1 2)).get 1 = 1 ∧
      (clean_node_map exactMetric scenarioBetween (Dbl.frac 1 2)).get 2 = 1 ∧
      (clean_node_map exactMetric scenarioBetween (Dbl.frac 1 2)).get 3 = 2 ∧
      (clean_graph exactMetric 0 scenarioBetween (Dbl.frac 1 2)).toAMGraph.entry 0 2 = none ∧
      (clean_graph exactMetric 0 scenarioBetween (Dbl.frac 1 2)).toAMGraph.entry 1 2 = some 0 := by
  decide

/-- C8, amended: in `clean_graph`, for every node `n` whose first coordinate is a
number and that has at least one earlier node `m < n` with `sqr_dist(n, m) < thresh`,
`node_map[n]` equals `node_map[m1]` where `m1` is the largest (last in ascending
order) such `m`. -/
theorem clean_graph_last_match_wins {P C D : Type} [Inhabited P] [Inhabited C]
    (M : Metric P D) (g : AMGraph3D P C) (thresh : D) (n m1 : NodeID)
    (hn : n < g.toAMGraph.no_nodes) (hnan : M.isnan0 (g.pos n) = false) (hm1 : m1 < n)
    (hc : within M g thresh n m1 = true)
    (hlast : ∀ m, m1 < m → m < n → within M g thresh n m = false) :
    (clean_node_map M g thresh).get n = (clean_node_map M g thresh).get m1 :=
  (cleanInv_clean_nodes M g thresh).merged n hn hnan m1 hm1 hc hlast

theorem clean_graph_last_match_wins_witness :
    (clean_node_map exactMetric scenarioBetween (Dbl.frac 1 2)).get 2 =
      (clean_node_map exactMetric scenarioBetween (Dbl.frac 1 2)).get 1 :=
  clean_graph_last_match_wins exactMetric scenarioBetween (Dbl.frac 1 2) 2 1 (by decide)
    (by decide) (by decide) (by decide) (fun m h1 h2 => absurd h2 (Nat.not_lt.2 h1))

/-- In the exact arithmetic no squared distance is below 0. -/
theorem exact_sqr_dist_not_lt_zero (p q : Vec3d) :
    exactMetric.lt (exactMetric.sqr_dist p q) (Dbl.frac 0 1) = false := by
  obtain ⟨px, py, pz⟩ := p
  obtain ⟨qx, qy, qz⟩ := q
  cases px <;> cases py <;> cases pz <;> cases qx <;> cases qy <;> cases qz <;>
    simp only [exactMetric, Vec3d.sqr_dist, Dbl.sub, Dbl.mul, Dbl.add, Dbl.lt,
      decide_eq_false_iff_not]
  rename_i a1 b1 a2 b2 a3 b3 c1 d1 c2 d2 c3 d3
  simp only [Int.mul_one, Int.zero_mul, not_lt]
  exact mul_nonneg
    (add_nonneg
      (mul_nonneg
        (add_nonneg (mul_nonneg (mul_self_nonneg _) (Nat.cast_nonneg _))
          (mul_nonneg (mul_self_nonneg _) (Nat.cast_nonneg _)))
        (Nat.cast_nonneg _))
      (mul_nonneg (mul_self_nonneg _) (Nat.cast_nonneg _)))
    (Nat.cast_nonneg _)

/-- C9: for every well-formed graph `g` with nodes `0..N-1`, none of which has a
NaN position, `clean_graph(g, 0)` returns a graph isomorphic to `g`: it has `N`
nodes, `node_map` is a bijection onto them (the identity) preserving positions,
and the output has an edge `node_map[a]`-`node_map[b]` if and only if `g` has an
edge `a`-`b`, so the edge counts are equal. The threshold 0 enters through
`hzero`: no squared distance is below it. -/
theorem clean_graph_zero_threshold_isomorphic {P C D : Type} [Inhabited P] [Inhabited C]
    (M : Metric P D) (zero : C) (g : AMGraph3D P C) (thresh : D)
    (hsym : g.toAMGraph.Symmetric) (hloop : g.toAMGraph.NoSelfLoop)
    (hN : g.toAMGraph.no_nodes ≤ InvalidNodeID)
    (hnan : ∀ n, n < g.toAMGraph.no_nodes → M.isnan0 (g.pos n) = false)
    (hzero : ∀ n m, n < g.toAMGraph.no_nodes → m < n → within M g thresh n m = false) :
    (clean_graph M zero g thresh).toAMGraph.no_nodes = g.toAMGraph.no_nodes ∧
    (∀ a, a < g.toAMGraph.no_nodes → (clean_node_map M g thresh).get a = a) ∧
    Set.BijOn (clean_node_map M g thresh).get {a | a < g.toAMGraph.no_nodes}
      {k | k < (clean_graph M zero g thresh).toAMGraph.no_nodes} ∧
    (∀ a, a < g.toAMGraph.no_nodes →
      (clean_graph M zero g thresh).pos ((clean_node_map M g thresh).get a) = g.pos a) ∧
    (∀ a b, a < g.toAMGraph.no_nodes → b < g.toAMGraph.no_nodes →
      ((clean_graph M zero g thresh).toAMGraph.entry ((clean_node_map M g thresh).get a)
          ((clean_node_map M g thresh).get b) ≠ none ↔
        g.toAMGraph.entry a b ≠ none)) ∧
    edge_count (clean_graph M zero g thresh).toAMGraph = edge_count g.toAMGraph := by
  have hS : survivors M g thresh = List.range g.toAMGraph.no_nodes := by
    unfold survivors
    rw [List.filter_eq_self]
    intro n hn
    rw [List.mem_range] at hn
    have := (mem_survivors M g thresh n).2 ⟨hn, hnan n hn, fun m hm => hzero n m hn hm⟩
    exact (List.mem_filter.1 this).2
  have hK : (clean_graph M zero g thresh).toAMGraph.no_nodes = g.toAMGraph.no_nodes := by
    rw [no_nodes_clean_graph, hS, List.length_range]
  have hnode : ∀ a, a < g.toAMGraph.no_nodes →
      (clean_nodes M g thresh).1.pos a = g.pos a ∧ (clean_node_map M g thresh).get a = a := by
    intro a ha
    have h := (cleanInv_clean_nodes M g thresh).node a a (by
      have h2 : (survivors M g thresh)[a]? = some a := by rw [hS]; exact List.getElem?_range ha
      exact h2)
    exact ⟨h.1, h.2.2⟩
  have hid : ∀ a, a < g.toAMGraph.no_nodes → (clean_node_map M g thresh).get a = a :=
    fun a ha => (hnode a ha).2
  have hlive : ∀ a b, g.toAMGraph.entry a b ≠ none →
      a < g.toAMGraph.no_nodes ∧ b < g.toAMGraph.no_nodes ∧ a ≠ b := by
    intro a b h
    refine ⟨?_, ?_, ?_⟩
    · cases h1 : g.toAMGraph.entry a b with
      | none => exact absurd h1 h
      | some e => exact AMGraph.live_of_entry h1
    · cases h1 : g.toAMGraph.entry b a with
      | none => rw [hsym a b] at h; exact absurd h1 h
      | some e => exact AMGraph.live_of_entry h1
    · intro hab
      rw [hab] at h
      exact h (hloop b)
  have hedge : ∀ a b, a < g.toAMGraph.no_nodes → b < g.toAMGraph.no_nodes →
      ((clean_graph M zero g thresh).toAMGraph.entry a b ≠ none ↔
        g.toAMGraph.entry a b ≠ none) := by
    intro a b ha hb
    rw [entry_clean_graph]
    constructor
    · rintro ⟨c, hc, _, _, _, hxy⟩
      obtain ⟨n, hn, _, nn, hnn, hceq⟩ := (mem_connect_calls g _ c).1 hc
      obtain ⟨_, hnn2, _⟩ := hlive n nn hnn
      rw [hid n hn, hid nn hnn2] at hceq
      subst hceq
      rcases hxy with ⟨h1, h2⟩ | ⟨h1, h2⟩
      · rw [h1, h2]; exact hnn
      · rw [h1, h2, hsym]; exact hnn
    · intro h
      obtain ⟨_, _, hab⟩ := hlive a b h
      refine ⟨(a, b), ?_, hab, ?_, ?_, Or.inl ⟨rfl, rfl⟩⟩
      · rw [mem_connect_calls]
        refine ⟨a, ha, ?_, b, h, ?_⟩
        · rw [hid a ha]
          exact Nat.ne_of_lt (Nat.lt_of_lt_of_le ha hN)
        · rw [hid a ha, hid b hb]
      · rw [hS, List.length_range]; exact ha
      · rw [hS, List.length_range]; exact hb
  refine ⟨hK, hid, ?_, ?_, ?_, ?_⟩
  · refine ⟨?_, ?_, ?_⟩
    · intro a ha
      simp only [Set.mem_setOf_eq] at ha ⊢
      rw [hid a ha, hK]; exact ha
    · intro a ha b hb hab
      simp only [Set.mem_setOf_eq] at ha hb
      rw [hid a ha, hid b hb] at hab
      exact hab
    · intro k hk
      simp only [Set.mem_setOf_eq] at hk
      rw [hK] at hk
      exact ⟨k, hk, hid k hk⟩
  · intro a ha
    rw [hid a ha]
    unfold clean_graph
    rw [(clean_edges_spec zero g _ _).2.1]
    exact (hnode a ha).1
  · intro a b ha hb
    rw [hid a ha, hid b hb]
    exact hedge a b ha hb
  · unfold edge_count
    rw [hK]
    congr 1
    apply List.map_congr_left
    intro a ha
    rw [List.mem_range] at ha
    congr 1
    apply List.filter_congr
    intro b hb
    rw [List.mem_range] at hb
    have hb2 : b < g.toAMGraph.no_nodes := Nat.lt_trans hb ha
    have := hedge a b ha hb2
    cases h1 : (clean_graph M zero g thresh).toAMGraph.entry a b <;>
      cases h2 : g.toAMGraph.entry a b <;> simp [h1, h2] at this ⊢

theorem clean_graph_zero_threshold_isomorphic_witness :
    (clean_graph exactMetric 0 scenarioPath (Dbl.frac 0 1)).toAMGraph.no_nodes =
      scenarioPath.toAMGraph.no_nodes ∧
    (∀ a, a < scenarioPath.toAMGraph.no_nodes →
      (clean_node_map exactMetric scenarioPath (Dbl.frac 0 1)).get a = a) ∧
    Set.BijOn (clean_node_map exactMetric scenarioPath (Dbl.frac 0 1)).get
      {a | a < scenarioPath.toAMGraph.no_nodes}
      {k | k < (clean_graph exactMetric 0 scenarioPath (Dbl.frac 0 1)).toAMGraph.no_nodes} ∧
    (∀ a, a < scenarioPath.toAMGraph.no_nodes →
      (clean_graph exactMetric 0 scenarioPath (Dbl.frac 0 1)).pos
        ((clean_node_map exactMetric scenarioPath (Dbl.frac 0 1)).get a) = scenarioPath.pos a) ∧
    (∀ a b, a < scenarioPath.toAMGraph.no_nodes → b < scenarioPath.toAMGraph.no_nodes →
      ((clean_graph exactMetric 0 scenarioPath (Dbl.frac 0 1)).toAMGraph.entry
          ((clean_node_map exactMetric scenarioPath (Dbl.frac 0 1)).get a)
          ((clean_node_map exactMetric scenarioPath (Dbl.frac 0 1)).get b) ≠ none ↔
        scenarioPath.toAMGraph.entry a b ≠ none)) ∧
    edge_count (clean_graph exactMetric 0 scenarioPath (Dbl.frac 0 1)).toAMGraph =
      edge_count scenarioPath.toAMGraph :=
  clean_graph_zero_threshold_isomorphic exactMetric 0 scenarioPath (Dbl.frac 0 1)
    (AMGraph.symmetric_of_check (by decide)) (AMGraph.noSelfLoop_of_check (by decide))
    (by decide)
    (fun n _ => match n with
      | 0 => rfl
      | 1 => rfl
      | _ + 2 => rfl)
    (fun _ _ _ _ => exact_sqr_dist_not_lt_zero _ _)

/-- In the exact arithmetic a distance to a position with a NaN first coordinate
is below no threshold. -/
theorem exact_not_lt_of_nan (p q : Vec3d) (t : Dbl) (h : exactMetric.isnan0 q = true) :
    exactMetric.lt (exactMetric.sqr_dist p q) t = false := by
  obtain ⟨px, py, pz⟩ := p
  obtain ⟨qx, qy, qz⟩ := q
  cases qx with
  | frac a b => simp [exactMetric, Dbl.isnan] at h
  | nan =>
    cases px <;> cases py <;> cases pz <;> cases qy <;> cases qz <;>
      simp [exactMetric, Vec3d.sqr_dist, Dbl.sub, Dbl.mul, Dbl.add, Dbl.lt]

/-- C10, as stated, fails: in the scenario node 2 has the position (0,NaN,0), not
a number in its second coordinate, and still gets the output node 1 with that
position; and node 1, at the all-NaN position, is a neighbour of node 0, so the
second loop calls `connect_nodes(0, InvalidNodeID)`. -/
theorem clean_graph_nan_counterexample :
    scenarioNaN.toAMGraph.Symmetric ∧ scenarioNaN.toAMGraph.NoSelfLoop ∧
      (scenarioNaN.pos 2).y.isnan = true ∧
      (clean_node_map exactMetric scenarioNaN (Dbl.frac 1 100)).get 2 = 1 ∧
      (clean_graph exactMetric 0 scenarioNaN (Dbl.frac 1 100)).toAMGraph.no_nodes = 2 ∧
      (clean_graph exactMetric 0 scenarioNaN (Dbl.frac 1 100)).pos 1 = scenarioNaN.pos 2 ∧
      exactMetric.isnan0 (scenarioNaN.pos 1) = true ∧
      (0, InvalidNodeID) ∈
        connect_calls scenarioNaN (clean_node_map exactMetric scenarioNaN (Dbl.frac 1 100)) :=
  ⟨AMGraph.symmetric_of_check (by decide), AMGraph.noSelfLoop_of_check (by decide),
    by decide, by decide, by decide, by decide, by decide, by decide⟩

/-- C10, amended: for every graph `g` and threshold, a node whose position has a
NaN first coordinate gets no output node (`node_map` sends it to `InvalidNodeID`
and it is not among the nodes for which output nodes are made), and no
`connect_nodes` call has `InvalidNodeID` as its first endpoint. When moreover
every neighbour in `g` is a live node whose first coordinate is a number, no
`connect_nodes` call has `InvalidNodeID` as an endpoint and every output edge
joins two output nodes that are images of original nodes whose first coordinate
is a number. `hN` says that NodeIDs fit in `size_t`, `hlaw` that a distance to a
NaN position is never below the threshold. -/
theorem clean_graph_nan_nodes {P C D : Type} [Inhabited P] [Inhabited C]
    (M : Metric P D) (zero : C) (g : AMGraph3D P C) (thresh : D)
    (hN : g.toAMGraph.no_nodes ≤ InvalidNodeID)
    (hlaw : ∀ n m, M.isnan0 (g.pos m) = true → within M g thresh n m = false) :
    (∀ n, n < g.toAMGraph.no_nodes → M.isnan0 (g.pos n) = true →
      (clean_node_map M g thresh).get n = InvalidNodeID ∧ n ∉ survivors M g thresh) ∧
    (clean_graph M zero g thresh).toAMGraph.no_nodes = (survivors M g thresh).length ∧
    (∀ c ∈ connect_calls g (clean_node_map M g thresh), c.1 ≠ InvalidNodeID) ∧
    ((∀ n nn, g.toAMGraph.entry n nn ≠ none →
        nn < g.toAMGraph.no_nodes ∧ M.isnan0 (g.pos nn) = false) →
      (∀ c ∈ connect_calls g (clean_node_map M g thresh), c.2 ≠ InvalidNodeID) ∧
      ∀ x y, (clean_graph M zero g thresh).toAMGraph.entry x y ≠ none →
        ∃ n nn, n < g.toAMGraph.no_nodes ∧ nn < g.toAMGraph.no_nodes ∧
          M.isnan0 (g.pos n) = false ∧ M.isnan0 (g.pos nn) = false ∧
          x = (clean_node_map M g thresh).get n ∧ y = (clean_node_map M g thresh).get nn ∧
          x < (clean_graph M zero g thresh).toAMGraph.no_nodes ∧
          y < (clean_graph M zero g thresh).toAMGraph.no_nodes) := by
  have hvalid : ∀ k, k < g.toAMGraph.no_nodes → M.isnan0 (g.pos k) = false →
      (clean_node_map M g thresh).get k < (survivors M g thresh).length := by
    intro k hk hnan
    obtain ⟨i, s, hi, hget⟩ := node_map_of_number M g thresh hlaw k hk hnan
    rw [hget]
    exact lt_length_of_getElem? hi
  have hnum : ∀ n, n < g.toAMGraph.no_nodes →
      (clean_node_map M g thresh).get n ≠ InvalidNodeID → M.isnan0 (g.pos n) = false := by
    intro n hn hv
    cases h : M.isnan0 (g.pos n) with
    | false => rfl
    | true => exact absurd ((cleanInv_clean_nodes M g thresh).nan n hn h) hv
  refine ⟨?_, no_nodes_clean_graph M zero g thresh, ?_, ?_⟩
  · intro n hn hnan
    refine ⟨(cleanInv_clean_nodes M g thresh).nan n hn hnan, ?_⟩
    intro hmem
    have := ((mem_survivors M g thresh n).1 hmem).2.1
    rw [hnan] at this
    cases this
  · intro c hc
    obtain ⟨n, _, hv, nn, _, hceq⟩ := (mem_connect_calls g _ c).1 hc
    rw [hceq]
    exact hv
  · intro hnbr
    have hsecond : ∀ c ∈ connect_calls g (clean_node_map M g thresh),
        c.2 < (survivors M g thresh).length := by
      intro c hc
      obtain ⟨n, _, _, nn, hnn, hceq⟩ := (mem_connect_calls g _ c).1 hc
      rw [hceq]
      exact hvalid nn (hnbr n nn hnn).1 (hnbr n nn hnn).2
    constructor
    · intro c hc
      exact Nat.ne_of_lt (Nat.lt_of_lt_of_le (hsecond c hc)
        ((length_survivors_le M g thresh).trans hN))
    · intro x y hxy
      obtain ⟨c, hc, _, h1, h2, hcase⟩ := (entry_clean_graph M zero g thresh x y).1 hxy
      obtain ⟨n, hn, hv, nn, hnn, hceq⟩ := (mem_connect_calls g _ c).1 hc
      subst hceq
      rw [no_nodes_clean_graph]
      rcases hcase with ⟨hx, hy⟩ | ⟨hx, hy⟩
      · exact ⟨n, nn, hn, (hnbr n nn hnn).1, hnum n hn hv, (hnbr n nn hnn).2, hx, hy,
          hx ▸ h1, hy ▸ h2⟩
      · exact ⟨nn, n, (hnbr n nn hnn).1, hn, (hnbr n nn hnn).2, hnum n hn hv, hx, hy,
          hx ▸ h2, hy ▸ h1⟩

theorem clean_graph_nan_nodes_witness :
    (∀ n, n < scenarioDeleted.toAMGraph.no_nodes →
      exactMetric.isnan0 (scenarioDeleted.pos n) = true →
      (clean_node_map exactMetric scenarioDeleted (Dbl.frac 1 100)).get n = InvalidNodeID ∧
        n ∉ survivors exactMetric scenarioDeleted (Dbl.frac 1 100)) ∧
    (clean_graph exactMetric 0 scenarioDeleted (Dbl.frac 1 100)).toAMGraph.no_nodes =
      (survivors exactMetric scenarioDeleted (Dbl.frac 1 100)).length ∧
    (∀ c ∈ connect_calls scenarioDeleted
        (clean_node_map exactMetric scenarioDeleted (Dbl.frac 1 100)), c.1 ≠ InvalidNodeID) ∧
    ((∀ n nn, scenarioDeleted.toAMGraph.entry n nn ≠ none →
        nn < scenarioDeleted.toAMGraph.no_nodes ∧
          exactMetric.isnan0 (scenarioDeleted.pos nn) = false) →
      (∀ c ∈ connect_calls scenarioDeleted
          (clean_node_map exactMetric scenarioDeleted (Dbl.frac 1 100)),
        c.2 ≠ InvalidNodeID) ∧
      ∀ x y, (clean_graph exactMetric 0 scenarioDeleted (Dbl.frac 1 100)).toAMGraph.entry x y
          ≠ none →
        ∃ n nn, n < scenarioDeleted.toAMGraph.no_nodes ∧
          nn < scenarioDeleted.toAMGraph.no_nodes ∧
          exactMetric.isnan0 (scenarioDeleted.pos n) = false ∧
          exactMetric.isnan0 (scenarioDeleted.pos nn) = false ∧
          x = (clean_node_map exactMetric scenarioDeleted (Dbl.frac 1 100)).get n ∧
          y = (clean_node_map exactMetric scenarioDeleted (Dbl.frac 1 100)).get nn ∧
          x < (clean_graph exactMetric 0 scenarioDeleted (Dbl.frac 1 100)).toAMGraph.no_nodes ∧
          y < (clean_graph exactMetric 0 scenarioDeleted (Dbl.frac 1 100)).toAMGraph.no_nodes) :=
  clean_graph_nan_nodes exactMetric 0 scenarioDeleted (Dbl.frac 1 100) (by decide)
    (fun _ _ h => exact_not_lt_of_nan _ _ _ h)

/-! ## The traversal engine and `minimum_spanning_tree`: the contract -/

/-- C11 fails on the code: for the triangle with nodes at (0,0,0), (3,0,0), (3,4,0)
(edge lengths 3, 4, 5, the exact square roots of the squared distances) and root 0,
`minimum_spanning_tree` returns the edges 0-1 and 0-2 of total length 8, while the
spanning tree with the edges 0-1 and 1-2 has total length 7. -/
theorem minimum_spanning_tree_not_minimal :
    (∀ a, a < 3 → ∀ b, b < 3 →
      exactMetric.sqr_dist (triangle3D.pos a) (triangle3D.pos b) =
        Dbl.frac (triangleLen a b * triangleLen a b) 1) ∧
    (minimum_spanning_tree triangleLen triangle3D 0).map (fun t => t.toAMGraph) =
      some ⟨[[(1, 0), (2, 1)], [(0, 0)], [(0, 1)]], 2⟩ ∧
    (minimum_spanning_tree triangleLen triangle3D 0).map
      (fun t => total_length triangleLen t.toAMGraph) = some 8 ∧
    trianglePath.no_nodes = triangle.no_nodes ∧
    (∀ a, a < 3 → ∀ b, b < 3 → trianglePath.entry a b ≠ none → triangle.entry a b ≠ none) ∧
    trianglePath.entry 0 1 ≠ none ∧ trianglePath.entry 1 2 ≠ none ∧
    total_length triangleLen trianglePath = 7 := by
  decide

/-- C14: `init` is a no-op while a run is active: when the queue is non-empty,
`init(n)` leaves the whole state (queue, distance table, visited set, frontier set,
last popped element) unchanged; when the queue is empty, `init(n)` sets the queue
to the single entry `(0, n, InvalidNodeID)`, `dist[n] = 0`, every other distance
to the maximum value, and empties `visited` and `front`. -/
theorem init_frame {W : Type} [LinearOrderedAddCommGroup W] (s : BreadthFirstSearch W)
    (n : NodeID) :
    (s.pq ≠ [] → s.init n = s) ∧
    (s.pq = [] →
      (s.init n).pq = [⟨0, n, InvalidNodeID⟩] ∧ (s.init n).dist n = some 0 ∧
      (∀ m, m ≠ n → (s.init n).dist m = none) ∧
      (s.init n).visited = [] ∧ (s.init n).front = []) := by
  constructor
  · intro h
    simp [BreadthFirstSearch.init, h]
  · intro h
    simp only [BreadthFirstSearch.init, h, if_true, pq_push, neg_zero, Function.update_same]
    refine ⟨trivial, trivial, ?_, trivial, trivial⟩
    intro m hm
    simp [Function.update, hm]

/-- C17, as stated, fails: there is no graph whose stored EdgeIDs are valid handles
with a node `n` and a neighbour `nn` taken from `g.neighbors(n)` for which
`g.find_edge(n, nn)` is invalid, so the default-colour branch of `clean_graph` is
never taken. -/
theorem clean_graph_default_colour_unreachable :
    ¬ ∃ (g : AMGraph) (n nn : NodeID),
      (∀ a b e, g.entry a b = some e → e ≠ InvalidEdgeID) ∧ nn ∈ g.neighbors n ∧
        valid_edge (g.find_edge n nn) = false := by
  rintro ⟨g, n, nn, hvalid, hnn, hbad⟩
  rw [AMGraph.valid_find_edge_of_neighbor g n nn hvalid hnn] at hbad
  cases hbad

/-- C17, amended: in the edge-reconstruction pass of `clean_graph` the default-colour
branch is not reachable on a graph whose stored EdgeIDs are valid handles: for every
node `n` and every neighbour `nn` taken from `g.neighbors(n)`, `g.find_edge(n, nn)`
is valid, and an output edge that gets a colour gets the colour of the original
edge `n`-`nn`. -/
theorem clean_edge_copies_colour {P C : Type} (zero : C) (g : AMGraph3D P C)
    (node_map : NodeMap) (gn : AMGraph3D P C) (n nn : NodeID)
    (hvalid : ∀ a b e, g.toAMGraph.entry a b = some e → e ≠ InvalidEdgeID)
    (hnn : nn ∈ g.toAMGraph.neighbors n) :
    valid_edge (g.toAMGraph.find_edge n nn) = true ∧
    clean_edge zero g node_map n gn nn =
      if valid_edge (gn.connect_nodes (node_map.get n) (node_map.get nn)).1 then
        (gn.connect_nodes (node_map.get n) (node_map.get nn)).2.set_edge_color
          (gn.connect_nodes (node_map.get n) (node_map.get nn)).1
          (g.edge_color (g.toAMGraph.find_edge n nn))
      else (gn.connect_nodes (node_map.get n) (node_map.get nn)).2 := by
  have hv : valid_edge (g.toAMGraph.find_edge n nn) = true :=
    AMGraph.valid_find_edge_of_neighbor g.toAMGraph n nn hvalid hnn
  refine ⟨hv, ?_⟩
  simp only [clean_edge, hv, if_true]

theorem clean_edge_copies_colour_witness :
    valid_edge (scenarioPath.toAMGraph.find_edge 0 1) = true ∧
    clean_edge 7 scenarioPath [(0, 0), (1, 1), (2, 2)] 0 scenarioPath 1 =
      if valid_edge (scenarioPath.connect_nodes (NodeMap.get [(0, 0), (1, 1), (2, 2)] 0)
          (NodeMap.get [(0, 0), (1, 1), (2, 2)] 1)).1 then
        (scenarioPath.connect_nodes (NodeMap.get [(0, 0), (1, 1), (2, 2)] 0)
          (NodeMap.get [(0, 0), (1, 1), (2, 2)] 1)).2.set_edge_color
          (scenarioPath.connect_nodes (NodeMap.get [(0, 0), (1, 1), (2, 2)] 0)
            (NodeMap.get [(0, 0), (1, 1), (2, 2)] 1)).1
          (scenarioPath.edge_color (scenarioPath.toAMGraph.find_edge 0 1))
      else (scenarioPath.connect_nodes (NodeMap.get [(0, 0), (1, 1), (2, 2)] 0)
          (NodeMap.get [(0, 0), (1, 1), (2, 2)] 1)).2 :=
  clean_edge_copies_colour 7 scenarioPath [(0, 0), (1, 1), (2, 2)] scenarioPath 0 1
    (AMGraph.validIds_of_check (by decide)) (by decide)

/-- C18: frontier invariant. In a run started by `init(start)` on a graph with
non-negative edge lengths, after any positive number of `step()` calls the frontier
set is exactly the set of nodes that have a tentative distance below the initial
maximum and are not yet visited; in particular `front` and `visited` are disjoint,
and the frontier is empty once `step()` has returned false. -/
theorem frontier_invariant {W : Type} [LinearOrderedAddCommGroup W] (g : AMGraph)
    (len : NodeID → NodeID → W) (start : NodeID) (hlen : ∀ a b, 0 ≤ len a b)
    (hlive : ∀ a b, b ∈ g.neighbors a → b < g.no_nodes) (hstart : start < g.no_nodes)
    (s0 : BreadthFirstSearch W) (hs0 : s0.pq = []) (k : Nat) :
    (∀ m, m ∈ (BreadthFirstSearch.steps g len (k + 1) (s0.init start)).front ↔
      ((BreadthFirstSearch.steps g len (k + 1) (s0.init start)).dist m ≠ none ∧
        m ∉ (BreadthFirstSearch.steps g len (k + 1) (s0.init start)).visited)) ∧
    (∀ m, m ∈ (BreadthFirstSearch.steps g len (k + 1) (s0.init start)).front →
      m ∉ (BreadthFirstSearch.steps g len (k + 1) (s0.init start)).visited) ∧
    (((BreadthFirstSearch.steps g len k (s0.init start)).step g len).1 = false →
      (BreadthFirstSearch.steps g len (k + 1) (s0.init start)).front = []) := by
  have inv := runInv_run hlen hlive hstart s0 hs0 (k + 1)
  have hst := start_mem_visited hlen hlive (s0.init start)
    (runInv_init g len start hstart s0 hs0) (k + 1) (Nat.succ_pos k)
  have hfront : ∀ m, m ∈ (BreadthFirstSearch.steps g len (k + 1) (s0.init start)).front ↔
      ((BreadthFirstSearch.steps g len (k + 1) (s0.init start)).dist m ≠ none ∧
        m ∉ (BreadthFirstSearch.steps g len (k + 1) (s0.init start)).visited) := by
    intro m
    rw [inv.front_iff m]
    constructor
    · rintro ⟨h1, h2, _⟩
      exact ⟨h1, h2⟩
    · rintro ⟨h1, h2⟩
      exact ⟨h1, h2, fun h => h2 (h ▸ hst)⟩
  refine ⟨hfront, fun m hm => ((hfront m).1 hm).2, ?_⟩
  intro hb
  have hq : (BreadthFirstSearch.steps g len (k + 1) (s0.init start)).pq = [] := by
    rw [steps_succ_right]
    exact ((step_visited hlen hlive _ (runInv_run hlen hlive hstart s0 hs0 k)).2.2.1 hb).1
  rw [List.eq_nil_iff_forall_not_mem]
  intro m hm
  obtain ⟨h1, h2⟩ := (hfront m).1 hm
  cases hd : (BreadthFirstSearch.steps g len (k + 1) (s0.init start)).dist m with
  | none => exact h1 hd
  | some x =>
    rcases inv.pending m x hd with h | ⟨e, he, _, _⟩
    · exact h2 h
    · rw [hq] at he
      cases he

theorem frontier_invariant_witness :
    (∀ m, m ∈ (BreadthFirstSearch.steps cycle4 unitLen (0 + 1)
          (BreadthFirstSearch.idle.init 0)).front ↔
      ((BreadthFirstSearch.steps cycle4 unitLen (0 + 1)
          (BreadthFirstSearch.idle.init 0)).dist m ≠ none ∧
        m ∉ (BreadthFirstSearch.steps cycle4 unitLen (0 + 1)
          (BreadthFirstSearch.idle.init 0)).visited)) ∧
    (BreadthFirstSearch.steps cycle4 unitLen (0 + 1) (BreadthFirstSearch.idle.init 0)).front
      = [3, 1] :=
  ⟨(frontier_invariant cycle4 unitLen 0 unitLen_nonneg
    (AMGraph.neighbors_live_of_check (by decide)) (by decide) BreadthFirstSearch.idle rfl 0).1,
    by decide⟩

/-- C20: in a run started by `init(start)` on a graph with non-negative edge lengths
no node is visited twice: the visited set never holds a node twice and every queue
entry of an already-visited node is stale, so it is discarded when popped.
Consequently each `step()` call terminates (as many passes as the queue has entries
suffice, and the call ends having visited a node or emptied the queue), `step()`
returns true at most `no_nodes` times, and the driving loop of
`minimum_spanning_tree` terminates within `no_nodes + 1` calls. -/
theorem no_node_visited_twice {W : Type} [LinearOrderedAddCommGroup W] (g : AMGraph)
    (len : NodeID → NodeID → W) (start : NodeID) (hlen : ∀ a b, 0 ≤ len a b)
    (hlive : ∀ a b, b ∈ g.neighbors a → b < g.no_nodes) (hstart : start < g.no_nodes)
    (s0 : BreadthFirstSearch W) (hs0 : s0.pq = []) (k : Nat) :
    (BreadthFirstSearch.steps g len k (s0.init start)).visited.Nodup ∧
    (∀ e ∈ (BreadthFirstSearch.steps g len k (s0.init start)).pq,
      e.node ∈ (BreadthFirstSearch.steps g len k (s0.init start)).visited →
      is_fresh e.priority ((BreadthFirstSearch.steps g len k (s0.init start)).dist e.node)
        = false) ∧
    (∀ fuel, (BreadthFirstSearch.steps g len k (s0.init start)).pq.length ≤ fuel →
      BreadthFirstSearch.step_loop g len fuel (BreadthFirstSearch.steps g len k (s0.init start))
        = (BreadthFirstSearch.steps g len k (s0.init start)).step g len) ∧
    (((BreadthFirstSearch.steps g len k (s0.init start)).step g len).1 = true ∨
      ((BreadthFirstSearch.steps g len k (s0.init start)).step g len).2.pq = []) ∧
    true_steps g len k (s0.init start) ≤ g.no_nodes ∧
    ∀ gn, (mst_loop g len (g.no_nodes + 1) (s0.init start) gn).isSome = true := by
  have inv0 := runInv_init g len start hstart s0 hs0
  have inv := runInv_run hlen hlive hstart s0 hs0 k
  have hcount := visited_length_steps hlen hlive k (s0.init start) inv0
  have hbound := visited_length_le inv
  refine ⟨inv.vis_nodup, ?_, ?_, ?_, ?_, ?_⟩
  · intro e he hv
    cases hf : is_fresh e.priority
        ((BreadthFirstSearch.steps g len k (s0.init start)).dist e.node) with
    | false => rfl
    | true => exact absurd ((is_fresh_iff _ _).1 hf) (inv.stale_vis e he hv)
  · intro fuel hfuel
    exact step_loop_fuel g len fuel _ hfuel
  · cases hb : ((BreadthFirstSearch.steps g len k (s0.init start)).step g len).1 with
    | true => exact Or.inl rfl
    | false => exact Or.inr ((step_visited hlen hlive _ inv).2.2.1 hb).1
  · omega
  · intro gn
    apply mst_loop_isSome hlen hlive _ _ _ inv0
    omega

theorem no_node_visited_twice_witness :
    (BreadthFirstSearch.steps cycle4 unitLen 6 (BreadthFirstSearch.idle.init 0)).visited.Nodup ∧
    true_steps cycle4 unitLen 6 (BreadthFirstSearch.idle.init 0) ≤ cycle4.no_nodes ∧
    ∀ gn, (mst_loop cycle4 unitLen (cycle4.no_nodes + 1) (BreadthFirstSearch.idle.init 0)
      gn).isSome = true :=
  ⟨(no_node_visited_twice cycle4 unitLen 0 unitLen_nonneg
      (AMGraph.neighbors_live_of_check (by decide)) (by decide) BreadthFirstSearch.idle rfl 6).1,
    (no_node_visited_twice cycle4 unitLen 0 unitLen_nonneg
      (AMGraph.neighbors_live_of_check (by decide)) (by decide) BreadthFirstSearch.idle rfl
      6).2.2.2.2.1,
    (no_node_visited_twice cycle4 unitLen 0 unitLen_nonneg
      (AMGraph.neighbors_live_of_check (by decide)) (by decide) BreadthFirstSearch.idle rfl
      6).2.2.2.2.2⟩

/-! ## `minimum_spanning_tree`: the output graph -/

/-- C12, as stated, fails. On the 4-cycle 0-1-2-3-0 with unit lengths and root 0 the
loop of `minimum_spanning_tree` calls `connect_nodes` four times, once per `step()`
that returned true, and the first call is `connect_nodes(0, InvalidNodeID)`, made for
the initial step that visits the root. And finite positions do not make the lengths
finite: for two joined nodes at (0,0,0) and (10^200,0,0) the length is infinite, node
1 is never relaxed, and the output has no edge instead of `N - 1 = 1`, even when the
first call leaves the output graph unchanged. -/
theorem minimum_spanning_tree_first_call :
    mst_calls_fp cycle4 (fun a b => some (unitLen a b)) (cycle4.no_nodes + 1)
      ((BreadthFirstSearch.idle : BreadthFirstSearch Int).init 0)
      = [(0, InvalidNodeID), (1, 0), (3, 0), (2, 1)] ∧
    farPair3D.toAMGraph.Adj 0 1 ∧
    (minimum_spanning_tree_fp leave_unchanged farLen farPair3D 0).map
      (fun t => (t.toAMGraph.no_nodes, edge_count t.toAMGraph)) = some (2, 0) := by
  decide

/-- C12, amended: for a graph `g` with symmetric neighbour maps all of whose edges
have a length that is a finite non-negative number and all of whose `N` nodes are
reachable from the live node `root`: `connect_nodes` is called after every `step()`
that returns true; the first call is `connect_nodes(root, InvalidNodeID)`, outside the
contract of `connect_nodes`, and every later call joins two live nodes adjacent in
`g`. When that first call leaves the output graph unchanged,
`minimum_spanning_tree(g, root)` returns a graph with the same `N` nodes at the same
positions and exactly `N - 1` edges, each joining two live nodes adjacent in `g`,
that is connected and acyclic. -/
theorem minimum_spanning_tree_of_connected {W : Type} [LinearOrderedAddCommGroup W]
    {P C : Type} [Inhabited P] [Inhabited C] (undef : AMGraph → NodeID → NodeID → AMGraph)
    (len : NodeID → NodeID → Option W) (g : AMGraph3D P C) (root : NodeID)
    (hlen : ∀ a b l, len a b = some l → 0 ≤ l)
    (hfin : ∀ a b, g.toAMGraph.Adj a b → (len a b).isSome = true)
    (hsym : g.toAMGraph.Symmetric) (hN : g.toAMGraph.no_nodes ≤ InvalidNodeID)
    (hroot : root < g.toAMGraph.no_nodes)
    (hconn : ∀ v, v < g.toAMGraph.no_nodes → g.toAMGraph.Reach root v) :
    (∃ rest, mst_calls_fp g.toAMGraph len (g.toAMGraph.no_nodes + 1)
        ((BreadthFirstSearch.idle : BreadthFirstSearch W).init root)
        = (root, InvalidNodeID) :: rest ∧
      ∀ c ∈ rest, c.1 < g.toAMGraph.no_nodes ∧ c.2 < g.toAMGraph.no_nodes ∧
        g.toAMGraph.Adj c.2 c.1) ∧
    (undef (mst_nodes g).toAMGraph root InvalidNodeID = (mst_nodes g).toAMGraph →
      ∃ t, minimum_spanning_tree_fp undef len g root = some t ∧
        t.toAMGraph.no_nodes = g.toAMGraph.no_nodes ∧
        (∀ n, n < g.toAMGraph.no_nodes → t.pos n = g.pos n) ∧
        edge_count t.toAMGraph = g.toAMGraph.no_nodes - 1 ∧
        (∀ a b, t.toAMGraph.Adj a b →
          a < g.toAMGraph.no_nodes ∧ b < g.toAMGraph.no_nodes ∧ g.toAMGraph.Adj a b) ∧
        (∀ a b, a < g.toAMGraph.no_nodes → b < g.toAMGraph.no_nodes →
          t.toAMGraph.Reach a b) ∧
        t.toAMGraph.Acyclic) := by
  have hnodes : (g.toAMGraph.finite_part len).no_nodes = g.toAMGraph.no_nodes :=
    AMGraph.no_nodes_restrict _ _
  constructor
  · obtain ⟨rest, h1, h2⟩ := mst_calls_fp_spec len root hlen
      (AMGraph.neighbors_live_of_symmetric hsym) hroot g.toAMGraph.no_nodes
    exact ⟨rest, h1, fun c hc => ⟨(h2 c hc).1, (h2 c hc).2.1, (h2 c hc).2.2.1⟩⟩
  · intro hnoop
    obtain ⟨gn, bfs, hrun, inv, hq, minv⟩ :=
      minimum_spanning_tree_fp_run undef len g root hlen hsym hN hroot hnoop
    have hconn2 : ∀ v, v < (g.toAMGraph.finite_part len).no_nodes →
        (g.toAMGraph.finite_part len).Reach root v := by
      intro v hv
      rw [hnodes] at hv
      rw [AMGraph.reach_finite_part]
      exact Relation.ReflTransGen.mono (fun a b hab => ⟨hab, hfin a b hab⟩) (hconn v hv)
    have hall : ∀ v, v < g.toAMGraph.no_nodes → v ∈ bfs.visited :=
      fun v hv => visited_of_reach inv hq (hconn2 v (by rw [hnodes]; exact hv))
    have hlength := visited_length_of_connected inv hq hconn2
    have hlive : ∀ v ∈ bfs.visited, v < g.toAMGraph.no_nodes := by
      intro v hv
      rw [← hnodes]
      exact inv.vis_live v hv
    refine ⟨_, hrun, by rw [minv.nodes, hnodes], (mst_nodes_spec g).2.2, ?_, ?_, ?_,
      minv.acyclic⟩
    · rw [minv.count, hlength, hnodes]
    · intro a b hab
      obtain ⟨ha, hb, hadj⟩ := minv.inside a b hab
      refine ⟨hlive a ha, hlive b hb, ?_⟩
      rcases hadj with h | h
      · exact ((g.toAMGraph.adj_restrict _ a b).1 h).1
      · have h2 := ((g.toAMGraph.adj_restrict _ b a).1 h).1
        unfold AMGraph.Adj at h2 ⊢
        rwa [hsym a b]
    · intro a b ha hb
      exact (AMGraph.reach_symm minv.symm (minv.reach a (hall a ha))).trans
        (minv.reach b (hall b hb))

theorem minimum_spanning_tree_of_connected_witness :
    cycle4_3D.toAMGraph.Symmetric ∧
    (∀ v, v < cycle4_3D.toAMGraph.no_nodes → cycle4_3D.toAMGraph.Reach 0 v) ∧
    leave_unchanged (mst_nodes cycle4_3D).toAMGraph 0 InvalidNodeID =
      (mst_nodes cycle4_3D).toAMGraph ∧
    ∃ t, minimum_spanning_tree_fp leave_unchanged (fun a b => some (unitLen a b))
        cycle4_3D 0 = some t ∧
      t.toAMGraph.no_nodes = 4 ∧ edge_count t.toAMGraph = 3 ∧
      (∀ a b, a < 4 → b < 4 → t.toAMGraph.Reach a b) ∧ t.toAMGraph.Acyclic := by
  refine ⟨AMGraph.symmetric_of_check (by decide), cycle4_connected, rfl, ?_⟩
  obtain ⟨t, h1, h2, _, h4, _, h6, h7⟩ :=
    (minimum_spanning_tree_of_connected leave_unchanged (fun a b => some (unitLen a b))
      cycle4_3D 0 (fun a b l h => by cases h; exact unitLen_nonneg a b) (fun _ _ _ => rfl)
      (AMGraph.symmetric_of_check (by decide)) (by decide) (by decide)
      cycle4_connected).2 rfl
  exact ⟨t, h1, h2, h4, h6, h7⟩

end Geometry
